import Mathlib

/-!
Verification of the dependency-graph engine and balanced batch partitioner of
the synapse-to-fabric migration tooling.

The development shallowly embeds two Python modules:

* `tools/batch-grouping/modules/dependency_graph.py` (class `DependencyGraph`)
  together with `balanced_strategy.py` (class `BalancedBatchingStrategy`) and
  the data models of `models.py`, and
* `tools/assessment-processor/modules/dependency_analyzer.py`
  (class `DependencyAnalyzer`) over the objects of `parser.py`.

Modelling conventions:

* Python `set`/`dict` state is represented by insertion-ordered, duplicate-free
  lists (sets collapse duplicates; membership is what matters).  Where the
  Python code iterates over a set whose enumeration order is unspecified
  (Tarjan's outer loop, set successors) the model fixes insertion order.
* Machine integers are `Nat`/`Int`; the two floating-point imbalance tests
  `(max-min)/ideal*100 <= tol` and `(max-min)/avg*100 > tol` are modelled by
  the exact equivalent integer comparisons (all quantities are non-negative
  integers, so the rational comparison is exact; float rounding is ignored).
* Python string helpers (`strip`, `lower`, `sorted`) are re-implemented over
  character lists so that they reduce inside the kernel; they agree with the
  CPython behaviour on the ASCII identifiers concerned.
* Loops are fuel-based structural recursions.  `_rebalance` is fuel-bounded in
  the source itself (`max_iterations = total`); for the unbounded `while`
  loops (Kahn, layering, breadth-first search) the fuel is an upper bound on
  the iteration count and lemmas below establish that it is never exhausted.
-/

namespace SynapseToFabric

/-! ### String helpers (ASCII models of Python `strip`, `lower`, `<`) -/

/-- Whitespace test used by `strip`. -/
def isWs (c : Char) : Bool := c = ' ' ∨ c = '\t' ∨ c = '\n' ∨ c = '\r'

/-- Model of Python `str.strip()`. -/
def strStrip (s : String) : String :=
  ⟨((s.data.dropWhile isWs).reverse.dropWhile isWs).reverse⟩

/-- Lower-casing of one ASCII character. -/
def lowerChar (c : Char) : Char :=
  if 'A' ≤ c ∧ c ≤ 'Z' then Char.ofNat (c.toNat + 32) else c

/-- Model of Python `str.lower()`. -/
def strLower (s : String) : String := ⟨s.data.map lowerChar⟩

/-- Code-point comparison of characters. -/
def chLe (a b : Char) : Bool := a.toNat ≤ b.toNat

/-- Lexicographic string comparison on character lists. -/
def strLeAux : List Char → List Char → Bool
  | [], _ => true
  | _ :: _, [] => false
  | a :: as, b :: bs => if a = b then strLeAux as bs else chLe a b

/-- Model of Python string comparison `a <= b` (code-point lexicographic). -/
def strLe (a b : String) : Bool := strLeAux a.data b.data

/-! ### Insertion sort (model of Python `sorted`, kernel-reducible) -/

/-- Insert an element into a sorted list, after equal-or-smaller elements. -/
def insertSorted (le : α → α → Bool) (a : α) : List α → List α
  | [] => [a]
  | b :: bs => if le b a then b :: insertSorted le a bs else a :: b :: bs

/-- Insertion sort by a boolean comparison.  It agrees with Python `sorted`
whenever the comparison is antisymmetric on the list's elements; every sort
in this development compares by a key ending in the object's (qualified)
name, so the two can differ only between objects that share that key — a
situation the claims exclude by their duplicate-freeness hypotheses. -/
def sortBy (le : α → α → Bool) : List α → List α
  | [] => []
  | a :: as => insertSorted le a (sortBy le as)

/-! ### Data model of `batch-grouping/modules/models.py` -/

/-- Database object types (enum `ObjectType` of `models.py`). -/
inductive ObjectType where
  | SCHEMA | TABLE | VIEW | STORED_PROCEDURE | FUNCTION | STATISTICS
  | EXTERNAL_TABLE | EXTERNAL_DATA_SOURCE | EXTERNAL_FILE_FORMAT | SECURITY
deriving DecidableEq, Repr

/-- Dataclass `DatabaseObject` of `models.py`. -/
structure DatabaseObject where
  name : String
  object_type : ObjectType
  schema_name : String
  status : String := ""
  failure_reason : String := ""
  dependencies : List String := []
  failure_category : String := ""
  impact_score : Int := 0

deriving DecidableEq, Repr

/-- Property `DatabaseObject.qualified_name`: the `schema.name` identity. -/
def DatabaseObject.qualified_name (o : DatabaseObject) : String :=
  o.schema_name ++ "." ++ o.name

/-- Batch dataclass of `models.py` (derived counts omitted; they are
properties computed from `objects`). -/
structure Batch where
  batch_id : Nat
  batch_name : String
  sprint_number : Nat
  object_type_group : String
  objects : List DatabaseObject := []
  dependencies : List Nat := []

deriving DecidableEq, Repr

/-- Output of `DependencyGraph.summary()` (a Python dict with fixed keys). -/
structure GraphSummary where
  total_nodes : Nat
  total_edges : Nat
  num_layers : Nat
  cycle_count : Nat
  cycles : List (List String)
  max_chain_depth : Nat
  root_nodes : Nat
  leaf_nodes : Nat

deriving DecidableEq, Repr

/-- Dataclass `BatchPlan` of `models.py`. -/
structure BatchPlan where
  engagement_name : String := ""
  created_at : String := ""
  total_objects : Nat := 0
  total_batches : Nat := 0
  total_sprints : Nat := 0
  batches : List Batch := []
  dependency_summary : GraphSummary
  warnings : List String := []

deriving DecidableEq, Repr

/-! ### Graph state of `batch-grouping/modules/dependency_graph.py`

The class keeps `_nodes : set[str]`, `_depends_on : dict[str, set[str]]` and
`_depended_by : dict[str, set[str]]`.  The model keeps the node set as an
insertion-ordered duplicate-free list and the two adjacency dictionaries as
one duplicate-free edge list; `(a, b)` means `a` depends on `b`, so
`_depends_on[a]` is the set of second components with first component `a`
and `_depended_by[b]` the set of first components with second component `b`. -/

/-- Model of Python `sorted` over strings. -/
def sortStrings : List String → List String := sortBy strLe

/-- Dictionary lookup. -/
def getAssoc (m : List (String × Nat)) (k : String) : Option Nat :=
  (m.find? (fun p => p.1 = k)).map (fun p => p.2)

/-- Dictionary update (`m[k] = v`). -/
def setAssoc (m : List (String × Nat)) (k : String) (v : Nat) : List (String × Nat) :=
  if (m.find? (fun p => p.1 = k)).isSome then
    m.map (fun p => if p.1 = k then (k, v) else p)
  else m ++ [(k, v)]

/-- Cycle rendering used in error messages (`" -> ".join(c)`). -/
def joinArrow (c : List String) : String := String.intercalate " -> " c

structure DependencyGraph where
  nodes : List String := []
  edges : List (String × String) := []

deriving DecidableEq, Repr

namespace DependencyGraph

/-- Set of nodes a node depends on (`_depends_on[n]`). -/
def dependsOn (g : DependencyGraph) (n : String) : List String :=
  (g.edges.filter (fun e => e.1 = n)).map (fun e => e.2)

/-- Set of nodes depending on a node (`_depended_by[n]`). -/
def dependedBy (g : DependencyGraph) (n : String) : List String :=
  (g.edges.filter (fun e => e.2 = n)).map (fun e => e.1)

/-- Method `get_dependencies` (returns a copy of `_depends_on[node]`). -/
def get_dependencies (g : DependencyGraph) (n : String) : List String :=
  g.dependsOn n

/-- Method `get_dependents` (returns a copy of `_depended_by[node]`). -/
def get_dependents (g : DependencyGraph) (n : String) : List String :=
  g.dependedBy n

/-- Set-insertion of a node (`self._nodes.add(n)`). -/
def addNode (g : DependencyGraph) (n : String) : DependencyGraph :=
  if n ∈ g.nodes then g else { g with nodes := g.nodes ++ [n] }

/-- Raw edge insertion as done inside `build`: registers both endpoints and
the edge `from` depends-on `to`, with set semantics, and with no self-loop
check. -/
def insertEdge (g : DependencyGraph) (a b : String) : DependencyGraph :=
  let g := (g.addNode a).addNode b
  if (a, b) ∈ g.edges then g else { g with edges := g.edges ++ [(a, b)] }

/-- Method `_add_edge`: like raw insertion but refuses self-loops. -/
def add_edge (g : DependencyGraph) (a b : String) : DependencyGraph :=
  if a = b then g else g.insertEdge a b

/-- Method `build`: register every object as a node and add an edge for every
declared dependency string that is non-empty after stripping.  The stripped
string is itself registered as a node whether or not it names an object. -/
def build (g : DependencyGraph) (objects : List DatabaseObject) : DependencyGraph :=
  objects.foldl
    (fun g obj =>
      let g := g.addNode obj.qualified_name
      obj.dependencies.foldl
        (fun g dep =>
          let depClean := strStrip dep
          if depClean = "" then g
          else ((g.addNode depClean).insertEdge obj.qualified_name depClean))
        g)
    g

/-- The `_object_map` lookup: last object with the given qualified name wins,
as in a Python dict filled in list order. -/
def objectMap (objects : List DatabaseObject) (q : String) : Option DatabaseObject :=
  objects.reverse.find? (fun o => o.qualified_name = q)

/-- One iteration of the second loop of `add_implicit_edges` for object
`obj`, given the collected `schemas` list and the full object list. -/
def implicitStep (objects : List DatabaseObject) (schemas : List String)
    (g : DependencyGraph) (obj : DatabaseObject) : DependencyGraph :=
  let qname := obj.qualified_name
  -- Tables, views, stored procedures and functions depend on the schema
  -- object whose (unqualified) name equals their schema name.
  let g :=
    if obj.object_type = ObjectType.TABLE ∨ obj.object_type = ObjectType.VIEW ∨
        obj.object_type = ObjectType.STORED_PROCEDURE ∨
        obj.object_type = ObjectType.FUNCTION then
      schemas.foldl
        (fun g schemaQ =>
          match objectMap objects schemaQ with
          | some schemaObj =>
            if schemaObj.name = obj.schema_name then g.add_edge qname schemaQ else g
          | none => g)
        g
    else g
  -- External tables depend on every external data source, then on every
  -- external file format.
  let g :=
    if obj.object_type = ObjectType.EXTERNAL_TABLE then
      let g := objects.foldl
        (fun g other =>
          if other.object_type = ObjectType.EXTERNAL_DATA_SOURCE then
            g.add_edge qname other.qualified_name
          else g) g
      objects.foldl
        (fun g other =>
          if other.object_type = ObjectType.EXTERNAL_FILE_FORMAT then
            g.add_edge qname other.qualified_name
          else g) g
    else g
  -- Security objects depend on every schema (no name match).
  let g :=
    if obj.object_type = ObjectType.SECURITY then
      schemas.foldl (fun g schemaQ => g.add_edge qname schemaQ) g
    else g
  g

/-- Method `add_implicit_edges`.  The first loop collects the foundation
object lists (of which only `schemas` is ever read); the second adds the
type-based edges via `_add_edge`. -/
def add_implicit_edges (g : DependencyGraph) (objects : List DatabaseObject) :
    DependencyGraph :=
  let schemas := (objects.filter (fun o => o.object_type = ObjectType.SCHEMA)).map
    (fun o => o.qualified_name)
  objects.foldl (implicitStep objects schemas) g

/-- Constructor `DependencyGraph.__init__`: `build` then `add_implicit_edges`. -/
def ofObjects (objects : List DatabaseObject) : DependencyGraph :=
  (build {} objects).add_implicit_edges objects

/-- Structural well-formedness maintained by every graph operation: node and
edge lists are duplicate-free (they model sets) and edge endpoints are
registered nodes. -/
def WF (g : DependencyGraph) : Prop :=
  g.nodes.Nodup ∧ g.edges.Nodup ∧
    ∀ e ∈ g.edges, e.1 ∈ g.nodes ∧ e.2 ∈ g.nodes

instance (g : DependencyGraph) : Decidable g.WF := by
  unfold WF; infer_instance

/-! #### Cycle detection (`detect_cycles`, Tarjan's algorithm) -/

/-- Mutable state of `detect_cycles`: `indices`, `lowlinks`, the explicit
stack (top at the head here; Python appends/pops at the end), the `on_stack`
set and the collected components. -/
structure TarjanState where
  indices : List (String × Nat) := []
  lowlinks : List (String × Nat) := []
  stack : List String := []
  onStack : List String := []
  counter : Nat := 0
  sccs : List (List String) := []

deriving Repr

/-- Value of `lowlinks[v]` (always present when read by the algorithm). -/
def TarjanState.low (st : TarjanState) (v : String) : Nat :=
  (getAssoc st.lowlinks v).getD 0

/-- Value of `indices[v]` (always present when read by the algorithm). -/
def TarjanState.idx (st : TarjanState) (v : String) : Nat :=
  (getAssoc st.indices v).getD 0

/-- The SCC pop loop of `strongconnect`: pop stack entries (and their
`on_stack` marks) until `v` inclusive, collecting them in pop order. -/
def popScc : List String → String → List String × List String
  | [], _ => ([], [])
  | w :: rest, v =>
    if w = v then ([w], rest)
    else
      let p := popScc rest v
      (w :: p.1, p.2)

/-- Recursive `strongconnect` procedure.  The fuel bounds the recursion
depth; it is instantiated with more fuel than there are nodes, and every
nested call targets a node that has just received an index, so the fuel is
never exhausted on any input reachable from `detect_cycles`. -/
def strongconnect (g : DependencyGraph) : Nat → TarjanState → String → TarjanState
  | 0, st, _ => st
  | fuel + 1, st, v =>
    let st := { st with
      indices := setAssoc st.indices v st.counter
      lowlinks := setAssoc st.lowlinks v st.counter
      counter := st.counter + 1
      stack := v :: st.stack
      onStack := st.onStack ++ [v] }
    let st := (g.dependsOn v).foldl
      (fun st w =>
        if (getAssoc st.indices w).isNone then
          let st := strongconnect g fuel st w
          { st with lowlinks := setAssoc st.lowlinks v (min (st.low v) (st.low w)) }
        else if w ∈ st.onStack then
          { st with lowlinks := setAssoc st.lowlinks v (min (st.low v) (st.idx w)) }
        else st)
      st
    if st.low v = st.idx v then
      let p := popScc st.stack v
      { st with
        stack := p.2
        onStack := st.onStack.filter (fun w => w ∉ p.1)
        sccs := if 1 < p.1.length then st.sccs ++ [p.1] else st.sccs }
    else st

/-- Method `detect_cycles`: run `strongconnect` from every unvisited node and
return the strongly connected components of size above one.  The Python
outer loop enumerates the node set in unspecified set order; the model fixes
insertion order. -/
def detect_cycles (g : DependencyGraph) : List (List String) :=
  (g.nodes.foldl
    (fun st n =>
      if (getAssoc st.indices n).isNone then strongconnect g (g.nodes.length + 1) st n
      else st)
    {}).sccs

/-! #### Topological sort (`topological_sort`, Kahn's algorithm) -/

/-- One-pass Kahn loop.  `result` is the emitted order and the queue holds
nodes whose dependency count has reached zero.  The Python in-degree counter
of a node always equals the number of its dependencies not yet emitted, so
the counter-hits-zero test after popping `node` is `all deps emitted`;
dependents of the popped node are scanned in sorted order, as in the source. -/
def kahnRun (g : DependencyGraph) : Nat → List String → List String → List String
  | 0, result, _ => result
  | _ + 1, result, [] => result
  | fuel + 1, result, node :: queue =>
    let result := result ++ [node]
    let newly := (sortStrings (g.dependedBy node)).filter
      (fun d => (g.dependsOn d).all (fun x => x ∈ result))
    kahnRun g fuel result (queue ++ newly)

/-- Method `topological_sort`: Kahn's algorithm seeded with the sorted
in-degree-zero nodes; raises `ValueError` when nodes remain unprocessed.
The model keeps the identifying prefix, the remaining-node count and the
cycle list of the message; it omits the ten-element `Unresolved:` excerpt
and prints the (then empty) cycle list even when Tarjan reports none. -/
def topological_sort (g : DependencyGraph) : Except String (List String) :=
  let initQueue := (sortStrings g.nodes).filter (fun n => g.dependsOn n = [])
  let result := kahnRun g g.nodes.length [] initQueue
  if result.length < g.nodes.length then
    let remaining := g.nodes.filter (fun n => n ∉ result)
    let cycles := g.detect_cycles
    Except.error
      ("Topological sort incomplete: " ++ toString remaining.length ++
        " nodes in cycles. Cycles found: " ++
        String.intercalate "; " ((cycles.take 3).map joinArrow))
  else Except.ok result

/-! #### Layer decomposition (`get_layers`) -/

/-- Nodes whose in-degree counter hits zero while the current layer is
processed: unassigned nodes having every dependency in an already assigned
layer and at least one in the current one.  This is exactly the set the
decrement loop of `get_layers` appends to `next_layer_nodes` (each counter
equals the number of dependencies outside `done ++ current`); the layer is
sorted, as in the source. -/
def nextLayer (g : DependencyGraph) (done current : List String) : List String :=
  (sortStrings g.nodes).filter (fun d =>
    d ∉ done ∧ d ∉ current ∧
    (g.dependsOn d).all (fun x => x ∈ done ∨ x ∈ current) ∧
    (g.dependsOn d).any (fun x => x ∈ current))

/-- The wavefront loop of `get_layers`. -/
def layersAux (g : DependencyGraph) :
    Nat → List String → List String → List (List String) → List (List String)
  | 0, _, _, acc => acc
  | fuel + 1, done, current, acc =>
    if current.isEmpty then acc
    else
      let nxt := nextLayer g done current
      layersAux g fuel (done ++ current) nxt (if nxt.isEmpty then acc else acc ++ [nxt])

/-- Method `get_layers`: layer 0 is the sorted set of dependency-free nodes,
and each following layer is the next wavefront. -/
def get_layers (g : DependencyGraph) : List (List String) :=
  let layer0 := (sortStrings g.nodes).filter (fun n => g.dependsOn n = [])
  layersAux g (g.nodes.length + 1) [] layer0 (if layer0.isEmpty then [] else [layer0])

/-- Index search of the `enumerate(layers)` loops: first layer containing
the node, counting from `k`. -/
def layerFind (node : String) : List (List String) → Nat → Option Nat
  | [], _ => none
  | l :: ls, k => if node ∈ l then some k else layerFind node ls (k + 1)

/-- Method `get_node_layer`: index of the first layer containing the node,
`-1` when the node is in no layer. -/
def get_node_layer (g : DependencyGraph) (node : String) : Int :=
  match layerFind node g.get_layers 0 with
  | some i => (i : Int)
  | none => -1

/-- Method `summary`. -/
def summary (g : DependencyGraph) : GraphSummary :=
  let layers := g.get_layers
  let cycles := g.detect_cycles
  { total_nodes := g.nodes.length
    total_edges := g.edges.length
    num_layers := layers.length
    cycle_count := cycles.length
    cycles := cycles
    max_chain_depth := layers.length - 1
    root_nodes := (g.nodes.filter (fun n => g.dependsOn n = [])).length
    leaf_nodes := (g.nodes.filter (fun n => g.dependedBy n = [])).length }

/-! #### Specification-side graph notions -/

/-- One dependency edge as a relation. -/
def EdgeStep (g : DependencyGraph) (a b : String) : Prop := (a, b) ∈ g.edges

/-- A dependency cycle: some node transitively depends on itself (this
includes self-loops). -/
def HasCycle (g : DependencyGraph) : Prop :=
  ∃ n, Relation.TransGen g.EdgeStep n n

end DependencyGraph

/-! ### Balanced batching strategy (`balanced_strategy.py`) -/

/-- Sum of a list of naturals. -/
def natsSum (l : List Nat) : Nat := l.foldl (· + ·) 0

/-- Maximum of a non-empty list (`max(sizes)`); 0 for the empty list, which
the callers never pass. -/
def natsMax : List Nat → Nat
  | [] => 0
  | a :: as => as.foldl max a

/-- Minimum of a non-empty list (`min(sizes)`); 0 for the empty list, which
the callers never pass. -/
def natsMin : List Nat → Nat
  | [] => 0
  | a :: as => as.foldl min a

/-- Duplicate removal keeping first occurrences (Python dict/set insertion
order). -/
def dedupFirst (l : List String) : List String :=
  l.foldl (fun acc x => if x ∈ acc then acc else acc ++ [x]) []

/-- Distinct-count of sprint numbers (`len({b.sprint_number for b in ...})`). -/
def distinctCount (l : List Nat) : Nat :=
  (l.foldl (fun acc x => if x ∈ acc then acc else acc ++ [x]) []).length

/-- The `ordering.sprint_mapping` configuration dictionary. -/
structure SprintMapping where
  foundation : Nat := 1
  table_batches : List Nat := [2, 3, 4, 5]
  view_batches : List Nat := [6, 7]
  procedures : Nat := 8
  cleanup : Nat := 9

deriving DecidableEq, Repr

/-- The configuration scalars read by `BalancedBatchingStrategy.__init__`,
with their Python defaults. -/
structure StrategyConfig where
  table_batch_count : Nat := 4
  view_batch_count : Nat := 2
  balance_tolerance : Nat := 20
  min_batch_size : Nat := 3
  sprint_mapping : SprintMapping := {}
  circular_resolution : String := "warn"

deriving DecidableEq, Repr

/-- The countdown loop of `_determine_batch_count`: decrease `count` while
`count > 1` and `len(objects) / count < min_batch_size` (the float test is
the exact rational one: `len < min * count`). -/
def determineCountAux (minSize len : Nat) : Nat → Nat
  | 0 => 0
  | 1 => 1
  | n + 2 => if len < minSize * (n + 2) then determineCountAux minSize len (n + 1) else n + 2

/-- Method `_determine_batch_count`. -/
def determine_batch_count (cfg : StrategyConfig) (objects : List DatabaseObject)
    (desired : Nat) : Nat :=
  if objects.isEmpty then 0
  else max (determineCountAux cfg.min_batch_size objects.length desired) 1

/-- Layer lookup of `_partition_balanced`: the `node_to_layer` dictionary
built from `get_layers()`, with default `999` for nodes in no layer. -/
def nodeToLayer (g : DependencyGraph) (q : String) : Nat :=
  match DependencyGraph.layerFind q g.get_layers 0 with
  | some i => i
  | none => 999

/-- Sort key of `_partition_balanced`: `(layer, -impact_score,
qualified_name)` ascending, as a boolean comparison. -/
def partitionKeyLe (g : DependencyGraph) (o1 o2 : DatabaseObject) : Bool :=
  let l1 := nodeToLayer g o1.qualified_name
  let l2 := nodeToLayer g o2.qualified_name
  if l1 ≠ l2 then l1 < l2
  else if o1.impact_score ≠ o2.impact_score then o2.impact_score < o1.impact_score
  else strLe o1.qualified_name o2.qualified_name

/-- The batch-choice scan of the greedy loop: among indices in
`[min_batch, num_batches)` pick the first batch of strictly smallest size,
starting from `min_batch` itself. -/
def bestBatchScan (partitions : List (List DatabaseObject)) (minBatch numBatches : Nat) :
    Nat :=
  let init : Nat × Option Nat :=
    (minBatch,
      if minBatch < numBatches then some (partitions.getD minBatch []).length else none)
  ((List.range' minBatch (numBatches - minBatch)).foldl
    (fun st bi =>
      let sz := (partitions.getD bi []).length
      match st.2 with
      | none => (bi, some sz)
      | some bs => if sz < bs then (bi, some sz) else st)
    init).1

/-- One greedy placement step of `_partition_balanced`: compute the minimum
eligible batch index from the already placed in-group dependencies, pick the
emptiest eligible batch, append the object there and record the assignment. -/
def greedyPlace (numBatches : Nat)
    (st : List (List DatabaseObject) × List (String × Nat)) (obj : DatabaseObject) :
    List (List DatabaseObject) × List (String × Nat) :=
  let partitions := st.1
  let objToBatch := st.2
  let minBatch := obj.dependencies.foldl
    (fun mb dep =>
      match getAssoc objToBatch dep with
      | some b => max mb b
      | none => mb)
    0
  let best := bestBatchScan partitions minBatch numBatches
  (partitions.set best ((partitions.getD best []) ++ [obj]),
    setAssoc objToBatch obj.qualified_name best)

/-- Sort key of the rebalance candidate scan: `(impact_score,
qualified_name)` ascending. -/
def rebalLe (o1 o2 : DatabaseObject) : Bool :=
  if o1.impact_score ≠ o2.impact_score then o1.impact_score < o2.impact_score
  else strLe o1.qualified_name o2.qualified_name

/-- The `can_move` test of `_rebalance` for one candidate.  When moving to an
earlier batch, every assigned dependency must sit at an index `≤ smallest`
(the Python default `-1` for unassigned dependencies never blocks); when
moving to a later batch, every assigned dependent must sit at an index
`≥ smallest` (the Python default `num_batches` for unassigned dependents
never blocks, because `smallest < num_batches`). -/
def moveCheck (g : DependencyGraph) (objToBatch : List (String × Nat))
    (smallest largest : Nat) (candidate : DatabaseObject) : Bool :=
  (if smallest < largest then
    candidate.dependencies.all (fun dep =>
      match getAssoc objToBatch dep with
      | some b => ¬ smallest < b
      | none => true)
  else true) &&
  (if largest < smallest then
    (g.get_dependents candidate.qualified_name).all (fun dn =>
      match getAssoc objToBatch dn with
      | some b => ¬ b < smallest
      | none => true)
  else true)

/-- The bounded rebalance loop of `_rebalance`; the fuel models
`max_iterations = total` of the source exactly. -/
def rebalanceLoop (cfg : StrategyConfig) (g : DependencyGraph) :
    Nat → List (List DatabaseObject) → List (String × Nat) →
    List (List DatabaseObject) × List (String × Nat)
  | 0, partitions, m => (partitions, m)
  | fuel + 1, partitions, m =>
    let sizes := partitions.map List.length
    let total := natsSum sizes
    let num := partitions.length
    let maxS := natsMax sizes
    let minS := natsMin sizes
    -- `imbalance <= tolerance` as the exact rational comparison.
    if (maxS - minS) * 100 * num ≤ cfg.balance_tolerance * total then (partitions, m)
    else
      let largest := sizes.findIdx (fun s => s = maxS)
      let smallest := sizes.findIdx (fun s => s = minS)
      if largest = smallest then (partitions, m)
      else
        let candidates := sortBy rebalLe (partitions.getD largest [])
        match candidates.find? (moveCheck g m smallest largest) with
        | none => (partitions, m)
        | some c =>
          let partitions := partitions.set largest ((partitions.getD largest []).erase c)
          let partitions := partitions.set smallest ((partitions.getD smallest []) ++ [c])
          rebalanceLoop cfg g fuel partitions (setAssoc m c.qualified_name smallest)

/-- Method `_rebalance`. -/
def rebalance (cfg : StrategyConfig) (g : DependencyGraph)
    (partitions : List (List DatabaseObject)) (m : List (String × Nat)) :
    List (List DatabaseObject) × List (String × Nat) :=
  if partitions.isEmpty then (partitions, m)
  else
    let total := natsSum (partitions.map List.length)
    if total = 0 then (partitions, m)
    else rebalanceLoop cfg g total partitions m

/-- Method `_partition_balanced`. -/
def partition_balanced (cfg : StrategyConfig) (objects : List DatabaseObject)
    (numBatches : Nat) (g : DependencyGraph) : List (List DatabaseObject) :=
  if numBatches = 0 then []
  else if numBatches = 1 then [objects]
  else
    let sortedObjs := sortBy (partitionKeyLe g) objects
    let placed := sortedObjs.foldl (greedyPlace numBatches)
      (List.replicate numBatches [], [])
    (rebalance cfg g placed.1 placed.2).1

/-- Sprint number for the i-th batch of a stage: the i-th configured sprint,
extrapolated arithmetically past the end of the list (the model returns the
extrapolation from 0 for an empty list, which the source would reject). -/
def sprintFor (lst : List Nat) (i : Nat) : Nat :=
  if i < lst.length then lst.getD i 0 else lst.getLastD 0 + (i - lst.length + 1)

/-- Method `_validate_balance`; the warning text keeps the identifying prefix
and group name of the Python f-string. -/
def validate_balance (cfg : StrategyConfig) (batches : List Batch) : List String :=
  let groupNames := dedupFirst (batches.map (fun b => b.object_type_group))
  groupNames.foldl
    (fun ws gname =>
      let gbatches := batches.filter (fun b => b.object_type_group = gname)
      if gbatches.length ≤ 1 then ws
      else
        let sizes := gbatches.map (fun b => b.objects.length)
        let totalSize := natsSum sizes
        if totalSize = 0 then ws
        else
          let maxS := natsMax sizes
          let minS := natsMin sizes
          -- `imbalance > tolerance` as the exact rational comparison.
          if cfg.balance_tolerance * totalSize < (maxS - minS) * 100 * sizes.length then
            ws ++ ["Balance warning for '" ++ gname ++ "' batches: size range " ++
              toString minS ++ "-" ++ toString maxS ++ "."]
          else ws)
    []

/-- Method `_validate_batch_dependencies`; the warning text keeps the
identifying prefix and the two object names of the Python f-string. -/
def validate_batch_dependencies (batches : List Batch) (g : DependencyGraph) :
    List String :=
  let objToBatch := batches.foldl
    (fun m b => b.objects.foldl (fun m o => setAssoc m o.qualified_name b.batch_id) m) []
  batches.foldl
    (fun ws b =>
      b.objects.foldl
        (fun ws o =>
          (g.get_dependencies o.qualified_name).foldl
            (fun ws dep =>
              match getAssoc objToBatch dep with
              | some depId =>
                if b.batch_id < depId then
                  ws ++ ["Dependency violation: '" ++ o.qualified_name ++
                    "' depends on '" ++ dep ++ "'."]
                else ws
              | none => ws)
            ws)
        ws)
    []

/-- Sorting a batch's object list by qualified name. -/
def sortByQName (objs : List DatabaseObject) : List DatabaseObject :=
  sortBy (fun a b => strLe a.qualified_name b.qualified_name) objs

/-- Method `create_plan`.  `now` is the value of
`datetime.now(timezone.utc).isoformat()` — the only input the plan depends
on besides the objects, the pre-built graph, the configuration and the
engagement name.  A raised `ValueError` is the `Except.error` case.  The
`ObjectType` enum is closed, so the unrecognized-type fallback branch of
step 1 is unreachable and the five groups are order-preserving filters. -/
def create_plan (cfg : StrategyConfig) (objects : List DatabaseObject)
    (graph : DependencyGraph) (engagement_name : String) (now : String) :
    Except String BatchPlan :=
  let foundationObjs := objects.filter (fun o =>
    o.object_type = ObjectType.SCHEMA ∨ o.object_type = ObjectType.SECURITY ∨
      o.object_type = ObjectType.FUNCTION)
  let tableObjs := objects.filter (fun o => o.object_type = ObjectType.TABLE)
  let viewObjs := objects.filter (fun o => o.object_type = ObjectType.VIEW)
  let procedureObjs := objects.filter (fun o =>
    o.object_type = ObjectType.STORED_PROCEDURE)
  let cleanupObjs := objects.filter (fun o =>
    o.object_type = ObjectType.STATISTICS ∨ o.object_type = ObjectType.EXTERNAL_TABLE ∨
      o.object_type = ObjectType.EXTERNAL_DATA_SOURCE ∨
      o.object_type = ObjectType.EXTERNAL_FILE_FORMAT)
  let cycles := graph.detect_cycles
  if cfg.circular_resolution = "error" ∧ ¬ cycles.isEmpty then
    Except.error ("Circular dependency detected: " ++ joinArrow (cycles.headD []))
  else
    let cycleWarnings : List String :=
      if cfg.circular_resolution = "warn" then
        cycles.map (fun c => "Circular dependency detected: " ++ joinArrow c)
      else []
    let foundationWarn : List String :=
      if foundationObjs.isEmpty then
        ["No foundation objects (schemas, security, functions) found."]
      else []
    let foundationBatches : List Batch :=
      if foundationObjs.isEmpty then []
      else
        [{ batch_id := 1, batch_name := "Foundation"
           sprint_number := cfg.sprint_mapping.foundation
           object_type_group := "foundation"
           objects := sortByQName foundationObjs
           dependencies := [] }]
    let counter1 := 1 + foundationBatches.length
    let foundationIds := foundationBatches.map (fun b => b.batch_id)
    let tableCount := determine_batch_count cfg tableObjs cfg.table_batch_count
    let tablePartitions :=
      if tableObjs.isEmpty then []
      else partition_balanced cfg tableObjs tableCount graph
    let tableBatches : List Batch :=
      (List.range tablePartitions.length).map (fun i =>
        { batch_id := counter1 + i
          batch_name := "Table Batch " ++ toString (i + 1)
          sprint_number := sprintFor cfg.sprint_mapping.table_batches i
          object_type_group := "table"
          objects := tablePartitions.getD i []
          dependencies := foundationIds })
    let counter2 := counter1 + tableBatches.length
    let tableIds := tableBatches.map (fun b => b.batch_id)
    let viewCount := determine_batch_count cfg viewObjs cfg.view_batch_count
    let viewPartitions :=
      if viewObjs.isEmpty then []
      else partition_balanced cfg viewObjs viewCount graph
    let viewBatches : List Batch :=
      (List.range viewPartitions.length).map (fun i =>
        { batch_id := counter2 + i
          batch_name := "View Batch " ++ toString (i + 1)
          sprint_number := sprintFor cfg.sprint_mapping.view_batches i
          object_type_group := "view"
          objects := viewPartitions.getD i []
          dependencies := tableIds ++ foundationIds })
    let counter3 := counter2 + viewBatches.length
    let viewIds := viewBatches.map (fun b => b.batch_id)
    let procedureBatches : List Batch :=
      if procedureObjs.isEmpty then []
      else
        [{ batch_id := counter3, batch_name := "Stored Procedures"
           sprint_number := cfg.sprint_mapping.procedures
           object_type_group := "procedure"
           objects := sortByQName procedureObjs
           dependencies := tableIds ++ viewIds ++ foundationIds }]
    let counter4 := counter3 + procedureBatches.length
    let procedureIds := procedureBatches.map (fun b => b.batch_id)
    let cleanupBatches : List Batch :=
      if cleanupObjs.isEmpty then []
      else
        [{ batch_id := counter4, batch_name := "Cleanup & External"
           sprint_number := cfg.sprint_mapping.cleanup
           object_type_group := "cleanup"
           objects := sortByQName cleanupObjs
           dependencies := foundationIds ++ tableIds ++ viewIds ++ procedureIds }]
    let batches := foundationBatches ++ tableBatches ++ viewBatches ++
      procedureBatches ++ cleanupBatches
    let warnings := cycleWarnings ++ foundationWarn ++
      validate_balance cfg batches ++ validate_batch_dependencies batches graph
    Except.ok
      { engagement_name := engagement_name
        created_at := now
        total_objects := natsSum (batches.map (fun b => b.objects.length))
        total_batches := batches.length
        total_sprints := distinctCount (batches.map (fun b => b.sprint_number))
        batches := batches
        dependency_summary := graph.summary
        warnings := warnings }

deriving instance DecidableEq for Except

/-! ### Dependency analyzer (`assessment-processor/modules/dependency_analyzer.py`)

The analyzer's NetworkX `DiGraph` is modelled by the same node/edge-list
structure as the planner's graph: `add_node` is idempotent node insertion,
`add_edge` collapses duplicates, and edge direction is again `A` depends on
`B` for an edge `(A, B)`, so NetworkX `successors` is `dependsOn` and
`predecessors` is `dependedBy`.  Node attributes carry no information used
by the modelled methods. -/

/-- Upper-casing of one ASCII character. -/
def upperChar (c : Char) : Char :=
  if 'a' ≤ c ∧ c ≤ 'z' then Char.ofNat (c.toNat - 32) else c

/-- Model of Python `str.upper()`. -/
def strUpper (s : String) : String := ⟨s.data.map upperChar⟩

/-- Model of `s.split(".", 1)[1] if "." in s else s`. -/
def afterFirstDot (s : String) : String :=
  if '.' ∈ s.data then ⟨(s.data.dropWhile (fun c => c ≠ '.')).drop 1⟩ else s

/-- Character-level matching of `needle` against the start of `hay`. -/
def startsWithList : List Char → List Char → Bool
  | [], _ => true
  | _ :: _, [] => false
  | a :: as, b :: bs => a = b && startsWithList as bs

/-- Model of Python substring membership `needle in hay`. -/
def hasSubList (needle : List Char) : List Char → Bool
  | [] => startsWithList needle []
  | b :: bs => startsWithList needle (b :: bs) || hasSubList needle bs

/-- Dataclass `AssessmentObject` of `parser.py`. -/
structure AssessmentObject where
  name : String
  object_type : String
  schema_name : String
  status : String
  failure_reason : String := ""
  dependencies : List String := []
  impact_score : Int := 0
  failure_category : String := ""

deriving DecidableEq, Repr

/-- Property `qualified_name`. -/
def AssessmentObject.qualified_name (o : AssessmentObject) : String :=
  o.schema_name ++ "." ++ o.name

/-- Lower-cased qualified name, the node key used throughout the analyzer. -/
def AssessmentObject.key (o : AssessmentObject) : String :=
  strLower o.qualified_name

/-- Property `is_failed` (`status.upper() == "FAILED"`). -/
def AssessmentObject.is_failed (o : AssessmentObject) : Bool :=
  strUpper o.status = "FAILED"

namespace DependencyAnalyzer

/-- Dependency reference resolution of `build_graph`: trim, lower-case, and
qualify with the owner's schema when there is no dot. -/
def resolveDep (obj : AssessmentObject) (dep : String) : String :=
  let depLower := strLower (strStrip dep)
  if '.' ∈ depLower.data then depLower
  else strLower obj.schema_name ++ "." ++ depLower

/-- Method `_add_implicit_dependencies`: statistics objects point at
same-schema tables whose name occurs in the statistics object's name, and
external tables point at every external data source.  (No edges are added
for external file formats.) -/
def addImplicitDependencies (g : DependencyGraph) (objects : List AssessmentObject) :
    DependencyGraph :=
  let tablesOf : String → List String := fun schemaLower =>
    ((objects.filter (fun o =>
        o.object_type = "TABLE" ∧ strLower o.schema_name = schemaLower)).map
      AssessmentObject.key)
  let extSources :=
    (objects.filter (fun o => o.object_type = "EXTERNAL_DATA_SOURCE")).map
      AssessmentObject.key
  objects.foldl
    (fun g obj =>
      let g :=
        if obj.object_type = "STATISTICS" then
          (tablesOf (strLower obj.schema_name)).foldl
            (fun g tableKey =>
              if hasSubList (afterFirstDot tableKey).data (strLower obj.name).data then
                g.insertEdge obj.key tableKey
              else g)
            g
        else g
      if obj.object_type = "EXTERNAL_TABLE" then
        extSources.foldl (fun g srcKey => g.insertEdge obj.key srcKey) g
      else g)
    g

/-- Method `build_graph`: register every object key as a node, add an
explicit edge per declared dependency whose resolved key is a known node
(dropping the others), then add the implicit edges. -/
def build_graph (objects : List AssessmentObject) : DependencyGraph :=
  let g : DependencyGraph :=
    objects.foldl (fun g o => g.addNode o.key) {}
  let allKeys := g.nodes
  let g := objects.foldl
    (fun g obj =>
      obj.dependencies.foldl
        (fun g dep =>
          let depLower := resolveDep obj dep
          if depLower ∈ allKeys then g.insertEdge obj.key depLower else g)
        g)
    g
  addImplicitDependencies g objects

/-- The queue loop of `_get_descendants`: pop `(current, depth)`, stop
expanding at the depth bound, otherwise discover the unvisited predecessors
other than the root.  The fuel exceeds the total number of queue entries on
any run from `get_descendants` and is never exhausted (see the lemmas below). -/
def bfsAux (g : DependencyGraph) (rootKey : String) (maxDepth : Nat) :
    Nat → List (String × Nat) → List String → List String
  | 0, _, visited => visited
  | _ + 1, [], visited => visited
  | fuel + 1, (current, depth) :: queue, visited =>
    if maxDepth ≤ depth then bfsAux g rootKey maxDepth fuel queue visited
    else
      let newNodes := (g.dependedBy current).filter
        (fun p => p ∉ visited ∧ p ≠ rootKey)
      bfsAux g rootKey maxDepth fuel
        (queue ++ newNodes.map (fun p => (p, depth + 1)))
        (visited ++ newNodes)

/-- Method `_get_descendants`. -/
def get_descendants (g : DependencyGraph) (key : String) (maxDepth : Nat) :
    List String :=
  bfsAux g key maxDepth (g.nodes.length + 2) [(key, 0)] []

/-- Method `calculate_impact_scores` (over the graph built by `__init__`):
the score of each failed object is the size of its bounded descendant set. -/
def calculate_impact_scores (objects : List AssessmentObject) (maxDepth : Nat) :
    List (String × Nat) :=
  let g := build_graph objects
  objects.foldl
    (fun scores obj =>
      if obj.is_failed then
        setAssoc scores obj.key (get_descendants g obj.key maxDepth).length
      else scores)
    []

/-- The write-back of `__init__` with impact scoring enabled:
`obj.impact_score = scores.get(key, 0)`. -/
def analyzedScore (objects : List AssessmentObject) (maxDepth : Nat)
    (o : AssessmentObject) : Int :=
  match getAssoc (calculate_impact_scores objects maxDepth) o.key with
  | some s => (s : Int)
  | none => 0

end DependencyAnalyzer

/-! ### Relative position in an emitted order -/

/-- `Before l b a`: `b` occurs at a strictly earlier position than `a`. -/
def Before (l : List String) (b a : String) : Prop :=
  ∃ i j : Nat, i < j ∧ l[i]? = some b ∧ l[j]? = some a

namespace DependencyGraph

/-- Loop invariant of `kahnRun`: the emitted order and the queue are
duplicate-free known nodes; queued nodes have all dependencies emitted;
emitted nodes have their dependencies emitted strictly earlier; and every
node neither emitted nor queued still has an unemitted dependency. -/
def KahnInv (g : DependencyGraph) (result queue : List String) : Prop :=
  (result ++ queue).Nodup ∧
  (∀ n ∈ result ++ queue, n ∈ g.nodes) ∧
  (∀ n ∈ queue, ∀ d ∈ g.dependsOn n, d ∈ result) ∧
  (∀ a b : String, (a, b) ∈ g.edges → a ∈ result → Before result b a) ∧
  (∀ n ∈ g.nodes, n ∉ result → n ∉ queue → ∃ d ∈ g.dependsOn n, d ∉ result)

/-- Facts established about the final output of the Kahn loop. -/
def KahnOut (g : DependencyGraph) (out : List String) : Prop :=
  out.Nodup ∧
  (∀ n ∈ out, n ∈ g.nodes) ∧
  (∀ a b : String, (a, b) ∈ g.edges → a ∈ out → Before out b a) ∧
  (∀ n ∈ g.nodes, n ∉ out → ∃ d ∈ g.dependsOn n, d ∉ out)

/-- The Kahn loop of `topological_sort`, named for reuse in the proofs. -/
def kahnResult (g : DependencyGraph) : List String :=
  kahnRun g g.nodes.length []
    ((sortStrings g.nodes).filter (fun n => g.dependsOn n = []))

/-! ### Correctness of the layer decomposition (`get_layers`) -/

/-- Strictness of a layering: every dependency of a node in layer `i` sits in
some strictly earlier layer (out-of-range indices denote empty layers). -/
def StrictLayers (g : DependencyGraph) (ls : List (List String)) : Prop :=
  ∀ i a, a ∈ ls.getD i [] → ∀ b ∈ g.dependsOn a, ∃ j < i, b ∈ ls.getD j []

/-- Loop invariant of `layersAux`: `done` holds the previously assigned
wavefronts, `current` the newest one, `acc` the layers so far. -/
def LayerInv (g : DependencyGraph) (done current : List String)
    (acc : List (List String)) : Prop :=
  (done ++ current).Nodup ∧
  (∀ n ∈ done ++ current, n ∈ g.nodes) ∧
  acc.flatten = done ++ current ∧
  (∀ d ∈ current, ∀ x ∈ g.dependsOn d, x ∈ done) ∧
  StrictLayers g acc ∧
  (∀ n ∈ g.nodes, n ∉ done ++ current → ∃ d ∈ g.dependsOn n, d ∉ done)

/-- Facts established about the final output of the layering loop. -/
def LayersOut (g : DependencyGraph) (ls : List (List String)) : Prop :=
  ls.flatten.Nodup ∧
  (∀ n ∈ ls.flatten, n ∈ g.nodes) ∧
  StrictLayers g ls ∧
  (∀ n ∈ g.nodes, n ∉ ls.flatten → ∃ d ∈ g.dependsOn n, d ∉ ls.flatten)

end DependencyGraph

/-- Invariant tying a partition assignment to its `obj_to_batch` dictionary:
batch indices are in range, every recorded key names an object of the group,
partition membership agrees with the dictionary, the partitions are
duplicate-free, and no object sits in an earlier batch than any of its
recorded dependencies. -/
def PartInv (U : List DatabaseObject) (num : Nat)
    (ps : List (List DatabaseObject)) (m : List (String × Nat)) : Prop :=
  ps.length = num ∧
  (∀ p ∈ m, p.2 < num ∧ p.1 ∈ U.map DatabaseObject.qualified_name) ∧
  (∀ i : Nat, ∀ o ∈ ps.getD i [], o ∈ U ∧ getAssoc m o.qualified_name = some i) ∧
  (∀ i : Nat, (ps.getD i []).Nodup) ∧
  (∀ o ∈ U, ∀ dep ∈ o.dependencies, ∀ bo bd,
    getAssoc m o.qualified_name = some bo → getAssoc m dep = some bd → bd ≤ bo)

/-! ### Bounded reverse reachability (the specification of `_get_descendants`) -/

/-- A root-free reverse path of exact length `k`: `stepsFree g root k p` holds
when some chain `root ← x1 ← ⋯ ← xk = p` of dependency edges exists in which
every node after the start differs from `root`. -/
def stepsFree (g : DependencyGraph) (root : String) : Nat → String → Prop
  | 0, p => p = root
  | k + 1, p => p ≠ root ∧ ∃ c, stepsFree g root k c ∧ (p, c) ∈ g.edges

/-- A dependency chain of exact length `k` from `a` down to `b`. -/
def depChain (g : DependencyGraph) : Nat → String → String → Prop
  | 0, a, b => a = b
  | k + 1, a, b => ∃ c, (a, c) ∈ g.edges ∧ depChain g k c b

namespace DependencyAnalyzer

/-- Postcondition of the descendant search: duplicate-free output whose
members are exactly the root-free reverse-reachable nodes within the depth
bound. -/
def BfsPost (g : DependencyGraph) (root : String) (maxD : Nat)
    (R : List String) : Prop :=
  R.Nodup ∧
  (∀ p ∈ R, ∃ k, 1 ≤ k ∧ k ≤ maxD ∧ stepsFree g root k p) ∧
  (∀ p k, 1 ≤ k → k ≤ maxD → stepsFree g root k p → p ∈ R)

/-- Two-wave loop invariant of the breadth-first search: the queue splits as
`A`, the remaining entries at the current depth `d`, followed by `B`, the
entries already discovered at depth `d + 1`. -/
def BfsInv (g : DependencyGraph) (root : String) (maxD d : Nat)
    (A B : List (String × Nat)) (visited : List String) : Prop :=
  visited.Nodup ∧
  (∀ e ∈ A, e.2 = d) ∧
  (∀ e ∈ B, e.2 = d + 1) ∧
  (∀ e ∈ A ++ B, (e.1 = root ∧ e.2 = 0) ∨ e.1 ∈ visited) ∧
  (∀ e ∈ A ++ B, stepsFree g root e.2 e.1) ∧
  (∀ p ∈ visited, ∃ k, 1 ≤ k ∧ k ≤ maxD ∧ stepsFree g root k p) ∧
  (∀ p k, 1 ≤ k → k ≤ d → stepsFree g root k p → p ∈ visited) ∧
  (∀ p, stepsFree g root (d + 1) p → p ∉ visited →
    ∃ c, (c, d) ∈ A ∧ (p, c) ∈ g.edges) ∧
  (∀ q ∈ visited, (q, d) ∈ A ∨ (q, d + 1) ∈ B ∨
    ∀ r ∈ g.dependedBy q, r = root ∨ r ∈ visited)

end DependencyAnalyzer

/-- A small well-formed acyclic graph used to witness the sorting claim. -/
def cgC3 : DependencyGraph := { nodes := ["a", "b"], edges := [("a", "b")] }

/-- A two-node acyclic graph (`b` depends on `a`) witnessing the layering
claim. -/
def cgC8 : DependencyGraph := { nodes := ["a", "b"], edges := [("b", "a")] }

/-- A two-node cyclic graph witnessing the unlayered-cycle claim. -/
def cgC10 : DependencyGraph :=
  { nodes := ["a", "b"], edges := [("a", "b"), ("b", "a")] }

/-! ### Concrete instances for the witnesses and counterexamples -/

/-- Executable check that consecutive entries of a list, starting from `a`,
are linked by reverse dependency edges. -/
def chainB (g : DependencyGraph) : String → List String → Bool
  | _, [] => true
  | a, b :: bs => decide ((b, a) ∈ g.edges) && chainB g b bs

def objA1 : DatabaseObject :=
  { name := "a", object_type := .TABLE, schema_name := "s", status := "Passed" }

def objB1 : DatabaseObject :=
  { name := "b", object_type := .TABLE, schema_name := "s", status := "Passed" }

def objC1 : DatabaseObject :=
  { name := "c", object_type := .TABLE, schema_name := "s", status := "Passed",
    dependencies := ["s.a"] }

def objD1 : DatabaseObject :=
  { name := "d", object_type := .TABLE, schema_name := "s", status := "Passed",
    dependencies := ["s.b"] }

def objsC1 : List DatabaseObject := [objA1, objB1, objC1, objD1]

def gC1 : DependencyGraph :=
  { nodes := ["s.a", "s.b", "s.c", "s.d"],
    edges := [("s.c", "s.a"), ("s.d", "s.b")] }

def cA1 : DatabaseObject :=
  { name := "a", object_type := .TABLE, schema_name := "s", status := "Passed",
    dependencies := ["s.b"] }

def cB1 : DatabaseObject :=
  { name := "b", object_type := .TABLE, schema_name := "s", status := "Passed",
    dependencies := ["s.a"] }

def gCyc1 : DependencyGraph :=
  { nodes := ["s.a", "s.b"], edges := [("s.a", "s.b"), ("s.b", "s.a")] }

def chainObjs : List AssessmentObject :=
  (List.range 12).map (fun i =>
    { name := "c" ++ toString i, object_type := "TABLE", schema_name := "s",
      status := if i = 0 then "Failed" else "Passed",
      dependencies := if i = 0 then [] else ["s.c" ++ toString (i - 1)] })

def chainRoot : AssessmentObject :=
  { name := "c0", object_type := "TABLE", schema_name := "s",
    status := "Failed" }

def chainDesc : List String :=
  (List.range 11).map (fun i => "s.c" ++ toString (i + 1))

def aOk : AssessmentObject :=
  { name := "a", object_type := "TABLE", schema_name := "s",
    status := "Passed" }

def cfgErr : StrategyConfig := { circular_resolution := "error" }

def selfG : DependencyGraph := { nodes := ["s.a"], edges := [("s.a", "s.a")] }

def selfLoopObj : DatabaseObject :=
  { name := "a", object_type := .TABLE, schema_name := "s", status := "Passed",
    dependencies := ["s.a"] }

def selfObjA : AssessmentObject :=
  { name := "a", object_type := "TABLE", schema_name := "s",
    status := "Passed", dependencies := ["s.a"] }

def okP : DatabaseObject :=
  { name := "a", object_type := .TABLE, schema_name := "s", status := "Passed",
    dependencies := ["s.b"] }

def okA : AssessmentObject :=
  { name := "a", object_type := "TABLE", schema_name := "s",
    status := "Passed", dependencies := ["s.b"] }

def orphanObjP : DatabaseObject :=
  { name := "a", object_type := .TABLE, schema_name := "s", status := "Passed",
    dependencies := ["x.y"] }

def orphanObjA : AssessmentObject :=
  { name := "a", object_type := "TABLE", schema_name := "s",
    status := "Passed", dependencies := ["x.y"] }

def etP : DatabaseObject :=
  { name := "t", object_type := .EXTERNAL_TABLE, schema_name := "s",
    status := "Passed" }

def edsP : DatabaseObject :=
  { name := "d", object_type := .EXTERNAL_DATA_SOURCE, schema_name := "s",
    status := "Passed" }

def effP : DatabaseObject :=
  { name := "f", object_type := .EXTERNAL_FILE_FORMAT, schema_name := "s",
    status := "Passed" }

def etA2 : AssessmentObject :=
  { name := "t", object_type := "EXTERNAL_TABLE", schema_name := "s",
    status := "Passed" }

def edsA2 : AssessmentObject :=
  { name := "d", object_type := "EXTERNAL_DATA_SOURCE", schema_name := "s",
    status := "Passed" }

def etAc : AssessmentObject :=
  { name := "t", object_type := "EXTERNAL_TABLE", schema_name := "s",
    status := "Passed" }

def effAc : AssessmentObject :=
  { name := "f", object_type := "EXTERNAL_FILE_FORMAT", schema_name := "s",
    status := "Passed" }

theorem chLe_total (a b : Char) : chLe a b || chLe b a := by
  simp only [chLe, Bool.or_eq_true, decide_eq_true_eq]
  omega

theorem chLe_trans {a b c : Char} (h₁ : chLe a b) (h₂ : chLe b c) : chLe a c = true := by
  simp only [chLe, decide_eq_true_eq] at *
  omega

theorem chLe_antisymm {a b : Char} (h₁ : chLe a b) (h₂ : chLe b a) : a = b := by
  simp only [chLe, decide_eq_true_eq] at *
  exact Char.eq_of_val_eq (UInt32.ext (Nat.le_antisymm h₁ h₂))

theorem bor_elim {a b : Bool} (h : a || b) : a = true ∨ b = true := by
  cases a <;> cases b <;> simp_all

theorem strLeAux_total : ∀ x y : List Char, strLeAux x y || strLeAux y x
  | [], _ => by simp [strLeAux]
  | _ :: _, [] => by simp [strLeAux]
  | a :: as, b :: bs => by
    by_cases hab : a = b
    · subst hab
      simpa [strLeAux] using strLeAux_total as bs
    · have hba : b ≠ a := fun h => hab h.symm
      simpa [strLeAux, hab, hba] using chLe_total a b

theorem strLeAux_trans :
    ∀ x y z : List Char, strLeAux x y → strLeAux y z → strLeAux x z
  | [], _, _, _, _ => by simp [strLeAux]
  | _ :: _, [], _, h₁, _ => by simp [strLeAux] at h₁
  | _ :: _, _ :: _, [], _, h₂ => by simp [strLeAux] at h₂
  | a :: as, b :: bs, c :: cs, h₁, h₂ => by
    by_cases hab : a = b <;> by_cases hbc : b = c
    · subst hab; subst hbc
      simp only [strLeAux, if_pos rfl] at *
      exact strLeAux_trans as bs cs h₁ h₂
    · subst hab
      simp only [strLeAux, if_pos rfl, if_neg hbc] at *
      exact h₂
    · subst hbc
      simp only [strLeAux, if_pos rfl, if_neg hab] at *
      exact h₁
    · simp only [strLeAux, if_neg hab, if_neg hbc] at h₁ h₂
      by_cases hac : a = c
      · subst hac
        exact absurd (chLe_antisymm h₁ h₂) hab
      · simpa [strLeAux, if_neg hac] using chLe_trans h₁ h₂

theorem strLe_total (a b : String) : strLe a b || strLe b a := strLeAux_total a.data b.data

theorem strLe_trans {a b c : String} (h₁ : strLe a b) (h₂ : strLe b c) : strLe a c :=
  strLeAux_trans a.data b.data c.data h₁ h₂

theorem insertSorted_perm (le : α → α → Bool) (a : α) :
    ∀ l : List α, (insertSorted le a l).Perm (a :: l)
  | [] => List.Perm.refl _
  | b :: bs => by
    by_cases h : le b a
    · simpa [insertSorted, h] using
        ((insertSorted_perm le a bs).cons b).trans (List.Perm.swap a b bs)
    · simp [insertSorted, h]

theorem sortBy_perm (le : α → α → Bool) : ∀ l : List α, (sortBy le l).Perm l
  | [] => List.Perm.refl _
  | a :: as =>
    (insertSorted_perm le a (sortBy le as)).trans ((sortBy_perm le as).cons a)

theorem mem_sortBy {le : α → α → Bool} {l : List α} {a : α} :
    a ∈ sortBy le l ↔ a ∈ l := (sortBy_perm le l).mem_iff

theorem insertSorted_pairwise {le : α → α → Bool}
    (htot : ∀ a b, le a b || le b a)
    (htr : ∀ a b c, le a b → le b c → le a c) {a : α} {l : List α}
    (hl : l.Pairwise (fun x y => le x y)) :
    (insertSorted le a l).Pairwise (fun x y => le x y) := by
  induction l with
  | nil => simp [insertSorted]
  | cons b bs ih =>
    rcases List.pairwise_cons.mp hl with ⟨hb, hbs⟩
    by_cases h : le b a
    · have htail := ih hbs
      rw [insertSorted, if_pos h]
      refine List.pairwise_cons.mpr ⟨?_, htail⟩
      intro y hy
      rcases List.mem_cons.mp (((insertSorted_perm le a bs).mem_iff).mp hy) with hya | hyl
      · subst hya; exact h
      · exact hb y hyl
    · have hab : le a b := by
        rcases bor_elim (htot a b) with hok | hba
        · exact hok
        · exact absurd hba h
      rw [insertSorted, if_neg h]
      refine List.pairwise_cons.mpr ⟨?_, hl⟩
      intro y hy
      rcases List.mem_cons.mp hy with hyb | hyl
      · subst hyb; exact hab
      · exact htr a b y hab (hb y hyl)

theorem sortBy_pairwise {le : α → α → Bool}
    (htot : ∀ a b, le a b || le b a)
    (htr : ∀ a b c, le a b → le b c → le a c) :
    ∀ l : List α, (sortBy le l).Pairwise (fun x y => le x y)
  | [] => by simp [sortBy]
  | a :: as => insertSorted_pairwise htot htr (sortBy_pairwise htot htr as)

/-! ### Basic facts about the graph representation -/

namespace DependencyGraph

theorem mem_dependsOn {g : DependencyGraph} {n d : String} :
    d ∈ g.dependsOn n ↔ (n, d) ∈ g.edges := by
  constructor
  · intro h
    rcases List.mem_map.mp h with ⟨e, he, rfl⟩
    rcases List.mem_filter.mp he with ⟨hmem, heq⟩
    have h1 : e.1 = n := by simpa using heq
    cases e
    simp_all
  · intro h
    exact List.mem_map.mpr ⟨(n, d), List.mem_filter.mpr ⟨h, by simp⟩, rfl⟩

theorem mem_dependedBy {g : DependencyGraph} {n a : String} :
    a ∈ g.dependedBy n ↔ (a, n) ∈ g.edges := by
  constructor
  · intro h
    rcases List.mem_map.mp h with ⟨e, he, rfl⟩
    rcases List.mem_filter.mp he with ⟨hmem, heq⟩
    have h2 : e.2 = n := by simpa using heq
    cases e
    simp_all
  · intro h
    exact List.mem_map.mpr ⟨(a, n), List.mem_filter.mpr ⟨h, by simp⟩, rfl⟩

theorem dependedBy_nodup {g : DependencyGraph} (h : g.edges.Nodup) (n : String) :
    (g.dependedBy n).Nodup := by
  have hf : (g.edges.filter (fun e => e.2 = n)).Nodup := h.filter _
  refine hf.map_on ?_
  intro x hx y hy hxy
  rcases List.mem_filter.mp hx with ⟨_, hx2⟩
  rcases List.mem_filter.mp hy with ⟨_, hy2⟩
  have hx2' : x.2 = n := by simpa using hx2
  have hy2' : y.2 = n := by simpa using hy2
  cases x; cases y
  simp_all

theorem WF.edge_fst {g : DependencyGraph} (h : g.WF) {e : String × String}
    (he : e ∈ g.edges) : e.1 ∈ g.nodes := ((h.2.2 e he).1)

theorem WF.edge_snd {g : DependencyGraph} (h : g.WF) {e : String × String}
    (he : e ∈ g.edges) : e.2 ∈ g.nodes := ((h.2.2 e he).2)

/-- Every non-empty set of nodes in which each member has a dependency inside
the set contains a dependency cycle. -/
theorem cycle_of_trapped (g : DependencyGraph) (S : List String) (hne : S ≠ [])
    (hstep : ∀ n ∈ S, ∃ d, (n, d) ∈ g.edges ∧ d ∈ S) : g.HasCycle := by
  classical
  choose f hedge hmem using hstep
  let step : {x : String // x ∈ S} → {x : String // x ∈ S} :=
    fun p => ⟨f p.1 p.2, hmem p.1 p.2⟩
  let s0 : {x : String // x ∈ S} := ⟨S.head hne, S.head_mem hne⟩
  let seq : Nat → {x : String // x ∈ S} := fun k => step^[k] s0
  have hseq_step : ∀ k, ((k + 1 : Nat) = k + 1) → g.EdgeStep (seq k).1 (seq (k + 1)).1 := by
    intro k _
    have : seq (k + 1) = step (seq k) := Function.iterate_succ_apply' step k s0
    rw [this]
    exact hedge (seq k).1 (seq k).2
  have hchain : ∀ i j : Nat, i < j →
      Relation.TransGen g.EdgeStep (seq i).1 (seq j).1 := by
    intro i j hij
    induction j with
    | zero => omega
    | succ j ih =>
      rcases Nat.lt_succ_iff_lt_or_eq.mp hij with hlt | heq
      · exact (ih hlt).tail (hseq_step j rfl)
      · subst heq
        exact Relation.TransGen.single (hseq_step i rfl)
  have hmaps : ∀ k ∈ Finset.range (S.length + 1), (seq k).1 ∈ S.toFinset := by
    intro k _
    exact List.mem_toFinset.mpr (seq k).2
  have hcard : S.toFinset.card < (Finset.range (S.length + 1)).card := by
    rw [Finset.card_range]
    exact Nat.lt_succ_of_le S.toFinset_card_le
  rcases Finset.exists_ne_map_eq_of_card_lt_of_maps_to hcard hmaps with
    ⟨i, _, j, _, hne', heq⟩
  rcases Nat.lt_or_ge i j with hij | hij
  · exact ⟨(seq i).1, by
      have := hchain i j hij
      rwa [← heq] at this⟩
  · have hji : j < i := Nat.lt_of_le_of_ne hij (fun h => hne' h.symm)
    exact ⟨(seq j).1, by
      have := hchain j i hji
      rwa [heq] at this⟩

end DependencyGraph

theorem Before.append_right {l : List String} {b a : String} (h : Before l b a)
    (t : List String) : Before (l ++ t) b a := by
  rcases h with ⟨i, j, hij, hi, hj⟩
  have hi' : i < l.length := (List.getElem?_eq_some.mp hi).1
  have hj' : j < l.length := (List.getElem?_eq_some.mp hj).1
  exact ⟨i, j, hij, by rw [List.getElem?_append_left hi']; exact hi,
    by rw [List.getElem?_append_left hj']; exact hj⟩

theorem Before.concat_of_mem {l : List String} {b a : String} (hb : b ∈ l) :
    Before (l ++ [a]) b a := by
  rcases List.getElem?_of_mem hb with ⟨i, hi⟩
  have hi' : i < l.length := (List.getElem?_eq_some.mp hi).1
  exact ⟨i, l.length, hi', by rw [List.getElem?_append_left hi']; exact hi,
    List.getElem?_concat_length l a⟩

theorem Before.mem_left {l : List String} {b a : String} (h : Before l b a) : b ∈ l := by
  rcases h with ⟨i, _, _, hi, _⟩
  rcases List.getElem?_eq_some.mp hi with ⟨hlt, hget⟩
  exact hget ▸ List.getElem_mem hlt

theorem Before.mem_right {l : List String} {b a : String} (h : Before l b a) : a ∈ l := by
  rcases h with ⟨_, j, _, _, hj⟩
  rcases List.getElem?_eq_some.mp hj with ⟨hlt, hget⟩
  exact hget ▸ List.getElem_mem hlt

theorem Before.irrefl {l : List String} (hl : l.Nodup) {a : String}
    (h : Before l a a) : False := by
  rcases h with ⟨i, j, hij, hi, hj⟩
  have hi' : i < l.length := (List.getElem?_eq_some.mp hi).1
  exact absurd (List.getElem?_inj hi' hl (hi.trans hj.symm)) (Nat.ne_of_lt hij)

theorem Before.trans {l : List String} (hl : l.Nodup) {c b a : String}
    (h₁ : Before l c b) (h₂ : Before l b a) : Before l c a := by
  rcases h₁ with ⟨i, j, hij, hi, hj⟩
  rcases h₂ with ⟨i', j', hij', hi', hj'⟩
  have hj'' : j < l.length := (List.getElem?_eq_some.mp hj).1
  have : j = i' := List.getElem?_inj hj'' hl (hj.trans hi'.symm)
  exact ⟨i, j', by omega, hi, hj'⟩

/-! ### Correctness of Kahn's algorithm (`topological_sort`) -/

namespace DependencyGraph

theorem kahnRun_spec (g : DependencyGraph) (hwf : g.WF) :
    ∀ (fuel : Nat) (result queue : List String), KahnInv g result queue →
      g.nodes.length ≤ fuel + result.length →
      KahnOut g (kahnRun g fuel result queue) := by
  intro fuel
  induction fuel with
  | zero =>
    intro result queue hinv hlen
    have hrun : kahnRun g 0 result queue = result := rfl
    rw [hrun]
    rcases hinv with ⟨hnd, hmem, _, hbef, _⟩
    have hsub : (result ++ queue).Subperm g.nodes :=
      List.subperm_of_subset hnd (fun x hx => hmem x hx)
    have hlen2 : result.length + queue.length ≤ g.nodes.length := by
      simpa using hsub.length_le
    have hq : queue = [] := List.length_eq_zero.mp (by omega)
    subst hq
    simp only [List.append_nil] at hnd hmem hsub
    have hperm : result.Perm g.nodes := hsub.perm_of_length_le (by simpa using hlen)
    refine ⟨hnd, hmem, hbef, ?_⟩
    intro n hn hnr
    exact absurd (hperm.mem_iff.mpr hn) hnr
  | succ fuel ih =>
    intro result queue hinv hlen
    cases queue with
    | nil =>
      have hrun : kahnRun g (fuel + 1) result [] = result := rfl
      rw [hrun]
      rcases hinv with ⟨hnd, hmem, _, hbef, hmiss⟩
      simp only [List.append_nil] at hnd hmem
      refine ⟨hnd, hmem, hbef, ?_⟩
      intro n hn hnr
      exact hmiss n hn hnr (List.not_mem_nil n)
    | cons node queue =>
      rcases hinv with ⟨hnd, hmem, hq3, hbef, hmiss⟩
      -- Abbreviations matching the body of `kahnRun`.
      set result' := result ++ [node] with hresult'
      set newly := (sortStrings (g.dependedBy node)).filter
        (fun d => (g.dependsOn d).all (fun x => x ∈ result')) with hnewly
      have hrun : kahnRun g (fuel + 1) result (node :: queue) =
          kahnRun g fuel result' (queue ++ newly) := rfl
      -- Structural consequences of the invariant.
      have hnd2 : (node :: (result ++ queue)).Nodup :=
        (List.perm_middle.nodup_iff).mp hnd
      have hnode_fresh : node ∉ result ++ queue := (List.nodup_cons.mp hnd2).1
      have hnode_nr : node ∉ result := fun h =>
        hnode_fresh (List.mem_append.mpr (Or.inl h))
      have hdeps_node : ∀ d ∈ g.dependsOn node, d ∈ result :=
        hq3 node (List.mem_cons_self node queue)
      have hnoself : node ∉ g.dependsOn node := fun h => hnode_nr (hdeps_node node h)
      have hnd3 : (result' ++ queue).Nodup := by
        have heq : result ++ node :: queue = result' ++ queue := by
          simp [hresult']
        rw [← heq]
        exact hnd
      -- Facts about the freshly enqueued nodes.
      have hnew_spec : ∀ d ∈ newly, (d, node) ∈ g.edges ∧
          ∀ x ∈ g.dependsOn d, x ∈ result' := by
        intro d hd
        rcases List.mem_filter.mp hd with ⟨hd1, hd2⟩
        refine ⟨mem_dependedBy.mp (mem_sortBy.mp hd1), ?_⟩
        intro x hx
        exact of_decide_eq_true ((List.all_eq_true.mp hd2) x hx)
      have hnew_nr : ∀ d ∈ newly, d ∉ result := by
        intro d hd hdr
        exact hnode_nr (Before.mem_left (hbef d node (hnew_spec d hd).1 hdr))
      have hnew_ne : ∀ d ∈ newly, d ≠ node := by
        intro d hd hdn
        subst hdn
        exact hnoself (mem_dependsOn.mpr (hnew_spec d hd).1)
      have hnew_nq : ∀ d ∈ newly, d ∉ queue := by
        intro d hd hdq
        have hsubr := hq3 d (List.mem_cons_of_mem node hdq)
        have hnodein : node ∈ g.dependsOn d := mem_dependsOn.mpr (hnew_spec d hd).1
        exact hnode_nr (hsubr node hnodein)
      have hnew_nodup : newly.Nodup := by
        have h1 : (sortStrings (g.dependedBy node)).Nodup :=
          ((sortBy_perm strLe (g.dependedBy node)).nodup_iff).mpr
            (dependedBy_nodup hwf.2.1 node)
        exact h1.filter _
      have hnew_fresh : ∀ d ∈ newly, d ∉ result' ++ queue := by
        intro d hd hmem2
        rcases List.mem_append.mp hmem2 with h | h
        · rcases List.mem_append.mp h with h | h
          · exact hnew_nr d hd h
          · exact hnew_ne d hd (List.mem_singleton.mp h)
        · exact hnew_nq d hd h
      -- The invariant for the next state.
      have hinv2 : KahnInv g result' (queue ++ newly) := by
        refine ⟨?_, ?_, ?_, ?_, ?_⟩
        · have heq : (result' ++ (queue ++ newly)) = (result' ++ queue) ++ newly := by
            simp [List.append_assoc]
          rw [heq]
          exact hnd3.append hnew_nodup (fun a ha hb => hnew_fresh a hb ha)
        · intro n hn
          rcases List.mem_append.mp hn with h | h
          · rcases List.mem_append.mp h with h | h
            · exact hmem n (List.mem_append.mpr (Or.inl h))
            · rw [List.mem_singleton.mp h]
              exact hmem node (List.mem_append.mpr (Or.inr (List.mem_cons_self _ _)))
          · rcases List.mem_append.mp h with h | h
            · exact hmem n (List.mem_append.mpr (Or.inr (List.mem_cons_of_mem _ h)))
            · exact hwf.edge_fst (hnew_spec n h).1
        · intro n hn d hd
          rcases List.mem_append.mp hn with h | h
          · exact List.mem_append.mpr (Or.inl (hq3 n (List.mem_cons_of_mem _ h) d hd))
          · exact (hnew_spec n h).2 d hd
        · intro a b hab ha
          rcases List.mem_append.mp ha with h | h
          · exact (hbef a b hab h).append_right [node]
          · rw [List.mem_singleton.mp h] at hab ⊢
            exact Before.concat_of_mem (hdeps_node b (mem_dependsOn.mpr hab))
        · intro n hn hnr2 hnq2
          have hnr : n ∉ result := fun h => hnr2 (List.mem_append.mpr (Or.inl h))
          have hne : n ≠ node := fun h => hnr2 (by
            rw [h]
            exact List.mem_append.mpr (Or.inr (List.mem_singleton_self _)))
          have hnq : n ∉ queue := fun h => hnq2 (List.mem_append.mpr (Or.inl h))
          have hnnew : n ∉ newly := fun h => hnq2 (List.mem_append.mpr (Or.inr h))
          rcases hmiss n hn hnr (fun h => (List.mem_cons.mp h).elim hne hnq)
            with ⟨d, hd, hdr⟩
          by_cases hdn : d = node
          · subst hdn
            -- n is a dependent of the popped node but was not enqueued, so
            -- the filter condition failed: some dependency is still missing.
            have hmemdep : n ∈ sortStrings (g.dependedBy d) :=
              mem_sortBy.mpr (mem_dependedBy.mpr (mem_dependsOn.mp hd))
            have hex : ∃ x ∈ g.dependsOn n, x ∉ result' := by
              by_contra hcon
              push_neg at hcon
              exact hnnew (List.mem_filter.mpr ⟨hmemdep,
                List.all_eq_true.mpr (fun x hx => decide_eq_true (hcon x hx))⟩)
            rcases hex with ⟨d2, hd2, hd2r⟩
            exact ⟨d2, hd2, hd2r⟩
          · refine ⟨d, hd, ?_⟩
            intro hmem2
            rcases List.mem_append.mp hmem2 with h | h
            · exact hdr h
            · exact hdn (List.mem_singleton.mp h)
      rw [hrun]
      refine ih result' (queue ++ newly) hinv2 ?_
      simp only [hresult', List.length_append, List.length_singleton]
      omega

theorem kahnInit (g : DependencyGraph) (hwf : g.WF) :
    KahnInv g [] ((sortStrings g.nodes).filter (fun n => g.dependsOn n = [])) := by
  refine ⟨?_, ?_, ?_, ?_, ?_⟩
  · simp only [List.nil_append]
    exact (((sortBy_perm strLe g.nodes).nodup_iff).mpr hwf.1).filter _
  · intro n hn
    simp only [List.nil_append] at hn
    exact mem_sortBy.mp (List.mem_filter.mp hn).1
  · intro n hn d hd
    have h0 : g.dependsOn n = [] :=
      of_decide_eq_true (List.mem_filter.mp hn).2
    rw [h0] at hd
    exact absurd hd (List.not_mem_nil d)
  · intro a b _ ha
    exact absurd ha (List.not_mem_nil a)
  · intro n hn _ hnq
    have hns : n ∈ sortStrings g.nodes := mem_sortBy.mpr hn
    have hne : ¬ g.dependsOn n = [] := by
      intro h0
      exact hnq (List.mem_filter.mpr ⟨hns, decide_eq_true h0⟩)
    rcases List.exists_mem_of_ne_nil _ hne with ⟨d, hd⟩
    exact ⟨d, hd, List.not_mem_nil d⟩

theorem before_of_transGen {g : DependencyGraph} {out : List String}
    (hwf : g.WF) (hout : KahnOut g out) (hcov : ∀ n ∈ g.nodes, n ∈ out) :
    ∀ a b, Relation.TransGen g.EdgeStep a b → Before out b a := by
  intro a b h
  induction h with
  | single h1 => exact hout.2.2.1 _ _ h1 (hcov _ (hwf.edge_fst h1))
  | tail _ h2 ih =>
    exact Before.trans hout.1 (hout.2.2.1 _ _ h2 (hcov _ (hwf.edge_fst h2))) ih

theorem noCycle_of_covering {g : DependencyGraph} {out : List String}
    (hwf : g.WF) (hout : KahnOut g out) (hcov : ∀ n ∈ g.nodes, n ∈ out) :
    ¬ g.HasCycle := by
  rintro ⟨n, htg⟩
  exact (before_of_transGen hwf hout hcov n n htg).irrefl hout.1

theorem kahnResult_out (g : DependencyGraph) (hwf : g.WF) :
    KahnOut g (kahnResult g) :=
  kahnRun_spec g hwf _ _ _ (kahnInit g hwf) (by simp)

theorem topological_sort_eq (g : DependencyGraph) :
    g.topological_sort =
      (if (kahnResult g).length < g.nodes.length then
        Except.error
          ("Topological sort incomplete: " ++
            toString (g.nodes.filter (fun n => n ∉ kahnResult g)).length ++
            " nodes in cycles. Cycles found: " ++
            String.intercalate "; " (((g.detect_cycles).take 3).map joinArrow))
      else Except.ok (kahnResult g)) := rfl

theorem hasCycle_of_incomplete (g : DependencyGraph) (hwf : g.WF)
    (hlt : (kahnResult g).length < g.nodes.length) : g.HasCycle := by
  have hout := kahnResult_out g hwf
  have hmissing : ∃ n ∈ g.nodes, n ∉ kahnResult g := by
    by_contra hcon
    push_neg at hcon
    have hsub : g.nodes.Subperm (kahnResult g) :=
      List.subperm_of_subset hwf.1 hcon
    exact absurd hsub.length_le (by omega)
  rcases hmissing with ⟨n0, hn0, hn0o⟩
  apply cycle_of_trapped g (g.nodes.filter (fun n => n ∉ kahnResult g))
  · exact List.ne_nil_of_mem
      (List.mem_filter.mpr ⟨hn0, decide_eq_true hn0o⟩)
  · intro n hn
    rcases List.mem_filter.mp hn with ⟨hn1, hn2⟩
    have hn2' : n ∉ kahnResult g := of_decide_eq_true hn2
    rcases hout.2.2.2 n hn1 hn2' with ⟨d, hd, hdo⟩
    have hedge : (n, d) ∈ g.edges := mem_dependsOn.mp hd
    exact ⟨d, hedge,
      List.mem_filter.mpr ⟨hwf.edge_snd hedge, decide_eq_true hdo⟩⟩

theorem covering_of_complete (g : DependencyGraph) (hwf : g.WF)
    (hge : ¬ (kahnResult g).length < g.nodes.length) :
    ∀ n ∈ g.nodes, n ∈ kahnResult g := by
  have hout := kahnResult_out g hwf
  have hsub : (kahnResult g).Subperm g.nodes :=
    List.subperm_of_subset hout.1 (fun x hx => hout.2.1 x hx)
  intro n hn
  exact (hsub.perm_of_length_le (by omega)).mem_iff.mpr hn

theorem getD_concat_layer (acc : List (List String)) (nxt : List String) (i : Nat) :
    (acc ++ [nxt]).getD i [] =
      if i < acc.length then acc.getD i []
      else if i = acc.length then nxt else [] := by
  rw [List.getD_eq_getElem?_getD, List.getElem?_append]
  split
  · rw [List.getD_eq_getElem?_getD]
  · rename_i h
    have hge : acc.length ≤ i := by omega
    by_cases he : i = acc.length
    · subst he
      simp
    · have h1 : 1 ≤ i - acc.length := by omega
      have : ([nxt] : List (List String))[i - acc.length]? = none := by
        apply List.getElem?_eq_none
        simpa using h1
      rw [this]
      simp [if_neg he, if_neg (by omega : ¬ i < acc.length)]

theorem mem_getD_lt {ls : List (List String)} {i : Nat} {a : String}
    (h : a ∈ ls.getD i []) : i < ls.length := by
  by_contra hge
  rw [List.getD_eq_getElem?_getD, List.getElem?_eq_none (by omega)] at h
  exact absurd h (List.not_mem_nil a)

theorem mem_flatten_getD {ls : List (List String)} {b : String}
    (h : b ∈ ls.flatten) : ∃ j < ls.length, b ∈ ls.getD j [] := by
  rcases List.mem_flatten.mp h with ⟨l, hl, hbl⟩
  rcases List.getElem_of_mem hl with ⟨j, hj, hgl⟩
  refine ⟨j, hj, ?_⟩
  rw [List.getD_eq_getElem?_getD, List.getElem?_eq_getElem hj, hgl]
  exact hbl

theorem getD_mem_flatten {ls : List (List String)} {j : Nat} {b : String}
    (h : b ∈ ls.getD j []) : b ∈ ls.flatten := by
  have hj : j < ls.length := mem_getD_lt h
  rw [List.getD_eq_getElem?_getD, List.getElem?_eq_getElem hj] at h
  exact List.mem_flatten.mpr ⟨_, List.getElem_mem hj, h⟩

theorem layer_mem_unique {ls : List (List String)} (hnd : ls.flatten.Nodup)
    {a : String} {i j : Nat} (hi : a ∈ ls.getD i []) (hj : a ∈ ls.getD j []) :
    i = j := by
  rcases List.nodup_flatten.mp hnd with ⟨_, hpw⟩
  have hi' : i < ls.length := mem_getD_lt hi
  have hj' : j < ls.length := mem_getD_lt hj
  rw [List.getD_eq_getElem?_getD, List.getElem?_eq_getElem hi'] at hi
  rw [List.getD_eq_getElem?_getD, List.getElem?_eq_getElem hj'] at hj
  by_contra hne
  rcases Nat.lt_or_ge i j with hlt | hge
  · exact (List.pairwise_iff_getElem.mp hpw i j hi' hj' hlt) hi hj
  · have hlt : j < i := by omega
    exact (List.pairwise_iff_getElem.mp hpw j i hj' hi' hlt) hj hi

theorem layersAux_spec (g : DependencyGraph) (hwf : g.WF) :
    ∀ (fuel : Nat) (done current : List String) (acc : List (List String)),
      LayerInv g done current acc →
      g.nodes.length + 1 ≤ fuel + done.length →
      LayersOut g (layersAux g fuel done current acc) := by
  intro fuel
  induction fuel with
  | zero =>
    intro done current acc hinv hlen
    rcases hinv with ⟨hnd, hmem, _, _, _, _⟩
    have hsub : (done ++ current).Subperm g.nodes :=
      List.subperm_of_subset hnd (fun x hx => hmem x hx)
    have := hsub.length_le
    simp only [List.length_append] at this
    omega
  | succ fuel ih =>
    intro done current acc hinv hlen
    rcases hinv with ⟨hnd, hmem, hflat, hcur, hstrict, hpend⟩
    cases current with
    | nil =>
      have hrun : layersAux g (fuel + 1) done [] acc = acc := rfl
      rw [hrun]
      simp only [List.append_nil] at hnd hmem hflat hpend
      subst hflat
      exact ⟨hnd, hmem, hstrict, fun n hn hna => hpend n hn hna⟩
    | cons c0 crest =>
      set current := c0 :: crest with hc
      have hcne : current.isEmpty = false := rfl
      set nxt := nextLayer g done current with hnxt_def
      have hrun : layersAux g (fuel + 1) done current acc =
          layersAux g fuel (done ++ current) nxt
            (if nxt.isEmpty then acc else acc ++ [nxt]) := by
        rw [layersAux, hcne]
        simp
      rw [hrun]
      -- Characterize membership in the next wavefront.
      have hnxt_mem : ∀ d, d ∈ nxt ↔ d ∈ g.nodes ∧ d ∉ done ∧ d ∉ current ∧
          (∀ x ∈ g.dependsOn d, x ∈ done ∨ x ∈ current) ∧
          (∃ x ∈ g.dependsOn d, x ∈ current) := by
        intro d
        constructor
        · intro hd
          rcases List.mem_filter.mp hd with ⟨hd1, hd2⟩
          have hd2' := of_decide_eq_true hd2
          rcases hd2' with ⟨ha, hb, hall, hany⟩
          refine ⟨mem_sortBy.mp hd1, ha, hb, ?_, ?_⟩
          · intro x hx
            exact of_decide_eq_true ((List.all_eq_true.mp hall) x hx)
          · rcases List.any_eq_true.mp hany with ⟨x, hx, hxc⟩
            exact ⟨x, hx, of_decide_eq_true hxc⟩
        · rintro ⟨h1, h2, h3, h4, x, hx, hxc⟩
          refine List.mem_filter.mpr ⟨mem_sortBy.mpr h1, ?_⟩
          refine decide_eq_true ?_
          refine ⟨h2, h3, List.all_eq_true.mpr ?_, List.any_eq_true.mpr ?_⟩
          · intro y hy
            exact decide_eq_true (h4 y hy)
          · exact ⟨x, hx, decide_eq_true hxc⟩
      have hnxt_nodup : nxt.Nodup :=
        (((sortBy_perm strLe g.nodes).nodup_iff).mpr hwf.1).filter _
      have hinv2 : LayerInv g (done ++ current) nxt
          (if nxt.isEmpty then acc else acc ++ [nxt]) := by
        refine ⟨?_, ?_, ?_, ?_, ?_, ?_⟩
        · refine hnd.append hnxt_nodup ?_
          intro a ha hanxt
          rcases (hnxt_mem a).mp hanxt with ⟨_, h2, h3, _, _⟩
          rcases List.mem_append.mp ha with h | h
          · exact h2 h
          · exact h3 h
        · intro n hn
          rcases List.mem_append.mp hn with h | h
          · exact hmem n h
          · exact ((hnxt_mem n).mp h).1
        · by_cases hne : nxt.isEmpty
          · have hn0 : nxt = [] := by simpa [List.isEmpty_iff] using hne
            rw [if_pos hne, hn0, List.append_nil]
            exact hflat
          · rw [if_neg hne, List.flatten_append]
            simp [hflat]
        · intro d hd x hx
          rcases (hnxt_mem d).mp hd with ⟨_, _, _, h4, _⟩
          exact List.mem_append.mpr (h4 x hx)
        · by_cases hne : nxt.isEmpty
          · rw [if_pos hne]
            exact hstrict
          · rw [if_neg hne]
            intro i a ha b hb
            rw [getD_concat_layer] at ha
            by_cases hi : i < acc.length
            · rw [if_pos hi] at ha
              rcases hstrict i a ha b hb with ⟨j, hj, hbj⟩
              refine ⟨j, hj, ?_⟩
              rw [getD_concat_layer, if_pos (by omega)]
              exact hbj
            · rw [if_neg hi] at ha
              by_cases he : i = acc.length
              · rw [if_pos he] at ha
                rcases (hnxt_mem a).mp ha with ⟨_, _, _, h4, _⟩
                have hbf : b ∈ acc.flatten := by
                  rw [hflat]
                  exact List.mem_append.mpr (h4 b hb)
                rcases mem_flatten_getD hbf with ⟨j, hjl, hbj⟩
                refine ⟨j, by omega, ?_⟩
                rw [getD_concat_layer, if_pos hjl]
                exact hbj
              · rw [if_neg he] at ha
                exact absurd ha (List.not_mem_nil a)
        · intro n hn hnmem
          have hn1 : n ∉ done ++ current := fun h =>
            hnmem (List.mem_append.mpr (Or.inl h))
          have hn2 : n ∉ nxt := fun h => hnmem (List.mem_append.mpr (Or.inr h))
          rcases hpend n hn hn1 with ⟨d, hd, hdd⟩
          by_contra hcon
          push_neg at hcon
          apply hn2
          refine (hnxt_mem n).mpr ⟨hn, fun h => hn1 (List.mem_append.mpr (Or.inl h)),
            fun h => hn1 (List.mem_append.mpr (Or.inr h)), ?_, ?_⟩
          · intro x hx
            exact List.mem_append.mp (hcon x hx)
          · rcases List.mem_append.mp (hcon d hd) with h | h
            · exact absurd h hdd
            · exact ⟨d, hd, h⟩
      refine ih (done ++ current) nxt _ hinv2 ?_
      simp only [List.length_append, hc, List.length_cons]
      omega

theorem get_layers_spec (g : DependencyGraph) (hwf : g.WF) :
    LayersOut g g.get_layers := by
  have hlayer0 : ∀ n, n ∈ (sortStrings g.nodes).filter
      (fun n => g.dependsOn n = []) ↔ n ∈ g.nodes ∧ g.dependsOn n = [] := by
    intro n
    constructor
    · intro h
      rcases List.mem_filter.mp h with ⟨h1, h2⟩
      exact ⟨mem_sortBy.mp h1, of_decide_eq_true h2⟩
    · rintro ⟨h1, h2⟩
      exact List.mem_filter.mpr ⟨mem_sortBy.mpr h1, decide_eq_true h2⟩
  set layer0 := (sortStrings g.nodes).filter (fun n => g.dependsOn n = [])
    with hl0
  have hinv : LayerInv g [] layer0 (if layer0.isEmpty then [] else [layer0]) := by
    refine ⟨?_, ?_, ?_, ?_, ?_, ?_⟩
    · simpa using (((sortBy_perm strLe g.nodes).nodup_iff).mpr hwf.1).filter _
    · intro n hn
      simp only [List.nil_append] at hn
      exact ((hlayer0 n).mp hn).1
    · by_cases hne : layer0.isEmpty
      · rw [if_pos hne]
        have : layer0 = [] := by simpa [List.isEmpty_iff] using hne
        simp [this]
      · rw [if_neg hne]
        simp
    · intro d hd x hx
      have h0 : g.dependsOn d = [] := ((hlayer0 d).mp hd).2
      rw [h0] at hx
      exact absurd hx (List.not_mem_nil x)
    · by_cases hne : layer0.isEmpty
      · rw [if_pos hne]
        intro i a ha
        rw [List.getD_eq_getElem?_getD, List.getElem?_eq_none (by simp)] at ha
        exact absurd ha (List.not_mem_nil a)
      · rw [if_neg hne]
        intro i a ha b hb
        have hi : i < 1 := mem_getD_lt ha
        have hi0 : i = 0 := by omega
        subst hi0
        have ha' : a ∈ layer0 := by simpa [List.getD] using ha
        have h0 : g.dependsOn a = [] := ((hlayer0 a).mp ha').2
        rw [h0] at hb
        exact absurd hb (List.not_mem_nil b)
    · intro n hn hnmem
      simp only [List.nil_append] at hnmem
      have hne : ¬ g.dependsOn n = [] := by
        intro h0
        exact hnmem ((hlayer0 n).mpr ⟨hn, h0⟩)
      rcases List.exists_mem_of_ne_nil _ hne with ⟨d, hd⟩
      exact ⟨d, hd, List.not_mem_nil d⟩
  have := layersAux_spec g hwf (g.nodes.length + 1) [] layer0
    (if layer0.isEmpty then [] else [layer0]) hinv (by simp)
  exact this

/-- Dependencies of a layered node descend to strictly earlier layers along
any chain of dependency edges. -/
theorem transGen_layer_lt {g : DependencyGraph} {ls : List (List String)}
    (hstrict : StrictLayers g ls) :
    ∀ a b, Relation.TransGen g.EdgeStep a b →
      ∀ i, a ∈ ls.getD i [] → ∃ j < i, b ∈ ls.getD j [] := by
  intro a b h
  induction h with
  | single h1 =>
    intro i ha
    exact hstrict i _ ha _ (mem_dependsOn.mpr h1)
  | tail _ h2 ih =>
    intro i ha
    rcases ih i ha with ⟨j, hj, hbj⟩
    rcases hstrict j _ hbj _ (mem_dependsOn.mpr h2) with ⟨k, hk, hck⟩
    exact ⟨k, by omega, hck⟩

/-- A node lying on a dependency cycle is assigned to no layer. -/
theorem cycle_node_unlayered {g : DependencyGraph} {ls : List (List String)}
    (hnd : ls.flatten.Nodup) (hstrict : StrictLayers g ls) {n : String}
    (hcyc : Relation.TransGen g.EdgeStep n n) :
    ∀ i, n ∉ ls.getD i [] := by
  intro i hi
  rcases transGen_layer_lt hstrict n n hcyc i hi with ⟨j, hj, hnj⟩
  exact absurd (layer_mem_unique hnd hnj hi) (Nat.ne_of_lt hj)

theorem layerFind_eq_none {n : String} :
    ∀ (ls : List (List String)) (k : Nat),
      (∀ layer ∈ ls, n ∉ layer) → layerFind n ls k = none
  | [], _, _ => rfl
  | l :: ls, k, h => by
    rw [layerFind, if_neg (h l (List.mem_cons_self l ls))]
    exact layerFind_eq_none ls (k + 1) (fun x hx => h x (List.mem_cons_of_mem l hx))

theorem layerFind_eq_some {n : String} :
    ∀ (ls : List (List String)) (k i : Nat), n ∈ ls.getD i [] →
      (∀ j, n ∈ ls.getD j [] → j = i) → layerFind n ls k = some (k + i)
  | [], _, i, hi, _ => by
    rw [List.getD_eq_getElem?_getD, List.getElem?_eq_none (by simp)] at hi
    exact absurd hi (List.not_mem_nil n)
  | l :: ls, k, i, hi, huniq => by
    by_cases hl : n ∈ l
    · have h0 : (0 : Nat) = i := huniq 0 (by simpa using hl)
      rw [layerFind, if_pos hl, ← h0]
      norm_num
    · have hine : i ≠ 0 := by
        intro h0
        subst h0
        exact hl (by simpa using hi)
      rcases Nat.exists_eq_succ_of_ne_zero hine with ⟨i', rfl⟩
      have hi' : n ∈ ls.getD i' [] := by simpa using hi
      have huniq' : ∀ j, n ∈ ls.getD j [] → j = i' := by
        intro j hj
        have : j + 1 = i' + 1 := huniq (j + 1) (by simpa using hj)
        omega
      rw [layerFind, if_neg hl, layerFind_eq_some ls (k + 1) i' hi' huniq']
      congr 1
      omega

theorem get_node_layer_eq_neg_one {g : DependencyGraph} {n : String}
    (h : ∀ layer ∈ g.get_layers, n ∉ layer) : g.get_node_layer n = -1 := by
  unfold get_node_layer
  rw [layerFind_eq_none g.get_layers 0 h]

theorem nodeToLayer_eq_sentinel {g : DependencyGraph} {n : String}
    (h : ∀ layer ∈ g.get_layers, n ∉ layer) : nodeToLayer g n = 999 := by
  unfold nodeToLayer
  rw [layerFind_eq_none g.get_layers 0 h]

/-- On a layering with duplicate-free union, `nodeToLayer` returns the layer
index of a layered node. -/
theorem nodeToLayer_eq_of_mem {g : DependencyGraph}
    (hnd : g.get_layers.flatten.Nodup) {n : String} {i : Nat}
    (hi : n ∈ g.get_layers.getD i []) : nodeToLayer g n = i := by
  unfold nodeToLayer
  rw [layerFind_eq_some g.get_layers 0 i hi
    (fun j hj => layer_mem_unique hnd hj hi)]
  norm_num

/-- For an acyclic graph the layering covers every node. -/
theorem layers_cover_of_acyclic (g : DependencyGraph) (hwf : g.WF)
    (hac : ¬ g.HasCycle) : ∀ n ∈ g.nodes, n ∈ g.get_layers.flatten := by
  have hout := get_layers_spec g hwf
  by_contra hcon
  push_neg at hcon
  rcases hcon with ⟨n0, hn0, hn0f⟩
  apply hac
  apply cycle_of_trapped g (g.nodes.filter (fun n => n ∉ g.get_layers.flatten))
  · exact List.ne_nil_of_mem (List.mem_filter.mpr ⟨hn0, decide_eq_true hn0f⟩)
  · intro n hn
    rcases List.mem_filter.mp hn with ⟨hn1, hn2⟩
    rcases hout.2.2.2 n hn1 (of_decide_eq_true hn2) with ⟨d, hd, hdf⟩
    have hedge : (n, d) ∈ g.edges := mem_dependsOn.mp hd
    exact ⟨d, hedge,
      List.mem_filter.mpr ⟨hwf.edge_snd hedge, decide_eq_true hdf⟩⟩

/-- A graph whose layering covers every node is acyclic. -/
theorem acyclic_of_layers_cover (g : DependencyGraph) (hwf : g.WF)
    (hcov : ∀ n ∈ g.nodes, n ∈ g.get_layers.flatten) : ¬ g.HasCycle := by
  have hout := get_layers_spec g hwf
  rintro ⟨n, htg⟩
  have hnn : n ∈ g.nodes := by
    cases htg with
    | single h1 => exact hwf.edge_fst h1
    | tail _ h2 => exact hwf.edge_snd h2
  rcases mem_flatten_getD (hcov n hnn) with ⟨i, _, hni⟩
  exact cycle_node_unlayered hout.1 hout.2.2.1 htg i hni

end DependencyGraph

/-! ### Dictionary lemmas -/

theorem find?_map_set {k : String} {v : Nat} :
    ∀ m : List (String × Nat), (m.find? (fun p => p.1 = k)).isSome →
      (m.map (fun p => if p.1 = k then (k, v) else p)).find? (fun p => p.1 = k) =
        some (k, v)
  | [], h => by simp at h
  | p :: ps, h => by
    by_cases hp : p.1 = k
    · simp [List.find?, hp]
    · have h' : (ps.find? (fun p => p.1 = k)).isSome := by
        simpa [List.find?, hp] using h
      simpa [List.find?, hp] using find?_map_set ps h'

theorem find?_map_set_ne {k k' : String} {v : Nat} (hne : k' ≠ k) :
    ∀ m : List (String × Nat),
      (m.map (fun p => if p.1 = k then (k, v) else p)).find? (fun p => p.1 = k') =
        m.find? (fun p => p.1 = k')
  | [] => rfl
  | p :: ps => by
    by_cases hp : p.1 = k
    · have h1 : ¬ (((k, v) : String × Nat).1 = k') := fun hh => hne hh.symm
      have h2 : ¬ (p.1 = k') := by
        rw [hp]
        exact fun hh => hne hh.symm
      rw [List.map_cons, if_pos hp,
        List.find?_cons_of_neg _ (by simpa using h1),
        List.find?_cons_of_neg _ (by simpa using h2)]
      exact find?_map_set_ne hne ps
    · rw [List.map_cons, if_neg hp]
      by_cases hp' : p.1 = k'
      · rw [List.find?_cons_of_pos _ (by simpa using hp'),
          List.find?_cons_of_pos _ (by simpa using hp')]
      · rw [List.find?_cons_of_neg _ (by simpa using hp'),
          List.find?_cons_of_neg _ (by simpa using hp')]
        exact find?_map_set_ne hne ps

theorem find?_concat_of_none {m : List (String × Nat)} {e : String × Nat}
    {p : String × Nat → Bool} (h : m.find? p = none) :
    (m ++ [e]).find? p = [e].find? p := by
  induction m with
  | nil => simp
  | cons a as ih =>
    by_cases ha : p a
    · simp [List.find?, ha] at h
    · have h' : as.find? p = none := by simpa [List.find?, ha] using h
      simpa [List.find?, ha] using ih h'

theorem find?_concat_of_some {m : List (String × Nat)} {e r : String × Nat}
    {p : String × Nat → Bool} (h : m.find? p = some r) :
    (m ++ [e]).find? p = some r := by
  induction m with
  | nil => simp at h
  | cons a as ih =>
    by_cases ha : p a
    · simp [List.find?, ha] at h ⊢
      exact h
    · have h' : as.find? p = some r := by simpa [List.find?, ha] using h
      simpa [List.find?, ha] using ih h'

theorem getAssoc_setAssoc_self (m : List (String × Nat)) (k : String) (v : Nat) :
    getAssoc (setAssoc m k v) k = some v := by
  unfold getAssoc setAssoc
  by_cases h : (m.find? (fun p => p.1 = k)).isSome
  · rw [if_pos h, find?_map_set m h]
    rfl
  · rw [if_neg h, find?_concat_of_none (Option.not_isSome_iff_eq_none.mp h)]
    simp [List.find?]

theorem getAssoc_setAssoc_ne {k k' : String} (hne : k' ≠ k)
    (m : List (String × Nat)) (v : Nat) :
    getAssoc (setAssoc m k v) k' = getAssoc m k' := by
  unfold getAssoc setAssoc
  by_cases h : (m.find? (fun p => p.1 = k)).isSome
  · rw [if_pos h, find?_map_set_ne hne m]
  · rw [if_neg h]
    cases hfind : m.find? (fun p => p.1 = k') with
    | none =>
      rw [find?_concat_of_none hfind]
      have : ¬ ((k, v).1 = k') := fun hkk => hne hkk.symm
      simp [List.find?, this]
    | some r => rw [find?_concat_of_some hfind]

theorem getAssoc_mem {m : List (String × Nat)} {q : String} {b : Nat}
    (h : getAssoc m q = some b) : (q, b) ∈ m := by
  unfold getAssoc at h
  cases hfind : m.find? (fun p => p.1 = q) with
  | none => rw [hfind] at h; simp at h
  | some r =>
    rw [hfind] at h
    have hr : r ∈ m := List.mem_of_find?_eq_some hfind
    have hq0 := List.find?_some hfind
    have hq : r.1 = q := of_decide_eq_true hq0
    have hb : r.2 = b := by simpa using h
    cases r
    simp_all

theorem mem_setAssoc {m : List (String × Nat)} {k : String} {v : Nat}
    {p : String × Nat} (h : p ∈ setAssoc m k v) : p = (k, v) ∨ p ∈ m := by
  unfold setAssoc at h
  by_cases hs : (m.find? (fun p => p.1 = k)).isSome
  · rw [if_pos hs] at h
    rcases List.mem_map.mp h with ⟨q, hq, hqe⟩
    by_cases hqk : q.1 = k
    · left
      rw [← hqe, if_pos hqk]
    · right
      rw [← hqe, if_neg hqk]
      exact hq
  · rw [if_neg hs] at h
    rcases List.mem_append.mp h with h | h
    · right; exact h
    · left; exact (List.mem_singleton.mp h)

/-! ### Properties of the partitioner's choice functions -/

theorem scanFold_pred (ps : List (List DatabaseObject)) (P : Nat → Prop) :
    ∀ (l : List Nat) (st : Nat × Option Nat), P st.1 → (∀ bi ∈ l, P bi) →
      P ((l.foldl (fun st bi =>
        let sz := (ps.getD bi []).length
        match st.2 with
        | none => (bi, some sz)
        | some bs => if sz < bs then (bi, some sz) else st) st).1) := by
  intro l
  induction l with
  | nil =>
    intro st h _
    exact h
  | cons bi rest ih =>
    intro st h hall
    rw [List.foldl_cons]
    rcases st with ⟨cur, opt⟩
    cases opt with
    | none =>
      exact ih _ (hall bi (List.mem_cons_self _ _))
        (fun x hx => hall x (List.mem_cons_of_mem _ hx))
    | some bs =>
      show P ((rest.foldl (fun st bi =>
          let sz := (ps.getD bi []).length
          match st.2 with
          | none => (bi, some sz)
          | some bs => if sz < bs then (bi, some sz) else st)
        (if (ps.getD bi []).length < bs then (bi, some ((ps.getD bi []).length))
          else (cur, some bs))).1)
      split_ifs
      · exact ih _ (hall bi (List.mem_cons_self _ _))
          (fun x hx => hall x (List.mem_cons_of_mem _ hx))
      · exact ih _ h (fun x hx => hall x (List.mem_cons_of_mem _ hx))

theorem bestBatchScan_ge (ps : List (List DatabaseObject)) (minBatch num : Nat) :
    minBatch ≤ bestBatchScan ps minBatch num := by
  unfold bestBatchScan
  apply scanFold_pred ps (fun b => minBatch ≤ b)
  · exact Nat.le_refl _
  · intro bi hbi
    rcases List.mem_range'_1.mp hbi with ⟨h1, _⟩
    exact h1

theorem bestBatchScan_lt (ps : List (List DatabaseObject)) {minBatch num : Nat}
    (h : minBatch < num) : bestBatchScan ps minBatch num < num := by
  unfold bestBatchScan
  apply scanFold_pred ps (fun b => b < num)
  · exact h
  · intro bi hbi
    rcases List.mem_range'_1.mp hbi with ⟨_, h2⟩
    omega

theorem partitionKeyLe_expand (g : DependencyGraph) (a b : DatabaseObject) :
    partitionKeyLe g a b =
      (if nodeToLayer g a.qualified_name ≠ nodeToLayer g b.qualified_name then
        decide (nodeToLayer g a.qualified_name < nodeToLayer g b.qualified_name)
      else if a.impact_score ≠ b.impact_score then
        decide (b.impact_score < a.impact_score)
      else strLe a.qualified_name b.qualified_name) := rfl

theorem partitionKeyLe_total (g : DependencyGraph) (o1 o2 : DatabaseObject) :
    partitionKeyLe g o1 o2 || partitionKeyLe g o2 o1 := by
  rw [partitionKeyLe_expand, partitionKeyLe_expand]
  by_cases e : nodeToLayer g o1.qualified_name = nodeToLayer g o2.qualified_name
  · rw [if_neg (not_not_intro e), if_neg (not_not_intro e.symm)]
    by_cases f : o1.impact_score = o2.impact_score
    · rw [if_neg (not_not_intro f), if_neg (not_not_intro f.symm)]
      exact strLe_total o1.qualified_name o2.qualified_name
    · rw [if_pos f, if_pos (fun h => f h.symm)]
      rcases lt_or_gt_of_ne f with h | h
      · simp [h]
      · simp [h]
  · rw [if_pos e, if_pos (fun h => e h.symm)]
    rcases Nat.lt_or_ge (nodeToLayer g o1.qualified_name)
      (nodeToLayer g o2.qualified_name) with h | h
    · simp [h]
    · have h2 : nodeToLayer g o2.qualified_name <
          nodeToLayer g o1.qualified_name := by omega
      simp [h2]

theorem partitionKeyLe_trans (g : DependencyGraph) (o1 o2 o3 : DatabaseObject)
    (h1 : partitionKeyLe g o1 o2) (h2 : partitionKeyLe g o2 o3) :
    partitionKeyLe g o1 o3 := by
  rw [partitionKeyLe_expand] at h1 h2 ⊢
  by_cases e12 : nodeToLayer g o1.qualified_name = nodeToLayer g o2.qualified_name <;>
    by_cases e23 : nodeToLayer g o2.qualified_name = nodeToLayer g o3.qualified_name
  · have e13 : nodeToLayer g o1.qualified_name = nodeToLayer g o3.qualified_name :=
      e12.trans e23
    rw [if_neg (not_not_intro e12)] at h1
    rw [if_neg (not_not_intro e23)] at h2
    rw [if_neg (not_not_intro e13)]
    by_cases f12 : o1.impact_score = o2.impact_score <;>
      by_cases f23 : o2.impact_score = o3.impact_score
    · rw [if_neg (not_not_intro f12)] at h1
      rw [if_neg (not_not_intro f23)] at h2
      rw [if_neg (not_not_intro (f12.trans f23))]
      exact strLe_trans h1 h2
    · rw [if_pos f23] at h2
      have hlt : o3.impact_score < o2.impact_score := of_decide_eq_true h2
      have f13 : o1.impact_score ≠ o3.impact_score := by
        rw [f12]
        exact f23
      rw [if_pos f13]
      refine decide_eq_true ?_
      omega
    · rw [if_pos f12] at h1
      have hlt : o2.impact_score < o1.impact_score := of_decide_eq_true h1
      have f13 : o1.impact_score ≠ o3.impact_score := by
        rw [← f23]
        exact fun h => f12 h
      rw [if_pos f13]
      refine decide_eq_true ?_
      omega
    · rw [if_pos f12] at h1
      rw [if_pos f23] at h2
      have hlt1 : o2.impact_score < o1.impact_score := of_decide_eq_true h1
      have hlt2 : o3.impact_score < o2.impact_score := of_decide_eq_true h2
      have f13 : o1.impact_score ≠ o3.impact_score := by
        intro h
        omega
      rw [if_pos f13]
      refine decide_eq_true ?_
      omega
  · rw [if_pos e23] at h2
    have hlt : nodeToLayer g o2.qualified_name < nodeToLayer g o3.qualified_name :=
      of_decide_eq_true h2
    have e13 : nodeToLayer g o1.qualified_name ≠ nodeToLayer g o3.qualified_name := by
      rw [e12]
      exact fun h => e23 h
    rw [if_pos e13]
    refine decide_eq_true ?_
    omega
  · rw [if_pos e12] at h1
    have hlt : nodeToLayer g o1.qualified_name < nodeToLayer g o2.qualified_name :=
      of_decide_eq_true h1
    have e13 : nodeToLayer g o1.qualified_name ≠ nodeToLayer g o3.qualified_name := by
      rw [← e23]
      exact fun h => e12 h
    rw [if_pos e13]
    refine decide_eq_true ?_
    omega
  · rw [if_pos e12] at h1
    rw [if_pos e23] at h2
    have hlt1 : nodeToLayer g o1.qualified_name < nodeToLayer g o2.qualified_name :=
      of_decide_eq_true h1
    have hlt2 : nodeToLayer g o2.qualified_name < nodeToLayer g o3.qualified_name :=
      of_decide_eq_true h2
    have e13 : nodeToLayer g o1.qualified_name ≠ nodeToLayer g o3.qualified_name := by
      intro h
      omega
    rw [if_pos e13]
    refine decide_eq_true ?_
    omega

/-! ### Coverage: every object survives partitioning and rebalancing -/

theorem foldMax_mem : ∀ (as : List Nat) (a : Nat), as.foldl max a ∈ a :: as := by
  intro as
  induction as with
  | nil => intro a; exact List.mem_singleton_self a
  | cons b bs ih =>
    intro a
    rw [List.foldl_cons]
    rcases List.mem_cons.mp (ih (max a b)) with h2 | h2
    · rcases max_choice a b with h | h
      · rw [h2, h]
        exact List.mem_cons_self _ _
      · rw [h2, h]
        exact List.mem_cons_of_mem _ (List.mem_cons_self _ _)
    · exact List.mem_cons_of_mem _ (List.mem_cons_of_mem _ h2)

theorem foldMin_mem : ∀ (as : List Nat) (a : Nat), as.foldl min a ∈ a :: as := by
  intro as
  induction as with
  | nil => intro a; exact List.mem_singleton_self a
  | cons b bs ih =>
    intro a
    rw [List.foldl_cons]
    rcases List.mem_cons.mp (ih (min a b)) with h2 | h2
    · rcases min_choice a b with h | h
      · rw [h2, h]
        exact List.mem_cons_self _ _
      · rw [h2, h]
        exact List.mem_cons_of_mem _ (List.mem_cons_self _ _)
    · exact List.mem_cons_of_mem _ (List.mem_cons_of_mem _ h2)

theorem natsMax_mem : ∀ l : List Nat, l ≠ [] → natsMax l ∈ l := by
  intro l hl
  cases l with
  | nil => exact absurd rfl hl
  | cons a as => exact foldMax_mem as a

theorem natsMin_mem : ∀ l : List Nat, l ≠ [] → natsMin l ∈ l := by
  intro l hl
  cases l with
  | nil => exact absurd rfl hl
  | cons a as => exact foldMin_mem as a

theorem set_mem_self {ps : List (List DatabaseObject)} {i : Nat}
    (hi : i < ps.length) (newp : List DatabaseObject) : newp ∈ ps.set i newp := by
  have hi' : i < (ps.set i newp).length := by simpa using hi
  have hm := List.getElem_mem hi'
  rwa [List.getElem_set_self hi'] at hm

theorem mem_set_of_mem {ps : List (List DatabaseObject)} {i : Nat}
    {newp : List DatabaseObject} {o : DatabaseObject}
    (hsub : o ∈ ps.getD i [] → o ∈ newp)
    (h : ∃ p ∈ ps, o ∈ p) : ∃ p ∈ ps.set i newp, o ∈ p := by
  rcases h with ⟨p, hp, hop⟩
  rcases List.getElem_of_mem hp with ⟨k, hk, hpk⟩
  by_cases hki : k = i
  · subst hki
    have hget : ps.getD k [] = p := by
      rw [List.getD_eq_getElem?_getD, List.getElem?_eq_getElem hk, hpk]
      rfl
    exact ⟨newp, set_mem_self hk newp, hsub (by rw [hget]; exact hop)⟩
  · refine ⟨p, ?_, hop⟩
    have hk' : k < (ps.set i newp).length := by simpa using hk
    have hne : i ≠ k := fun h => hki h.symm
    have hgk := List.getElem_set_ne hne hk'
    rw [← hpk]
    exact hgk ▸ List.getElem_mem hk'

theorem minBatchFold_lt {m : List (String × Nat)} {num : Nat}
    (hbound : ∀ q b, getAssoc m q = some b → b < num) (hnum : 0 < num)
    (deps : List String) :
    (deps.foldl (fun mb dep =>
      match getAssoc m dep with
      | some b => max mb b
      | none => mb) 0) < num := by
  have hgen : ∀ (l : List String) (acc : Nat), acc < num →
      (l.foldl (fun mb dep =>
        match getAssoc m dep with
        | some b => max mb b
        | none => mb) acc) < num := by
    intro l
    induction l with
    | nil => intro acc h; exact h
    | cons dep rest ih =>
      intro acc h
      rw [List.foldl_cons]
      cases hassoc : getAssoc m dep with
      | none => simpa [hassoc] using ih acc h
      | some b =>
        have hb : b < num := hbound dep b hassoc
        have : max acc b < num := by omega
        simpa [hassoc] using ih (max acc b) this
  exact hgen deps 0 hnum

theorem greedy_cover (num : Nat) (hnum : 1 ≤ num) :
    ∀ (l : List DatabaseObject) (ps : List (List DatabaseObject))
      (m : List (String × Nat)), ps.length = num →
      (∀ p ∈ m, p.2 < num) →
      ((l.foldl (greedyPlace num) (ps, m)).1.length = num ∧
        (∀ p ∈ (l.foldl (greedyPlace num) (ps, m)).2, p.2 < num) ∧
        ∀ o, ((∃ p ∈ ps, o ∈ p) ∨ o ∈ l) →
          ∃ p ∈ (l.foldl (greedyPlace num) (ps, m)).1, o ∈ p) := by
  intro l
  induction l with
  | nil =>
    intro ps m hlen hbound
    refine ⟨hlen, hbound, ?_⟩
    intro o ho
    rcases ho with h | h
    · exact h
    · exact absurd h (List.not_mem_nil o)
  | cons obj rest ih =>
    intro ps m hlen hbound
    rw [List.foldl_cons]
    set minB := obj.dependencies.foldl (fun mb dep =>
      match getAssoc m dep with
      | some b => max mb b
      | none => mb) 0 with hminB
    set best := bestBatchScan ps minB num with hbest
    have hstep : greedyPlace num (ps, m) obj =
        (ps.set best ((ps.getD best []) ++ [obj]),
          setAssoc m obj.qualified_name best) := rfl
    rw [hstep]
    have hlookup : ∀ q b, getAssoc m q = some b → b < num := by
      intro q b hq
      exact hbound (q, b) (getAssoc_mem hq)
    have hminlt : minB < num := minBatchFold_lt hlookup (by omega) obj.dependencies
    have hbestlt : best < num := bestBatchScan_lt ps hminlt
    have hlen2 : (ps.set best ((ps.getD best []) ++ [obj])).length = num := by
      simpa using hlen
    have hbound2 : ∀ p ∈ setAssoc m obj.qualified_name best, p.2 < num := by
      intro p hp
      rcases mem_setAssoc hp with h | h
      · rw [h]
        exact hbestlt
      · exact hbound p h
    rcases ih (ps.set best ((ps.getD best []) ++ [obj]))
      (setAssoc m obj.qualified_name best) hlen2 hbound2 with ⟨ihl, ihb, ihm⟩
    refine ⟨ihl, ihb, ?_⟩
    intro o ho
    apply ihm
    rcases ho with h | h
    · exact Or.inl (mem_set_of_mem (fun hx => List.mem_append.mpr (Or.inl hx)) h)
    · rcases List.mem_cons.mp h with h | h
      · subst h
        refine Or.inl ⟨(ps.getD best []) ++ [o], ?_,
          List.mem_append.mpr (Or.inr (List.mem_singleton_self o))⟩
        exact set_mem_self (by omega) _
      · exact Or.inr h

theorem rebalanceLoop_cover (cfg : StrategyConfig) (g : DependencyGraph) :
    ∀ (fuel : Nat) (ps : List (List DatabaseObject)) (m : List (String × Nat)),
      ((rebalanceLoop cfg g fuel ps m).1.length = ps.length ∧
        ∀ o, (∃ p ∈ ps, o ∈ p) →
          ∃ p ∈ (rebalanceLoop cfg g fuel ps m).1, o ∈ p) := by
  intro fuel
  induction fuel with
  | zero =>
    intro ps m
    exact ⟨rfl, fun o h => h⟩
  | succ fuel ih =>
    intro ps m
    set sizes := ps.map List.length with hsz
    set maxS := natsMax sizes with hmaxS
    set minS := natsMin sizes with hminS
    set total := natsSum sizes with htotal
    set largest := sizes.findIdx (fun s => s = maxS) with hlg
    set smallest := sizes.findIdx (fun s => s = minS) with hsm
    have hstep : rebalanceLoop cfg g (fuel + 1) ps m =
        (if (maxS - minS) * 100 * ps.length ≤ cfg.balance_tolerance * total then
          (ps, m)
        else if largest = smallest then (ps, m)
        else
          match (sortBy rebalLe (ps.getD largest [])).find?
              (moveCheck g m smallest largest) with
          | none => (ps, m)
          | some c =>
            rebalanceLoop cfg g fuel
              ((ps.set largest ((ps.getD largest []).erase c)).set smallest
                (((ps.set largest ((ps.getD largest []).erase c)).getD smallest [])
                  ++ [c]))
              (setAssoc m c.qualified_name smallest)) := rfl
    rw [hstep]
    split_ifs with hbal heq
    · exact ⟨rfl, fun o h => h⟩
    · exact ⟨rfl, fun o h => h⟩
    · cases hfind : (sortBy rebalLe (ps.getD largest [])).find?
          (moveCheck g m smallest largest) with
      | none => exact ⟨rfl, fun o h => h⟩
      | some c =>
        have hpsne : ps ≠ [] := by
          intro h0
          apply hbal
          rw [hmaxS, hminS, htotal, hsz, h0]
          simp [natsMax, natsMin, natsSum]
        have hszne : sizes ≠ [] := by
          rw [hsz]
          simpa using hpsne
        have hsmlt : smallest < ps.length := by
          have hlt : smallest < sizes.length := by
            rw [hsm]
            apply List.findIdx_lt_length_of_exists
            exact ⟨minS, natsMin_mem sizes hszne, by simp⟩
          simpa [hsz] using hlt
        rcases ih ((ps.set largest ((ps.getD largest []).erase c)).set smallest
            (((ps.set largest ((ps.getD largest []).erase c)).getD smallest []) ++ [c]))
          (setAssoc m c.qualified_name smallest) with ⟨ihl, ihm⟩
        constructor
        · rw [ihl]
          simp
        · intro o ho
          apply ihm
          by_cases hoc : o = c
          · subst hoc
            refine ⟨((ps.set largest ((ps.getD largest []).erase o)).getD smallest [])
                ++ [o], ?_,
              List.mem_append.mpr (Or.inr (List.mem_singleton_self o))⟩
            apply set_mem_self
            simpa using hsmlt
          · apply mem_set_of_mem (fun hx => List.mem_append.mpr (Or.inl hx))
            apply mem_set_of_mem (fun hx => (List.mem_erase_of_ne hoc).mpr hx)
            exact ho

theorem partition_balanced_cover (cfg : StrategyConfig) (g : DependencyGraph)
    (objs : List DatabaseObject) (num : Nat) (hnum : 1 ≤ num) :
    ∀ o ∈ objs, ∃ p ∈ partition_balanced cfg objs num g, o ∈ p := by
  intro o ho
  set placed := (sortBy (partitionKeyLe g) objs).foldl (greedyPlace num)
    (List.replicate num [], []) with hplaced
  have hpb : partition_balanced cfg objs num g =
      (if num = 0 then [] else if num = 1 then [objs]
       else (rebalance cfg g placed.1 placed.2).1) := rfl
  rw [hpb, if_neg (by omega : ¬ num = 0)]
  by_cases h1 : num = 1
  · rw [if_pos h1]
    exact ⟨objs, List.mem_singleton_self objs, ho⟩
  · rw [if_neg h1]
    have hrepl : (List.replicate num ([] : List DatabaseObject)).length = num := by
      simp
    rcases greedy_cover num hnum (sortBy (partitionKeyLe g) objs)
      (List.replicate num []) [] hrepl (by intro p hp; simp at hp)
      with ⟨hl, _, hm⟩
    have hmem : ∃ p ∈ placed.1, o ∈ p :=
      hm o (Or.inr (mem_sortBy.mpr ho))
    have hrb : rebalance cfg g placed.1 placed.2 =
        (if placed.1.isEmpty then (placed.1, placed.2)
         else if natsSum (placed.1.map List.length) = 0 then (placed.1, placed.2)
         else rebalanceLoop cfg g (natsSum (placed.1.map List.length))
           placed.1 placed.2) := rfl
    rw [hrb]
    split_ifs
    · exact hmem
    · exact hmem
    · exact (rebalanceLoop_cover cfg g _ placed.1 placed.2).2 o hmem

/-! ### The dependency-ordering invariant of the partitioner -/

theorem getD_set_self {ps : List (List DatabaseObject)} {i : Nat}
    (hi : i < ps.length) (x : List DatabaseObject) :
    (ps.set i x).getD i [] = x := by
  rw [List.getD_eq_getElem?_getD, List.getElem?_set]
  simp [hi]

theorem getD_set_not_eq {ps : List (List DatabaseObject)} {i j : Nat}
    (hij : i ≠ j) (x : List DatabaseObject) :
    (ps.set i x).getD j [] = ps.getD j [] := by
  rw [List.getD_eq_getElem?_getD, List.getElem?_set_ne hij,
    ← List.getD_eq_getElem?_getD]

theorem foldMax_acc_le {m : List (String × Nat)} :
    ∀ (l : List String) (acc : Nat),
      acc ≤ l.foldl (fun mb dep =>
        match getAssoc m dep with
        | some b => max mb b
        | none => mb) acc := by
  intro l
  induction l with
  | nil => intro acc; exact Nat.le_refl acc
  | cons dep rest ih =>
    intro acc
    rw [List.foldl_cons]
    cases hassoc : getAssoc m dep with
    | none => simpa [hassoc] using ih acc
    | some b =>
      have h1 : acc ≤ max acc b := Nat.le_max_left acc b
      have h2 := ih (max acc b)
      simp only [hassoc]
      omega

theorem minBatchFold_ge {m : List (String × Nat)} {dep : String} {b : Nat}
    (hdep : getAssoc m dep = some b) :
    ∀ (l : List String) (acc : Nat), dep ∈ l →
      b ≤ l.foldl (fun mb dep =>
        match getAssoc m dep with
        | some b => max mb b
        | none => mb) acc := by
  intro l
  induction l with
  | nil => intro acc h; exact absurd h (List.not_mem_nil dep)
  | cons d rest ih =>
    intro acc h
    rw [List.foldl_cons]
    rcases List.mem_cons.mp h with h | h
    · subst h
      have h2 := foldMax_acc_le (m := m) rest (max acc b)
      simp only [hdep]
      omega
    · cases hassoc : getAssoc m d with
      | none => simpa [hassoc] using ih acc h
      | some b2 => simpa [hassoc] using ih (max acc b2) h

theorem greedy_inv (num : Nat) (hnum : 1 ≤ num) :
    ∀ (todo done : List DatabaseObject) (ps : List (List DatabaseObject))
      (m : List (String × Nat)),
      ((done ++ todo).map DatabaseObject.qualified_name).Nodup →
      List.Pairwise (fun o1 o2 => o2.qualified_name ∉ o1.dependencies)
        (done ++ todo) →
      PartInv done num ps m →
      PartInv (done ++ todo) num (todo.foldl (greedyPlace num) (ps, m)).1
        (todo.foldl (greedyPlace num) (ps, m)).2 := by
  intro todo
  induction todo with
  | nil =>
    intro done ps m _ _ hinv
    simpa using hinv
  | cons obj rest ih =>
    intro done ps m hnd hpw hinv
    rcases hinv with ⟨hlen, hbound, hcons, hnds, hord⟩
    rw [List.foldl_cons]
    set minB := obj.dependencies.foldl (fun mb dep =>
      match getAssoc m dep with
      | some b => max mb b
      | none => mb) 0 with hminB
    set best := bestBatchScan ps minB num with hbest
    have hstep : greedyPlace num (ps, m) obj =
        (ps.set best ((ps.getD best []) ++ [obj]),
          setAssoc m obj.qualified_name best) := rfl
    rw [hstep]
    have hlookup : ∀ q b, getAssoc m q = some b → b < num := by
      intro q b hq
      exact (hbound (q, b) (getAssoc_mem hq)).1
    have hminlt : minB < num := minBatchFold_lt hlookup (by omega) obj.dependencies
    have hbestlt : best < num := bestBatchScan_lt ps hminlt
    have hbestps : best < ps.length := by omega
    -- the qualified name of the new object is fresh
    have hobj_fresh : obj.qualified_name ∉ done.map DatabaseObject.qualified_name := by
      intro hmem
      have h2 : obj.qualified_name ∈
          (obj :: rest).map DatabaseObject.qualified_name := by
        simp
      have h3 := hnd
      rw [List.map_append, List.nodup_append] at h3
      exact h3.2.2 hmem h2
    have hkey_ne : ∀ o ∈ done, o.qualified_name ≠ obj.qualified_name := by
      intro o ho heq
      exact hobj_fresh (heq ▸ List.mem_map_of_mem DatabaseObject.qualified_name ho)
    have hrearr : done ++ obj :: rest = (done ++ [obj]) ++ rest := by
      simp
    have hinv2 : PartInv (done ++ [obj]) num
        (ps.set best ((ps.getD best []) ++ [obj]))
        (setAssoc m obj.qualified_name best) := by
      refine ⟨by simpa using hlen, ?_, ?_, ?_, ?_⟩
      · intro p hp
        rcases mem_setAssoc hp with h | h
        · rw [h]
          exact ⟨hbestlt, by simp⟩
        · rcases hbound p h with ⟨h1, h2⟩
          exact ⟨h1, by simpa using Or.inl h2⟩
      · intro i o ho
        by_cases hib : i = best
        · subst hib
          rw [getD_set_self hbestps] at ho
          rcases List.mem_append.mp ho with h | h
          · rcases hcons best o h with ⟨h1, h2⟩
            refine ⟨List.mem_append.mpr (Or.inl h1), ?_⟩
            rw [getAssoc_setAssoc_ne (hkey_ne o h1) m best]
            exact h2
          · rw [List.mem_singleton.mp h]
            exact ⟨List.mem_append.mpr (Or.inr (List.mem_singleton_self obj)),
              getAssoc_setAssoc_self m obj.qualified_name best⟩
        · rw [getD_set_not_eq (fun h => hib h.symm)] at ho
          rcases hcons i o ho with ⟨h1, h2⟩
          refine ⟨List.mem_append.mpr (Or.inl h1), ?_⟩
          rw [getAssoc_setAssoc_ne (hkey_ne o h1) m best]
          exact h2
      · intro i
        by_cases hib : i = best
        · subst hib
          rw [getD_set_self hbestps]
          have hobj_nin : obj ∉ ps.getD best [] := by
            intro hmem
            exact hobj_fresh (List.mem_map_of_mem DatabaseObject.qualified_name
              (hcons best obj hmem).1)
          refine List.Nodup.append (hnds best) (List.nodup_singleton obj) ?_
          intro a ha hb
          rw [List.mem_singleton.mp hb] at ha
          exact hobj_nin ha
        · rw [getD_set_not_eq (fun h => hib h.symm)]
          exact hnds i
      · intro o ho dep hdep bo bd hbo hbd
        rcases List.mem_append.mp ho with hodone | hoobj
        · -- an earlier object: the new key cannot be among its dependencies
          rw [getAssoc_setAssoc_ne (hkey_ne o hodone) m best] at hbo
          by_cases hdq : dep = obj.qualified_name
          · exfalso
            rw [List.pairwise_append] at hpw
            have hR := hpw.2.2 o hodone obj (List.mem_cons_self obj rest)
            exact hR (hdq ▸ hdep)
          · rw [getAssoc_setAssoc_ne hdq m best] at hbd
            exact hord o hodone dep hdep bo bd hbo hbd
        · have hoobj' : o = obj := List.mem_singleton.mp hoobj
          subst hoobj'
          rw [getAssoc_setAssoc_self m o.qualified_name best] at hbo
          have hbo' : bo = best := by
            injection hbo with h
            omega
          subst hbo'
          by_cases hdq : dep = o.qualified_name
          · rw [hdq, getAssoc_setAssoc_self m o.qualified_name best] at hbd
            injection hbd with h
            omega
          · rw [getAssoc_setAssoc_ne hdq m best] at hbd
            have h1 : bd ≤ minB := minBatchFold_ge hbd o.dependencies 0 hdep
            have h2 : minB ≤ best := bestBatchScan_ge ps minB num
            omega
    have hih := ih (done ++ [obj]) (ps.set best ((ps.getD best []) ++ [obj]))
      (setAssoc m obj.qualified_name best)
      (by rw [← hrearr]; exact hnd) (by rw [← hrearr]; exact hpw) hinv2
    rw [← hrearr] at hih
    exact hih

theorem moveCheck_earlier {g : DependencyGraph} {m : List (String × Nat)}
    {smallest largest : Nat} {c : DatabaseObject}
    (h : moveCheck g m smallest largest c = true) (hlt : smallest < largest) :
    ∀ dep ∈ c.dependencies, ∀ b, getAssoc m dep = some b → b ≤ smallest := by
  intro dep hdep b hb
  unfold moveCheck at h
  rw [Bool.and_eq_true] at h
  rcases h with ⟨h1, _⟩
  rw [if_pos hlt, List.all_eq_true] at h1
  have h3 := h1 dep hdep
  simp only [hb] at h3
  have h4 : ¬ smallest < b := of_decide_eq_true h3
  omega

theorem moveCheck_later {g : DependencyGraph} {m : List (String × Nat)}
    {smallest largest : Nat} {c : DatabaseObject}
    (h : moveCheck g m smallest largest c = true) (hlt : largest < smallest) :
    ∀ dn ∈ g.get_dependents c.qualified_name, ∀ b,
      getAssoc m dn = some b → smallest ≤ b := by
  intro dn hdn b hb
  unfold moveCheck at h
  rw [Bool.and_eq_true] at h
  rcases h with ⟨_, h2⟩
  rw [if_pos hlt, List.all_eq_true] at h2
  have h3 := h2 dn hdn
  simp only [hb] at h3
  have h4 : ¬ b < smallest := of_decide_eq_true h3
  omega

theorem rebalanceLoop_inv (cfg : StrategyConfig) (g : DependencyGraph)
    (U : List DatabaseObject) (num : Nat)
    (hnd : (U.map DatabaseObject.qualified_name).Nodup)
    (hedge : ∀ o ∈ U, ∀ o2 ∈ U, o2.qualified_name ∈ o.dependencies →
      (o.qualified_name, o2.qualified_name) ∈ g.edges) :
    ∀ (fuel : Nat) (ps : List (List DatabaseObject)) (m : List (String × Nat)),
      PartInv U num ps m →
      PartInv U num (rebalanceLoop cfg g fuel ps m).1
        (rebalanceLoop cfg g fuel ps m).2 := by
  intro fuel
  induction fuel with
  | zero =>
    intro ps m hinv
    exact hinv
  | succ fuel ih =>
    intro ps m hinv
    set sizes := ps.map List.length with hsz
    set maxS := natsMax sizes with hmaxS
    set minS := natsMin sizes with hminS
    set total := natsSum sizes with htotal
    set largest := sizes.findIdx (fun s => s = maxS) with hlg
    set smallest := sizes.findIdx (fun s => s = minS) with hsm
    have hstep : rebalanceLoop cfg g (fuel + 1) ps m =
        (if (maxS - minS) * 100 * ps.length ≤ cfg.balance_tolerance * total then
          (ps, m)
        else if largest = smallest then (ps, m)
        else
          match (sortBy rebalLe (ps.getD largest [])).find?
              (moveCheck g m smallest largest) with
          | none => (ps, m)
          | some c =>
            rebalanceLoop cfg g fuel
              ((ps.set largest ((ps.getD largest []).erase c)).set smallest
                (((ps.set largest ((ps.getD largest []).erase c)).getD smallest [])
                  ++ [c]))
              (setAssoc m c.qualified_name smallest)) := rfl
    rw [hstep]
    split_ifs with hbal heq
    · exact hinv
    · exact hinv
    · cases hfind : (sortBy rebalLe (ps.getD largest [])).find?
          (moveCheck g m smallest largest) with
      | none => exact hinv
      | some c =>
        rcases hinv with ⟨hlen, hbound, hcons, hnds, hord⟩
        have hpsne : ps ≠ [] := by
          intro h0
          apply hbal
          rw [hmaxS, hminS, htotal, hsz, h0]
          simp [natsMax, natsMin, natsSum]
        have hszne : sizes ≠ [] := by
          rw [hsz]
          simpa using hpsne
        have hsmlt : smallest < ps.length := by
          have hlt : smallest < sizes.length := by
            rw [hsm]
            apply List.findIdx_lt_length_of_exists
            exact ⟨minS, natsMin_mem sizes hszne, by simp⟩
          simpa [hsz] using hlt
        have hlglt : largest < ps.length := by
          have hlt : largest < sizes.length := by
            rw [hlg]
            apply List.findIdx_lt_length_of_exists
            exact ⟨maxS, natsMax_mem sizes hszne, by simp⟩
          simpa [hsz] using hlt
        have hcheck : moveCheck g m smallest largest c = true :=
          List.find?_some hfind
        have hcmem : c ∈ ps.getD largest [] :=
          mem_sortBy.mp (List.mem_of_find?_eq_some hfind)
        rcases hcons largest c hcmem with ⟨hcU, hcm⟩
        have hinj := List.inj_on_of_nodup_map hnd
        have hqne : ∀ o ∈ U, o ≠ c → o.qualified_name ≠ c.qualified_name := by
          intro o hoU honc hq
          exact honc (hinj hoU hcU hq)
        apply ih
        set ps1 := ps.set largest ((ps.getD largest []).erase c) with hps1v
        have hlen1 : ps1.length = num := by
          rw [hps1v]
          simpa using hlen
        have hgl : ps1.getD largest [] = (ps.getD largest []).erase c := by
          rw [hps1v]
          exact getD_set_self (by omega : largest < ps.length) _
        have hgs : ps1.getD smallest [] = ps.getD smallest [] := by
          rw [hps1v]
          exact getD_set_not_eq heq _
        have hgo : ∀ i, i ≠ largest → ps1.getD i [] = ps.getD i [] := by
          intro i hi
          rw [hps1v]
          exact getD_set_not_eq (fun h => hi h.symm) _
        refine ⟨by simp [hlen1], ?_, ?_, ?_, ?_⟩
        · intro p hp
          rcases mem_setAssoc hp with h | h
          · rw [h]
            refine ⟨?_, ?_⟩
            · show smallest < num
              omega
            · show c.qualified_name ∈ U.map DatabaseObject.qualified_name
              exact List.mem_map_of_mem DatabaseObject.qualified_name hcU
          · exact hbound p h
        · intro i o ho
          by_cases his : i = smallest
          · subst his
            rw [getD_set_self (show smallest < ps1.length by omega), hgs] at ho
            rcases List.mem_append.mp ho with h | h
            · rcases hcons smallest o h with ⟨hoU, hom⟩
              have honc : o ≠ c := by
                intro hoc
                rw [hoc, hcm] at hom
                injection hom with h2
                exact heq h2
              refine ⟨hoU, ?_⟩
              rw [getAssoc_setAssoc_ne (hqne o hoU honc) m smallest]
              exact hom
            · rw [List.mem_singleton.mp h]
              exact ⟨hcU, getAssoc_setAssoc_self m c.qualified_name smallest⟩
          · rw [getD_set_not_eq (fun h2 => his h2.symm)] at ho
            by_cases hil : i = largest
            · subst hil
              rw [hgl] at ho
              have honc : o ≠ c :=
                (((hnds largest).mem_erase_iff).mp ho).1
              have ho' : o ∈ ps.getD largest [] := List.mem_of_mem_erase ho
              rcases hcons largest o ho' with ⟨hoU, hom⟩
              refine ⟨hoU, ?_⟩
              rw [getAssoc_setAssoc_ne (hqne o hoU honc) m smallest]
              exact hom
            · rw [hgo i hil] at ho
              rcases hcons i o ho with ⟨hoU, hom⟩
              have honc : o ≠ c := by
                intro hoc
                rw [hoc, hcm] at hom
                injection hom with h2
                exact hil h2.symm
              refine ⟨hoU, ?_⟩
              rw [getAssoc_setAssoc_ne (hqne o hoU honc) m smallest]
              exact hom
        · intro i
          by_cases his : i = smallest
          · subst his
            rw [getD_set_self (show smallest < ps1.length by omega), hgs]
            refine List.Nodup.append (hnds smallest) (List.nodup_singleton c) ?_
            intro a ha hb
            rw [List.mem_singleton.mp hb] at ha
            rcases hcons smallest c ha with ⟨_, hom⟩
            rw [hcm] at hom
            injection hom with h2
            exact heq h2
          · rw [getD_set_not_eq (fun h2 => his h2.symm)]
            by_cases hil : i = largest
            · subst hil
              rw [hgl]
              exact (hnds largest).erase c
            · rw [hgo i hil]
              exact hnds i
        · intro o hoU dep hdep bo bd hbo hbd
          by_cases hoc : o.qualified_name = c.qualified_name
          · have hoeq : o = c := hinj hoU hcU hoc
            rw [hoc, getAssoc_setAssoc_self] at hbo
            injection hbo with h2
            by_cases hdq : dep = c.qualified_name
            · rw [hdq, getAssoc_setAssoc_self] at hbd
              injection hbd with h3
              omega
            · rw [getAssoc_setAssoc_ne hdq] at hbd
              rw [hoeq] at hdep
              have hold : bd ≤ largest := hord c hcU dep hdep largest bd hcm hbd
              rcases Nat.lt_trichotomy smallest largest with hsl | hsl | hsl
              · have := moveCheck_earlier hcheck hsl dep hdep bd hbd
                omega
              · exact absurd hsl.symm heq
              · omega
          · rw [getAssoc_setAssoc_ne hoc] at hbo
            by_cases hdq : dep = c.qualified_name
            · rw [hdq, getAssoc_setAssoc_self] at hbd
              injection hbd with h3
              have hdep' : c.qualified_name ∈ o.dependencies := hdq ▸ hdep
              have hold : largest ≤ bo :=
                hord o hoU c.qualified_name hdep' bo largest hbo hcm
              rcases Nat.lt_trichotomy smallest largest with hsl | hsl | hsl
              · omega
              · exact absurd hsl.symm heq
              · have hdnmem : o.qualified_name ∈
                    g.get_dependents c.qualified_name := by
                  show o.qualified_name ∈ g.dependedBy c.qualified_name
                  exact DependencyGraph.mem_dependedBy.mpr
                    (hedge o hoU c hcU hdep')
                have := moveCheck_later hcheck hsl o.qualified_name hdnmem bo hbo
                omega
            · rw [getAssoc_setAssoc_ne hdq] at hbd
              exact hord o hoU dep hdep bo bd hbo hbd

/-- On an acyclic graph, the partitioner's sort key strictly separates the two
endpoints of a dependency edge: the depending object never compares `≤` its
dependency. -/
theorem key_lt_of_edge (g : DependencyGraph) (hwf : g.WF) (hac : ¬ g.HasCycle)
    {o1 o2 : DatabaseObject} (hn1 : o1.qualified_name ∈ g.nodes)
    (hed : (o1.qualified_name, o2.qualified_name) ∈ g.edges) :
    ¬ (partitionKeyLe g o1 o2 = true) := by
  intro hle
  have hout := DependencyGraph.get_layers_spec g hwf
  have hni : o1.qualified_name ∈ g.get_layers.flatten :=
    DependencyGraph.layers_cover_of_acyclic g hwf hac o1.qualified_name hn1
  rcases DependencyGraph.mem_flatten_getD hni with ⟨li, hli, hmemi⟩
  rcases hout.2.2.1 li o1.qualified_name hmemi o2.qualified_name
    (DependencyGraph.mem_dependsOn.mpr hed) with ⟨lj, hlj, hmemj⟩
  have hLi := DependencyGraph.nodeToLayer_eq_of_mem hout.1 hmemi
  have hLj := DependencyGraph.nodeToLayer_eq_of_mem hout.1 hmemj
  rw [partitionKeyLe_expand, hLi, hLj, if_pos (show li ≠ lj by omega)] at hle
  have := of_decide_eq_true hle
  omega

/-- Sorting by the partition key on an acyclic graph never places an object
before one of its dependencies. -/
theorem sorted_no_later_dep (g : DependencyGraph) (hwf : g.WF)
    (hac : ¬ g.HasCycle) (objs : List DatabaseObject)
    (hnodes : ∀ o ∈ objs, o.qualified_name ∈ g.nodes)
    (hedge : ∀ o ∈ objs, ∀ o2 ∈ objs, o2.qualified_name ∈ o.dependencies →
      (o.qualified_name, o2.qualified_name) ∈ g.edges) :
    List.Pairwise (fun o1 o2 => o2.qualified_name ∉ o1.dependencies)
      (sortBy (partitionKeyLe g) objs) := by
  have hsorted := sortBy_pairwise (partitionKeyLe_total g)
    (partitionKeyLe_trans g) objs
  rw [List.pairwise_iff_forall_sublist] at hsorted ⊢
  intro a b hsub
  have hle := hsorted hsub
  have ha : a ∈ objs := mem_sortBy.mp (hsub.subset (by simp))
  have hb : b ∈ objs := mem_sortBy.mp (hsub.subset (by simp))
  intro hdep
  exact key_lt_of_edge g hwf hac (hnodes a ha) (hedge a ha b hb hdep) hle

theorem getD_replicate (num i : Nat) :
    (List.replicate num ([] : List DatabaseObject)).getD i [] = [] := by
  rw [List.getD_eq_getElem?_getD, List.getElem?_replicate]
  split <;> rfl

theorem mem_getD_lt_gen {ls : List (List DatabaseObject)} {i : Nat}
    {o : DatabaseObject} (h : o ∈ ls.getD i []) : i < ls.length := by
  by_contra hge
  rw [List.getD_eq_getElem?_getD, List.getElem?_eq_none (by omega)] at h
  exact absurd h (List.not_mem_nil o)

theorem PartInv_perm {U V : List DatabaseObject} {num : Nat}
    {ps : List (List DatabaseObject)} {m : List (String × Nat)}
    (hp : U.Perm V) (h : PartInv U num ps m) : PartInv V num ps m := by
  rcases h with ⟨h1, h2, h3, h4, h5⟩
  refine ⟨h1, ?_, ?_, h4, ?_⟩
  · intro p hpm
    rcases h2 p hpm with ⟨ha, hb⟩
    exact ⟨ha, ((hp.map DatabaseObject.qualified_name).mem_iff).mp hb⟩
  · intro i o ho
    rcases h3 i o ho with ⟨ha, hb⟩
    exact ⟨hp.mem_iff.mp ha, hb⟩
  · intro o ho
    exact h5 o (hp.mem_iff.mpr ho)

/-- Master ordering theorem for the balanced partitioner: on an acyclic
well-formed graph covering the supplied objects, no object is placed in an
earlier partition than any of its in-group dependencies — after greedy
placement and after the rebalance loop. -/
theorem partition_balanced_ordering (cfg : StrategyConfig) (g : DependencyGraph)
    (objs : List DatabaseObject) (num : Nat)
    (hwf : g.WF) (hac : ¬ g.HasCycle)
    (hnd : (objs.map DatabaseObject.qualified_name).Nodup)
    (hnodes : ∀ o ∈ objs, o.qualified_name ∈ g.nodes)
    (hedge : ∀ o ∈ objs, ∀ o2 ∈ objs, o2.qualified_name ∈ o.dependencies →
      (o.qualified_name, o2.qualified_name) ∈ g.edges) :
    ∀ i j o o2, o ∈ (partition_balanced cfg objs num g).getD i [] →
      o2 ∈ (partition_balanced cfg objs num g).getD j [] →
      o2.qualified_name ∈ o.dependencies → j ≤ i := by
  intro i j o o2 ho ho2 hdep
  by_cases h0 : num = 0
  · subst h0
    have hlt := mem_getD_lt_gen ho
    have hz : partition_balanced cfg objs 0 g = [] := rfl
    rw [hz] at hlt
    simp at hlt
  by_cases h1 : num = 1
  · subst h1
    have hlt := mem_getD_lt_gen ho2
    have hone : partition_balanced cfg objs 1 g = [objs] := rfl
    rw [hone] at hlt
    simp at hlt
    omega
  have hpb : partition_balanced cfg objs num g =
      (if num = 0 then [] else if num = 1 then [objs]
       else (rebalance cfg g
         ((sortBy (partitionKeyLe g) objs).foldl (greedyPlace num)
           (List.replicate num [], [])).1
         ((sortBy (partitionKeyLe g) objs).foldl (greedyPlace num)
           (List.replicate num [], [])).2).1) := rfl
  rw [hpb, if_neg h0, if_neg h1] at ho ho2
  set placed := (sortBy (partitionKeyLe g) objs).foldl (greedyPlace num)
    (List.replicate num [], []) with hplacedv
  have hnum1 : 1 ≤ num := by omega
  have hpw := sorted_no_later_dep g hwf hac objs hnodes hedge
  have hndS : ((sortBy (partitionKeyLe g) objs).map
      DatabaseObject.qualified_name).Nodup :=
    (((sortBy_perm (partitionKeyLe g) objs).map
      DatabaseObject.qualified_name).nodup_iff).mpr hnd
  have hinv0 : PartInv [] num (List.replicate num []) [] := by
    refine ⟨by simp, ?_, ?_, ?_, ?_⟩
    · intro p hp
      exact absurd hp (List.not_mem_nil p)
    · intro i' o' ho'
      rw [getD_replicate] at ho'
      exact absurd ho' (List.not_mem_nil o')
    · intro i'
      rw [getD_replicate]
      exact List.nodup_nil
    · intro o' ho'
      exact absurd ho' (List.not_mem_nil o')
  have hinvS := greedy_inv num hnum1 (sortBy (partitionKeyLe g) objs) []
    (List.replicate num []) [] (by simpa using hndS) (by simpa using hpw) hinv0
  rw [List.nil_append, ← hplacedv] at hinvS
  have hinvObjs : PartInv objs num placed.1 placed.2 :=
    PartInv_perm (sortBy_perm (partitionKeyLe g) objs) hinvS
  have hrb : rebalance cfg g placed.1 placed.2 =
      (if placed.1.isEmpty then (placed.1, placed.2)
       else if natsSum (placed.1.map List.length) = 0 then (placed.1, placed.2)
       else rebalanceLoop cfg g (natsSum (placed.1.map List.length))
         placed.1 placed.2) := rfl
  have hinvR : PartInv objs num (rebalance cfg g placed.1 placed.2).1
      (rebalance cfg g placed.1 placed.2).2 := by
    rw [hrb]
    split_ifs
    · exact hinvObjs
    · exact hinvObjs
    · exact rebalanceLoop_inv cfg g objs num hnd hedge _ placed.1 placed.2 hinvObjs
  rcases hinvR with ⟨_, _, hcons, _, hord⟩
  rcases hcons i o ho with ⟨hoU, hoi⟩
  rcases hcons j o2 ho2 with ⟨_, ho2j⟩
  exact hord o hoU o2.qualified_name hdep i j hoi ho2j

/-! ### Well-formedness of the constructed graphs -/

namespace DependencyGraph

theorem addNode_edges (g : DependencyGraph) (n : String) :
    (g.addNode n).edges = g.edges := by
  unfold addNode
  split <;> rfl

theorem mem_addNode_self (g : DependencyGraph) (n : String) :
    n ∈ (g.addNode n).nodes := by
  unfold addNode
  split
  · assumption
  · simp

theorem mem_addNode_of_mem (g : DependencyGraph) (n x : String)
    (h : x ∈ g.nodes) : x ∈ (g.addNode n).nodes := by
  unfold addNode
  split
  · exact h
  · exact List.mem_append.mpr (Or.inl h)

theorem addNode_WF (g : DependencyGraph) (n : String) (h : g.WF) :
    (g.addNode n).WF := by
  unfold addNode
  split
  · exact h
  · rename_i hn
    refine ⟨?_, h.2.1, ?_⟩
    · refine List.Nodup.append h.1 (List.nodup_singleton n) ?_
      intro a ha hb
      rw [List.mem_singleton.mp hb] at ha
      exact hn ha
    · intro e he
      rcases h.2.2 e he with ⟨h1, h2⟩
      exact ⟨List.mem_append.mpr (Or.inl h1), List.mem_append.mpr (Or.inl h2)⟩

theorem insertEdge_WF (g : DependencyGraph) (a b : String) (h : g.WF) :
    (g.insertEdge a b).WF := by
  have hg2 : ((g.addNode a).addNode b).WF := addNode_WF _ b (addNode_WF _ a h)
  have ha : a ∈ ((g.addNode a).addNode b).nodes :=
    mem_addNode_of_mem _ b a (mem_addNode_self g a)
  have hb : b ∈ ((g.addNode a).addNode b).nodes := mem_addNode_self _ b
  show ((if (a, b) ∈ ((g.addNode a).addNode b).edges then (g.addNode a).addNode b
    else { (g.addNode a).addNode b with
      edges := ((g.addNode a).addNode b).edges ++ [(a, b)] }) : DependencyGraph).WF
  split
  · exact hg2
  · rename_i hne
    refine ⟨hg2.1, ?_, ?_⟩
    · refine List.Nodup.append hg2.2.1 (List.nodup_singleton _) ?_
      intro e he1 he2
      rw [List.mem_singleton.mp he2] at he1
      exact hne he1
    · intro e he
      rcases List.mem_append.mp he with h1 | h1
      · exact hg2.2.2 e h1
      · rw [List.mem_singleton.mp h1]
        exact ⟨ha, hb⟩

theorem foldl_WF {β : Type} (f : DependencyGraph → β → DependencyGraph)
    (hf : ∀ g x, g.WF → (f g x).WF) :
    ∀ (l : List β) (g : DependencyGraph), g.WF → (l.foldl f g).WF := by
  intro l
  induction l with
  | nil =>
    intro g h
    exact h
  | cons x xs ih =>
    intro g h
    rw [List.foldl_cons]
    exact ih _ (hf g x h)

theorem empty_WF : (({} : DependencyGraph)).WF := by
  refine ⟨List.nodup_nil, List.nodup_nil, ?_⟩
  intro e he
  exact absurd he (List.not_mem_nil e)

end DependencyGraph

theorem stepsFree_zero {g : DependencyGraph} {root p : String} :
    stepsFree g root 0 p ↔ p = root := Iff.rfl

theorem stepsFree_succ {g : DependencyGraph} {root p : String} {k : Nat} :
    stepsFree g root (k + 1) p ↔
      p ≠ root ∧ ∃ c, stepsFree g root k c ∧ (p, c) ∈ g.edges := Iff.rfl

theorem depChain_zero {g : DependencyGraph} {a b : String} :
    depChain g 0 a b ↔ a = b := Iff.rfl

theorem depChain_succ {g : DependencyGraph} {a b : String} {k : Nat} :
    depChain g (k + 1) a b ↔
      ∃ c, (a, c) ∈ g.edges ∧ depChain g k c b := Iff.rfl

theorem stepsFree_ne_root {g : DependencyGraph} {root p : String} {k : Nat}
    (h1 : 1 ≤ k) (h : stepsFree g root k p) : p ≠ root := by
  cases k with
  | zero => omega
  | succ k => exact ((stepsFree_succ).mp h).1

theorem stepsFree_node {g : DependencyGraph} (hwf : g.WF) {root p : String}
    {k : Nat} (h1 : 1 ≤ k) (h : stepsFree g root k p) : p ∈ g.nodes := by
  cases k with
  | zero => omega
  | succ k =>
    rcases (stepsFree_succ).mp h with ⟨_, c, _, hedge⟩
    exact (hwf.2.2 _ hedge).1

theorem depChain_of_stepsFree {g : DependencyGraph} {root : String} :
    ∀ (k : Nat) (p : String), stepsFree g root k p → depChain g k p root := by
  intro k
  induction k with
  | zero =>
    intro p h
    exact depChain_zero.mpr (stepsFree_zero.mp h)
  | succ k ih =>
    intro p h
    rcases stepsFree_succ.mp h with ⟨_, c, hc, hedge⟩
    exact depChain_succ.mpr ⟨c, hedge, ih c hc⟩

theorem stepsFree_of_depChain {g : DependencyGraph} {root : String} :
    ∀ (k : Nat) (p : String), depChain g k p root → p ≠ root →
      ∃ k', 1 ≤ k' ∧ k' ≤ k ∧ stepsFree g root k' p := by
  intro k
  induction k with
  | zero =>
    intro p h hne
    exact absurd (depChain_zero.mp h) hne
  | succ k ih =>
    intro p h hne
    rcases depChain_succ.mp h with ⟨c, hedge, hc⟩
    by_cases hcr : c = root
    · refine ⟨1, Nat.le_refl 1, by omega, ?_⟩
      exact stepsFree_succ.mpr ⟨hne, c, stepsFree_zero.mpr hcr, hedge⟩
    · rcases ih c hc hcr with ⟨k', h1, hk, hfree⟩
      exact ⟨k' + 1, by omega, by omega, stepsFree_succ.mpr ⟨hne, c, hfree, hedge⟩⟩

namespace DependencyAnalyzer

theorem build_graph_WF (objects : List AssessmentObject) :
    (build_graph objects).WF := by
  have h1 : (objects.foldl (fun g o => g.addNode o.key)
      ({} : DependencyGraph)).WF :=
    DependencyGraph.foldl_WF _ (fun g x hg => DependencyGraph.addNode_WF g x.key hg)
      objects {} DependencyGraph.empty_WF
  have h2 : ∀ (gp : DependencyGraph), gp.WF →
      (objects.foldl
        (fun g obj =>
          obj.dependencies.foldl
            (fun g dep =>
              let depLower := resolveDep obj dep
              if depLower ∈ (objects.foldl (fun g o => g.addNode o.key)
                  ({} : DependencyGraph)).nodes then
                g.insertEdge obj.key depLower
              else g)
            g)
        gp).WF := by
    intro gp hgp
    refine DependencyGraph.foldl_WF _ ?_ objects gp hgp
    intro g obj hg
    refine DependencyGraph.foldl_WF _ ?_ obj.dependencies g hg
    intro g dep hg
    dsimp only
    split
    · exact DependencyGraph.insertEdge_WF _ _ _ hg
    · exact hg
  have h3 : ∀ (gp : DependencyGraph), gp.WF →
      (addImplicitDependencies gp objects).WF := by
    intro gp hgp
    unfold addImplicitDependencies
    refine DependencyGraph.foldl_WF _ ?_ objects gp hgp
    intro g obj hg
    dsimp only
    have hstat : ((if obj.object_type = "STATISTICS" then
        (((objects.filter (fun o =>
            o.object_type = "TABLE" ∧ strLower o.schema_name =
              strLower obj.schema_name)).map AssessmentObject.key)).foldl
          (fun g tableKey =>
            if hasSubList (afterFirstDot tableKey).data (strLower obj.name).data then
              g.insertEdge obj.key tableKey
            else g)
          g
      else g) : DependencyGraph).WF := by
      split
      · refine DependencyGraph.foldl_WF _ ?_ _ g hg
        intro g tk hg
        dsimp only
        split
        · exact DependencyGraph.insertEdge_WF _ _ _ hg
        · exact hg
      · exact hg
    split
    · refine DependencyGraph.foldl_WF _ ?_ _ _ hstat
      intro g sk hg
      exact DependencyGraph.insertEdge_WF _ _ _ hg
    · exact hstat
  exact h3 _ (h2 _ h1)

theorem bfsAux_drained (g : DependencyGraph) (root : String) (maxD : Nat) :
    ∀ (fuel : Nat) (Q : List (String × Nat)) (visited : List String),
      (∀ e ∈ Q, maxD ≤ e.2) →
      bfsAux g root maxD fuel Q visited = visited := by
  intro fuel
  induction fuel with
  | zero =>
    intro Q visited _
    rfl
  | succ fuel ih =>
    intro Q visited hQ
    cases Q with
    | nil => rfl
    | cons e rest =>
      rcases e with ⟨c, dq⟩
      have hstep : bfsAux g root maxD (fuel + 1) ((c, dq) :: rest) visited =
          (if maxD ≤ dq then bfsAux g root maxD fuel rest visited
           else
             bfsAux g root maxD fuel
               (rest ++ ((g.dependedBy c).filter
                 (fun p => p ∉ visited ∧ p ≠ root)).map (fun p => (p, dq + 1)))
               (visited ++ (g.dependedBy c).filter
                 (fun p => p ∉ visited ∧ p ≠ root))) := rfl
      rw [hstep, if_pos (hQ (c, dq) (List.mem_cons_self _ _))]
      exact ih rest visited (fun e he => hQ e (List.mem_cons_of_mem _ he))

theorem post_of_drained {g : DependencyGraph} {root : String} {maxD d : Nat}
    {visited : List String}
    (hinv : BfsInv g root maxD d [] [] visited) :
    BfsPost g root maxD visited := by
  obtain ⟨h1, _, _, _, _, h6, h7, h8, h9⟩ := hinv
  refine ⟨h1, h6, ?_⟩
  have hcomp : ∀ k, ∀ p, 1 ≤ k → k ≤ maxD → stepsFree g root k p →
      p ∈ visited := by
    intro k
    induction k using Nat.strong_induction_on with
    | _ k ihk =>
      intro p hk1 hkM hfree
      cases k with
      | zero => omega
      | succ j =>
        rcases stepsFree_succ.mp hfree with ⟨hne, c, hc, hedge⟩
        cases j with
        | zero =>
          by_cases hd : 1 ≤ d
          · exact h7 p 1 (by omega) hd hfree
          · by_contra hpv
            have hd0 : d = 0 := by omega
            subst hd0
            rcases h8 p hfree hpv with ⟨c', hc', _⟩
            exact absurd hc' (List.not_mem_nil _)
        | succ i =>
          have hcvis : c ∈ visited :=
            ihk (i + 1) (by omega) c (by omega) (by omega) hc
          rcases h9 c hcvis with h | h | h
          · exact absurd h (List.not_mem_nil _)
          · exact absurd h (List.not_mem_nil _)
          · rcases h p (DependencyGraph.mem_dependedBy.mpr hedge) with h' | h'
            · exact absurd h' hne
            · exact h'
  intro p k hk1 hkM hfree
  exact hcomp k p hk1 hkM hfree

theorem visited_le_nodes {g : DependencyGraph} (hwf : g.WF) {root : String}
    {maxD : Nat} {visited : List String} (hnd : visited.Nodup)
    (hsound : ∀ p ∈ visited, ∃ k, 1 ≤ k ∧ k ≤ maxD ∧ stepsFree g root k p) :
    visited.length ≤ g.nodes.length := by
  have hsub : visited ⊆ g.nodes := by
    intro p hp
    rcases hsound p hp with ⟨k, hk1, _, hfree⟩
    exact stepsFree_node hwf hk1 hfree
  exact (List.subperm_of_subset hnd hsub).length_le

theorem bfsAux_inv (g : DependencyGraph) (hwf : g.WF) (root : String)
    (maxD : Nat) :
    ∀ (n fuel d : Nat) (A B : List (String × Nat)) (visited : List String),
      fuel + (maxD - d) ≤ n →
      d < maxD →
      BfsInv g root maxD d A B visited →
      (A ++ B).length + g.nodes.length ≤ fuel + visited.length →
      BfsPost g root maxD (bfsAux g root maxD fuel (A ++ B) visited) := by
  intro n
  induction n with
  | zero =>
    intro fuel d A B visited hn hd hinv hlen
    have hf0 : fuel = 0 := by omega
    subst hf0
    have hvle : visited.length ≤ g.nodes.length :=
      visited_le_nodes hwf hinv.1 hinv.2.2.2.2.2.1
    have hAB : A ++ B = [] := by
      have : (A ++ B).length = 0 := by omega
      exact List.eq_nil_of_length_eq_zero this
    rcases List.append_eq_nil.mp hAB with ⟨hA, hB⟩
    subst hA
    subst hB
    exact post_of_drained hinv
  | succ n ih =>
    intro fuel d A B visited hn hd hinv hlen
    cases fuel with
    | zero =>
      have hvle : visited.length ≤ g.nodes.length :=
        visited_le_nodes hwf hinv.1 hinv.2.2.2.2.2.1
      have hAB : A ++ B = [] := by
        have : (A ++ B).length = 0 := by omega
        exact List.eq_nil_of_length_eq_zero this
      rcases List.append_eq_nil.mp hAB with ⟨hA, hB⟩
      subst hA
      subst hB
      exact post_of_drained hinv
    | succ f =>
      obtain ⟨h1, h2, h3, h4, h5, h6, h7, h8, h9⟩ := hinv
      cases A with
      | nil =>
        cases B with
        | nil => exact post_of_drained ⟨h1, h2, h3, h4, h5, h6, h7, h8, h9⟩
        | cons b B' =>
          -- wave shift: the queue holds only depth-(d+1) entries
          have h7' : ∀ p k, 1 ≤ k → k ≤ d + 1 → stepsFree g root k p →
              p ∈ visited := by
            intro p k hk1 hk hfree
            by_cases hkd : k ≤ d
            · exact h7 p k hk1 hkd hfree
            · have hkeq : k = d + 1 := by omega
              subst hkeq
              by_contra hpv
              rcases h8 p hfree hpv with ⟨c, hc, _⟩
              exact absurd hc (List.not_mem_nil _)
          have h8' : ∀ p, stepsFree g root (d + 1 + 1) p → p ∉ visited →
              ∃ c, (c, d + 1) ∈ b :: B' ∧ (p, c) ∈ g.edges := by
            intro p hfree hpv
            rcases stepsFree_succ.mp hfree with ⟨hne, c, hc, hedge⟩
            have hcvis : c ∈ visited := h7' c (d + 1) (by omega) (Nat.le_refl _) hc
            rcases h9 c hcvis with h | h | h
            · exact absurd h (List.not_mem_nil _)
            · exact ⟨c, h, hedge⟩
            · rcases h p (DependencyGraph.mem_dependedBy.mpr hedge) with h' | h'
              · exact absurd h' hne
              · exact absurd h' hpv
          have hinv' : BfsInv g root maxD (d + 1) (b :: B') [] visited := by
            refine ⟨h1, h3, ?_, ?_, ?_, h6, h7', h8', ?_⟩
            · intro e he
              exact absurd he (List.not_mem_nil e)
            · intro e he
              apply h4
              simpa using he
            · intro e he
              apply h5
              simpa using he
            · intro q hq
              rcases h9 q hq with h | h | h
              · exact absurd h (List.not_mem_nil _)
              · exact Or.inl h
              · exact Or.inr (Or.inr h)
          by_cases hd1 : d + 1 < maxD
          · have hres := ih (f + 1) (d + 1) (b :: B') [] visited (by omega) hd1
              hinv' (by simpa using hlen)
            simpa using hres
          · have hq : ∀ e ∈ (([] : List (String × Nat)) ++ (b :: B')),
                maxD ≤ e.2 := by
              intro e he
              simp only [List.nil_append] at he
              rw [h3 e he]
              omega
            rw [bfsAux_drained g root maxD (f + 1) _ visited hq]
            refine ⟨h1, h6, ?_⟩
            intro p k hk1 hkM hfree
            exact h7' p k hk1 (by omega) hfree
      | cons a A' =>
        rcases a with ⟨c, dq⟩
        have hdq : dq = d := h2 (c, dq) (List.mem_cons_self _ _)
        subst hdq
        have hstep : bfsAux g root maxD (f + 1) (((c, dq) :: A') ++ B) visited =
            (if maxD ≤ dq then bfsAux g root maxD f (A' ++ B) visited
             else
               bfsAux g root maxD f
                 ((A' ++ B) ++ ((g.dependedBy c).filter
                   (fun p => p ∉ visited ∧ p ≠ root)).map (fun p => (p, dq + 1)))
                 (visited ++ (g.dependedBy c).filter
                   (fun p => p ∉ visited ∧ p ≠ root))) := rfl
        rw [hstep, if_neg (by omega : ¬ maxD ≤ dq)]
        set newNodes := (g.dependedBy c).filter
          (fun p => p ∉ visited ∧ p ≠ root) with hnewv
        have hmem_new : ∀ p, p ∈ newNodes ↔
            ((p, c) ∈ g.edges ∧ p ∉ visited ∧ p ≠ root) := by
          intro p
          rw [hnewv, List.mem_filter]
          constructor
          · rintro ⟨hdb, hcond⟩
            exact ⟨DependencyGraph.mem_dependedBy.mp hdb, of_decide_eq_true hcond⟩
          · rintro ⟨hedge, hcond⟩
            exact ⟨DependencyGraph.mem_dependedBy.mpr hedge, decide_eq_true hcond⟩
        have hc_steps : stepsFree g root dq c :=
          h5 (c, dq) (List.mem_append.mpr (Or.inl (List.mem_cons_self _ _)))
        have hnew_nodup : newNodes.Nodup := by
          rw [hnewv]
          exact (DependencyGraph.dependedBy_nodup hwf.2.1 c).filter _
        have hnew_steps : ∀ p ∈ newNodes, stepsFree g root (dq + 1) p := by
          intro p hp
          rcases (hmem_new p).mp hp with ⟨hedge, _, hne⟩
          exact stepsFree_succ.mpr ⟨hne, c, hc_steps, hedge⟩
        have hinv' : BfsInv g root maxD dq A'
            (B ++ newNodes.map (fun p => (p, dq + 1))) (visited ++ newNodes) := by
          refine ⟨?_, ?_, ?_, ?_, ?_, ?_, ?_, ?_, ?_⟩
          · refine List.Nodup.append h1 hnew_nodup ?_
            intro x hx hx2
            exact ((hmem_new x).mp hx2).2.1 hx
          · intro e he
            exact h2 e (List.mem_cons_of_mem _ he)
          · intro e he
            rcases List.mem_append.mp he with h | h
            · exact h3 e h
            · rcases List.mem_map.mp h with ⟨p, _, rfl⟩
              rfl
          · intro e he
            rcases List.mem_append.mp he with h | h
            · have hold := h4 e (List.mem_append.mpr
                (Or.inl (List.mem_cons_of_mem _ h)))
              exact hold.imp_right (fun hx => List.mem_append.mpr (Or.inl hx))
            · rcases List.mem_append.mp h with h | h
              · have hold := h4 e (List.mem_append.mpr (Or.inr h))
                exact hold.imp_right (fun hx => List.mem_append.mpr (Or.inl hx))
              · rcases List.mem_map.mp h with ⟨p, hp, rfl⟩
                exact Or.inr (List.mem_append.mpr (Or.inr hp))
          · intro e he
            rcases List.mem_append.mp he with h | h
            · exact h5 e (List.mem_append.mpr (Or.inl (List.mem_cons_of_mem _ h)))
            · rcases List.mem_append.mp h with h | h
              · exact h5 e (List.mem_append.mpr (Or.inr h))
              · rcases List.mem_map.mp h with ⟨p, hp, rfl⟩
                exact hnew_steps p hp
          · intro p hp
            rcases List.mem_append.mp hp with h | h
            · exact h6 p h
            · exact ⟨dq + 1, by omega, by omega, hnew_steps p h⟩
          · intro p k hk1 hk hfree
            exact List.mem_append.mpr (Or.inl (h7 p k hk1 hk hfree))
          · intro p hfree hpv
            have hpv1 : p ∉ visited := fun hx =>
              hpv (List.mem_append.mpr (Or.inl hx))
            have hpv2 : p ∉ newNodes := fun hx =>
              hpv (List.mem_append.mpr (Or.inr hx))
            rcases h8 p hfree hpv1 with ⟨c', hc', hedge'⟩
            rcases List.mem_cons.mp hc' with heq | hA'
            · have hcc : c' = c := by
                injection heq
              exfalso
              apply hpv2
              refine (hmem_new p).mpr ⟨?_, hpv1, stepsFree_ne_root (by omega) hfree⟩
              rw [← hcc]
              exact hedge'
            · exact ⟨c', hA', hedge'⟩
          · intro q hq
            rcases List.mem_append.mp hq with h | h
            · rcases h9 q h with hh | hh | hh
              · rcases List.mem_cons.mp hh with heq | hA'
                · have hqc : q = c := by
                    injection heq
                  subst hqc
                  refine Or.inr (Or.inr ?_)
                  intro r hr
                  by_cases hrr : r = root
                  · exact Or.inl hrr
                  · by_cases hrv : r ∈ visited
                    · exact Or.inr (List.mem_append.mpr (Or.inl hrv))
                    · refine Or.inr (List.mem_append.mpr (Or.inr ?_))
                      exact (hmem_new r).mpr
                        ⟨DependencyGraph.mem_dependedBy.mp hr, hrv, hrr⟩
                · exact Or.inl hA'
              · exact Or.inr (Or.inl (List.mem_append.mpr (Or.inl hh)))
              · refine Or.inr (Or.inr ?_)
                intro r hr
                exact (hh r hr).imp_right (fun hx => List.mem_append.mpr (Or.inl hx))
            · refine Or.inr (Or.inl (List.mem_append.mpr (Or.inr ?_)))
              exact List.mem_map.mpr ⟨q, h, rfl⟩
        have hlen' : (A' ++ (B ++ newNodes.map (fun p => (p, dq + 1)))).length +
            g.nodes.length ≤ f + (visited ++ newNodes).length := by
          simp only [List.length_append, List.length_map]
          simp only [List.length_append, List.length_cons] at hlen
          omega
        have hres := ih f dq A' (B ++ newNodes.map (fun p => (p, dq + 1)))
          (visited ++ newNodes) (by omega) hd hinv' hlen'
        rw [List.append_assoc]
        exact hres

theorem get_descendants_spec (g : DependencyGraph) (hwf : g.WF) (root : String)
    (maxD : Nat) : BfsPost g root maxD (get_descendants g root maxD) := by
  by_cases hmd : maxD = 0
  · subst hmd
    have hres : get_descendants g root 0 = [] := by
      show bfsAux g root 0 (g.nodes.length + 2) [(root, 0)] [] = []
      exact bfsAux_drained g root 0 _ _ _ (by intro e he; omega)
    rw [hres]
    refine ⟨List.nodup_nil, ?_, ?_⟩
    · intro p hp
      exact absurd hp (List.not_mem_nil p)
    · intro p k hk1 hkM _
      omega
  · have hmd1 : 0 < maxD := by omega
    have hinv0 : BfsInv g root maxD 0 [(root, 0)] [] [] := by
      refine ⟨List.nodup_nil, ?_, ?_, ?_, ?_, ?_, ?_, ?_, ?_⟩
      · intro e he
        rw [List.mem_singleton.mp he]
      · intro e he
        exact absurd he (List.not_mem_nil e)
      · intro e he
        rcases List.mem_append.mp he with h | h
        · rw [List.mem_singleton.mp h]
          exact Or.inl ⟨rfl, rfl⟩
        · exact absurd h (List.not_mem_nil e)
      · intro e he
        rcases List.mem_append.mp he with h | h
        · rw [List.mem_singleton.mp h]
          exact stepsFree_zero.mpr rfl
        · exact absurd h (List.not_mem_nil e)
      · intro p hp
        exact absurd hp (List.not_mem_nil p)
      · intro p k hk1 hk _
        omega
      · intro p hfree _
        rcases stepsFree_succ.mp hfree with ⟨_, c, hc, hedge⟩
        have hcr : c = root := stepsFree_zero.mp hc
        subst hcr
        exact ⟨c, List.mem_singleton_self _, hedge⟩
      · intro q hq
        exact absurd hq (List.not_mem_nil q)
    have hres := bfsAux_inv g hwf root maxD ((g.nodes.length + 2) + maxD)
      (g.nodes.length + 2) 0 [(root, 0)] [] [] (by omega) hmd1 hinv0
      (by simp only [List.append_nil, List.length_cons, List.length_nil,
        List.length_append]; omega)
    show BfsPost g root maxD
      (bfsAux g root maxD (g.nodes.length + 2) [(root, 0)] [])
    simpa using hres

/-- Membership characterization of `get_descendants`: exactly the nodes with
a dependency chain down to the root of length between 1 and the depth
bound. -/
theorem mem_get_descendants (g : DependencyGraph) (hwf : g.WF) (root : String)
    (maxD : Nat) (p : String) :
    p ∈ get_descendants g root maxD ↔
      (p ≠ root ∧ ∃ k, 1 ≤ k ∧ k ≤ maxD ∧ depChain g k p root) := by
  rcases get_descendants_spec g hwf root maxD with ⟨_, hsound, hcomp⟩
  constructor
  · intro hp
    rcases hsound p hp with ⟨k, hk1, hkM, hfree⟩
    exact ⟨stepsFree_ne_root hk1 hfree, k, hk1, hkM,
      depChain_of_stepsFree k p hfree⟩
  · rintro ⟨hne, k, hk1, hkM, hchain⟩
    rcases stepsFree_of_depChain k p hchain hne with ⟨k', hk1', hk', hfree⟩
    exact hcomp p k' hk1' (by omega) hfree

theorem get_descendants_nodup (g : DependencyGraph) (hwf : g.WF)
    (root : String) (maxD : Nat) : (get_descendants g root maxD).Nodup :=
  (get_descendants_spec g hwf root maxD).1

theorem scoresFold_ne (g : DependencyGraph) (maxD : Nat) (key : String) :
    ∀ (objs : List AssessmentObject) (acc : List (String × Nat)),
      (∀ ob ∈ objs, ob.key ≠ key) →
      getAssoc (objs.foldl (fun scores obj =>
        if obj.is_failed then
          setAssoc scores obj.key (get_descendants g obj.key maxD).length
        else scores) acc) key = getAssoc acc key := by
  intro objs
  induction objs with
  | nil =>
    intro acc _
    rfl
  | cons ob rest ih =>
    intro acc hne
    rw [List.foldl_cons]
    by_cases hf : ob.is_failed
    · rw [if_pos hf, ih _ (fun o ho => hne o (List.mem_cons_of_mem _ ho))]
      exact getAssoc_setAssoc_ne
        (fun h => hne ob (List.mem_cons_self _ _) h.symm) _ _
    · rw [if_neg hf]
      exact ih acc (fun o ho => hne o (List.mem_cons_of_mem _ ho))

theorem scoresFold_hit (g : DependencyGraph) (maxD : Nat) :
    ∀ (objs : List AssessmentObject) (acc : List (String × Nat))
      (o : AssessmentObject),
      o ∈ objs → o.is_failed = true → (objs.map AssessmentObject.key).Nodup →
      getAssoc (objs.foldl (fun scores obj =>
        if obj.is_failed then
          setAssoc scores obj.key (get_descendants g obj.key maxD).length
        else scores) acc) o.key =
        some (get_descendants g o.key maxD).length := by
  intro objs
  induction objs with
  | nil =>
    intro acc o ho _ _
    exact absurd ho (List.not_mem_nil o)
  | cons ob rest ih =>
    intro acc o ho hf hnd
    rw [List.map_cons, List.nodup_cons] at hnd
    rw [List.foldl_cons]
    rcases List.mem_cons.mp ho with heq | hmem
    · subst heq
      rw [if_pos hf]
      rw [scoresFold_ne g maxD o.key rest _ ?_]
      · exact getAssoc_setAssoc_self _ _ _
      · intro ob' hob' hkey
        exact hnd.1 (hkey ▸ List.mem_map_of_mem AssessmentObject.key hob')
    · by_cases hfb : ob.is_failed
      · rw [if_pos hfb]
        exact ih _ o hmem hf hnd.2
      · rw [if_neg hfb]
        exact ih acc o hmem hf hnd.2

theorem scoresFold_none (g : DependencyGraph) (maxD : Nat) (key : String) :
    ∀ (objs : List AssessmentObject) (acc : List (String × Nat)),
      getAssoc acc key = none →
      (∀ ob ∈ objs, ob.key = key → ob.is_failed = false) →
      getAssoc (objs.foldl (fun scores obj =>
        if obj.is_failed then
          setAssoc scores obj.key (get_descendants g obj.key maxD).length
        else scores) acc) key = none := by
  intro objs
  induction objs with
  | nil =>
    intro acc hacc _
    exact hacc
  | cons ob rest ih =>
    intro acc hacc hnf
    rw [List.foldl_cons]
    by_cases hf : ob.is_failed
    · have hkey : ob.key ≠ key := by
        intro h
        rw [hnf ob (List.mem_cons_self _ _) h] at hf
        exact absurd hf (by simp)
      rw [if_pos hf]
      refine ih _ ?_ (fun o ho => hnf o (List.mem_cons_of_mem _ ho))
      rw [getAssoc_setAssoc_ne (fun h => hkey h.symm) _ _]
      exact hacc
    · rw [if_neg hf]
      exact ih acc hacc (fun o ho => hnf o (List.mem_cons_of_mem _ ho))

/-- With duplicate-free keys, a failed object's written-back impact score is
the size of its bounded descendant set. -/
theorem analyzedScore_failed (objects : List AssessmentObject) (maxD : Nat)
    (o : AssessmentObject) (ho : o ∈ objects) (hf : o.is_failed = true)
    (hnd : (objects.map AssessmentObject.key).Nodup) :
    analyzedScore objects maxD o =
      ((get_descendants (build_graph objects) o.key maxD).length : Int) := by
  have hcalc : calculate_impact_scores objects maxD =
      objects.foldl (fun scores obj =>
        if obj.is_failed then
          setAssoc scores obj.key
            (get_descendants (build_graph objects) obj.key maxD).length
        else scores) [] := rfl
  have hmain : analyzedScore objects maxD o =
      (match getAssoc (calculate_impact_scores objects maxD) o.key with
       | some s => (s : Int)
       | none => 0) := rfl
  rw [hmain, hcalc, scoresFold_hit (build_graph objects) maxD objects [] o ho hf hnd]

/-- With duplicate-free keys, an object that did not fail assessment gets
impact score `0`. -/
theorem analyzedScore_not_failed (objects : List AssessmentObject) (maxD : Nat)
    (o : AssessmentObject) (ho : o ∈ objects) (hf : o.is_failed = false)
    (hnd : (objects.map AssessmentObject.key).Nodup) :
    analyzedScore objects maxD o = 0 := by
  have hcalc : calculate_impact_scores objects maxD =
      objects.foldl (fun scores obj =>
        if obj.is_failed then
          setAssoc scores obj.key
            (get_descendants (build_graph objects) obj.key maxD).length
        else scores) [] := rfl
  have hmain : analyzedScore objects maxD o =
      (match getAssoc (calculate_impact_scores objects maxD) o.key with
       | some s => (s : Int)
       | none => 0) := rfl
  have hnone : getAssoc (objects.foldl (fun scores obj =>
      if obj.is_failed then
        setAssoc scores obj.key
          (get_descendants (build_graph objects) obj.key maxD).length
      else scores) []) o.key = none := by
    refine scoresFold_none (build_graph objects) maxD o.key objects [] rfl ?_
    intro ob hob hkey
    have hobo : ob = o := List.inj_on_of_nodup_map hnd hob ho hkey
    rw [hobo]
    exact hf
  rw [hmain, hcalc, hnone]

end DependencyAnalyzer

/-! ### Exactness of layer 0 and the claim theorems on sorting and layering -/

namespace DependencyGraph

theorem get_node_layer_eq_of_mem {g : DependencyGraph}
    (hnd : g.get_layers.flatten.Nodup) {n : String} {i : Nat}
    (hi : n ∈ g.get_layers.getD i []) : g.get_node_layer n = (i : Int) := by
  unfold get_node_layer
  rw [layerFind_eq_some g.get_layers 0 i hi
    (fun j hj => layer_mem_unique hnd hj hi)]
  norm_num

theorem layersAux_getD0 (g : DependencyGraph) :
    ∀ (fuel : Nat) (done current : List String) (acc : List (List String)),
      acc ≠ [] →
      (layersAux g fuel done current acc).getD 0 [] = acc.getD 0 [] := by
  intro fuel
  induction fuel with
  | zero =>
    intro done current acc _
    rfl
  | succ fuel ih =>
    intro done current acc hacc
    show (if current.isEmpty then acc
      else layersAux g fuel (done ++ current) (nextLayer g done current)
        (if (nextLayer g done current).isEmpty then acc
         else acc ++ [nextLayer g done current])).getD 0 [] = acc.getD 0 []
    split_ifs with h1 h2
    · rfl
    · exact ih _ _ acc hacc
    · rw [ih _ _ _ (by simp)]
      have hpos : 0 < acc.length := List.length_pos.mpr hacc
      rw [List.getD_eq_getElem?_getD, List.getElem?_append_left hpos,
        ← List.getD_eq_getElem?_getD]

theorem get_layers_zero (g : DependencyGraph) (n : String) :
    n ∈ g.get_layers.getD 0 [] ↔ (n ∈ g.nodes ∧ g.dependsOn n = []) := by
  have hiff : ∀ m, m ∈ (sortStrings g.nodes).filter
      (fun x => g.dependsOn x = []) ↔ (m ∈ g.nodes ∧ g.dependsOn m = []) := by
    intro m
    rw [List.mem_filter]
    constructor
    · rintro ⟨h1, h2⟩
      exact ⟨mem_sortBy.mp h1, of_decide_eq_true h2⟩
    · rintro ⟨h1, h2⟩
      exact ⟨mem_sortBy.mpr h1, decide_eq_true h2⟩
  show n ∈ (layersAux g (g.nodes.length + 1) []
      ((sortStrings g.nodes).filter (fun x => g.dependsOn x = []))
      (if ((sortStrings g.nodes).filter (fun x => g.dependsOn x = [])).isEmpty
       then [] else
        [(sortStrings g.nodes).filter (fun x => g.dependsOn x = [])])).getD 0 []
    ↔ _
  by_cases hempty : ((sortStrings g.nodes).filter
      (fun x => g.dependsOn x = [])).isEmpty
  · rw [if_pos hempty]
    have hnil : ((sortStrings g.nodes).filter
        (fun x => g.dependsOn x = [])) = [] := by
      simpa [List.isEmpty_iff] using hempty
    have hres : layersAux g (g.nodes.length + 1) []
        ((sortStrings g.nodes).filter (fun x => g.dependsOn x = []))
        ([] : List (List String)) = [] := by
      show (if ((sortStrings g.nodes).filter
          (fun x => g.dependsOn x = [])).isEmpty then ([] : List (List String))
        else _) = []
      rw [if_pos hempty]
    rw [hres]
    constructor
    · intro h
      simp [List.getD] at h
    · intro h
      have hmem := (hiff n).mpr h
      rw [hnil] at hmem
      exact absurd hmem (List.not_mem_nil n)
  · rw [if_neg hempty, layersAux_getD0 g _ _ _ _ (by simp)]
    show n ∈ (sortStrings g.nodes).filter (fun x => g.dependsOn x = []) ↔ _
    exact hiff n

end DependencyGraph

/-- C3: on a well-formed graph, `topological_sort` succeeds exactly on
acyclic inputs: for an acyclic graph it returns a duplicate-free order
containing exactly the graph's nodes in which the target of every dependency
edge appears strictly before its source, and it returns an error if and only
if the graph has a dependency cycle — it never silently truncates. -/
theorem claim_C3 (g : DependencyGraph) (hwf : g.WF) :
    ((¬ g.HasCycle) → ∃ out, g.topological_sort = Except.ok out ∧
      out.Nodup ∧ (∀ n, n ∈ out ↔ n ∈ g.nodes) ∧
      (∀ a b, (a, b) ∈ g.edges → Before out b a)) ∧
    ((∃ e, g.topological_sort = Except.error e) ↔ g.HasCycle) := by
  have hout := DependencyGraph.kahnResult_out g hwf
  constructor
  · intro hac
    have hnlt : ¬ (DependencyGraph.kahnResult g).length < g.nodes.length := by
      intro hlt
      exact hac (DependencyGraph.hasCycle_of_incomplete g hwf hlt)
    refine ⟨DependencyGraph.kahnResult g, ?_, hout.1, ?_, ?_⟩
    · rw [DependencyGraph.topological_sort_eq, if_neg hnlt]
    · intro n
      exact ⟨fun h => hout.2.1 n h,
        fun h => DependencyGraph.covering_of_complete g hwf hnlt n h⟩
    · intro a b hedge
      exact hout.2.2.1 a b hedge
        (DependencyGraph.covering_of_complete g hwf hnlt a (hwf.edge_fst hedge))
  · constructor
    · rintro ⟨e, he⟩
      by_cases hlt : (DependencyGraph.kahnResult g).length < g.nodes.length
      · exact DependencyGraph.hasCycle_of_incomplete g hwf hlt
      · rw [DependencyGraph.topological_sort_eq, if_neg hlt] at he
        exact absurd he (by simp)
    · intro hcyc
      by_cases hlt : (DependencyGraph.kahnResult g).length < g.nodes.length
      · exact ⟨_, by rw [DependencyGraph.topological_sort_eq, if_pos hlt]⟩
      · exact absurd hcyc (DependencyGraph.noCycle_of_covering hwf hout
          (DependencyGraph.covering_of_complete g hwf hlt))

theorem claim_C3_witness :
    cgC3.WF ∧ ((∃ e, cgC3.topological_sort = Except.error e) ↔ cgC3.HasCycle) :=
  ⟨by decide, (claim_C3 cgC3 (by decide)).2⟩

/-- C8: in the layer decomposition of a well-formed acyclic graph, every node
is assigned a layer (and `get_node_layer` reports that index), layer 0
contains exactly the dependency-free nodes, and every node's layer index is
strictly greater than the layer index of each of its dependencies. -/
theorem claim_C8 (g : DependencyGraph) (hwf : g.WF) (hac : ¬ g.HasCycle) :
    (∀ n ∈ g.nodes, ∃ i : Nat, n ∈ g.get_layers.getD i [] ∧
      g.get_node_layer n = (i : Int)) ∧
    (∀ n, n ∈ g.get_layers.getD 0 [] ↔ n ∈ g.nodes ∧ g.dependsOn n = []) ∧
    (∀ n ∈ g.nodes, ∀ d ∈ g.dependsOn n,
      g.get_node_layer d < g.get_node_layer n) := by
  have hout := DependencyGraph.get_layers_spec g hwf
  have hcov := DependencyGraph.layers_cover_of_acyclic g hwf hac
  refine ⟨?_, fun n => DependencyGraph.get_layers_zero g n, ?_⟩
  · intro n hn
    rcases DependencyGraph.mem_flatten_getD (hcov n hn) with ⟨i, _, hi⟩
    exact ⟨i, hi, DependencyGraph.get_node_layer_eq_of_mem hout.1 hi⟩
  · intro n hn d hd
    rcases DependencyGraph.mem_flatten_getD (hcov n hn) with ⟨i, _, hi⟩
    rcases hout.2.2.1 i n hi d hd with ⟨j, hj, hjd⟩
    rw [DependencyGraph.get_node_layer_eq_of_mem hout.1 hi,
      DependencyGraph.get_node_layer_eq_of_mem hout.1 hjd]
    exact_mod_cast hj

theorem claim_C8_witness :
    cgC8.WF ∧ ¬ cgC8.HasCycle ∧
      (∀ n ∈ cgC8.nodes, ∀ d ∈ cgC8.dependsOn n,
        cgC8.get_node_layer d < cgC8.get_node_layer n) := by
  have hwf : cgC8.WF := by decide
  have hac : ¬ cgC8.HasCycle :=
    DependencyGraph.acyclic_of_layers_cover cgC8 hwf (by decide)
  exact ⟨hwf, hac, (claim_C8 cgC8 hwf hac).2.2⟩

/-- C10: on a well-formed graph, every node lying on a dependency cycle is
omitted from every returned layer, gets `get_node_layer` value `-1` and
partitioner sort-key layer `999`; and the union of the layers covers the
node set exactly when the graph is acyclic. -/
theorem claim_C10 (g : DependencyGraph) (hwf : g.WF) :
    (∀ n, Relation.TransGen g.EdgeStep n n →
      (∀ layer ∈ g.get_layers, n ∉ layer) ∧
      g.get_node_layer n = -1 ∧ nodeToLayer g n = 999) ∧
    ((∀ n ∈ g.nodes, n ∈ g.get_layers.flatten) ↔ ¬ g.HasCycle) := by
  have hout := DependencyGraph.get_layers_spec g hwf
  constructor
  · intro n hcyc
    have hnol : ∀ layer ∈ g.get_layers, n ∉ layer := by
      intro layer hlayer hmem
      rcases List.getElem_of_mem hlayer with ⟨i, hilt, hieq⟩
      have hin : n ∈ g.get_layers.getD i [] := by
        rw [List.getD_eq_getElem?_getD, List.getElem?_eq_getElem hilt, hieq]
        exact hmem
      exact DependencyGraph.cycle_node_unlayered hout.1 hout.2.2.1 hcyc i hin
    exact ⟨hnol, DependencyGraph.get_node_layer_eq_neg_one hnol,
      DependencyGraph.nodeToLayer_eq_sentinel hnol⟩
  · exact ⟨DependencyGraph.acyclic_of_layers_cover g hwf,
      DependencyGraph.layers_cover_of_acyclic g hwf⟩

theorem claim_C10_witness :
    cgC10.WF ∧
      ((∀ n ∈ cgC10.nodes, n ∈ cgC10.get_layers.flatten) ↔ ¬ cgC10.HasCycle) :=
  ⟨by decide, (claim_C10 cgC10 (by decide)).2⟩

/-! ### Membership structure of graph insertion, and fold preservation -/

namespace DependencyGraph

theorem mem_addNode_iff {g : DependencyGraph} {n x : String} :
    x ∈ (g.addNode n).nodes ↔ (x ∈ g.nodes ∨ x = n) := by
  unfold addNode
  split
  · rename_i h
    constructor
    · exact Or.inl
    · rintro (hx | rfl)
      · exact hx
      · exact h
  · constructor
    · intro hx
      rcases List.mem_append.mp hx with h | h
      · exact Or.inl h
      · exact Or.inr (List.mem_singleton.mp h)
    · rintro (hx | rfl)
      · exact List.mem_append.mpr (Or.inl hx)
      · exact List.mem_append.mpr (Or.inr (List.mem_singleton_self _))

theorem mem_insertEdge_iff {g : DependencyGraph} {a b : String}
    {e : String × String} :
    e ∈ (g.insertEdge a b).edges ↔ (e ∈ g.edges ∨ e = (a, b)) := by
  show e ∈ (if (a, b) ∈ ((g.addNode a).addNode b).edges then (g.addNode a).addNode b
    else { (g.addNode a).addNode b with
      edges := ((g.addNode a).addNode b).edges ++ [(a, b)] }).edges ↔ _
  rw [addNode_edges, addNode_edges]
  split
  · rename_i h
    rw [addNode_edges, addNode_edges]
    constructor
    · exact Or.inl
    · rintro (hx | rfl)
      · exact hx
      · exact h
  · show e ∈ g.edges ++ [(a, b)] ↔ _
    constructor
    · intro hx
      rcases List.mem_append.mp hx with h | h
      · exact Or.inl h
      · exact Or.inr (List.mem_singleton.mp h)
    · rintro (hx | rfl)
      · exact List.mem_append.mpr (Or.inl hx)
      · exact List.mem_append.mpr (Or.inr (List.mem_singleton_self _))

theorem insertEdge_nodes_iff {g : DependencyGraph} {a b x : String} :
    x ∈ (g.insertEdge a b).nodes ↔ (x ∈ g.nodes ∨ x = a ∨ x = b) := by
  have hn : (g.insertEdge a b).nodes = ((g.addNode a).addNode b).nodes := by
    show (if (a, b) ∈ ((g.addNode a).addNode b).edges then (g.addNode a).addNode b
      else { (g.addNode a).addNode b with
        edges := ((g.addNode a).addNode b).edges ++ [(a, b)] }).nodes = _
    split <;> rfl
  rw [hn, mem_addNode_iff, mem_addNode_iff]
  constructor
  · rintro ((h | h) | h)
    · exact Or.inl h
    · exact Or.inr (Or.inl h)
    · exact Or.inr (Or.inr h)
  · rintro (h | h | h)
    · exact Or.inl (Or.inl h)
    · exact Or.inl (Or.inr h)
    · exact Or.inr h

theorem insertEdge_mem_self (g : DependencyGraph) (a b : String) :
    (a, b) ∈ (g.insertEdge a b).edges :=
  mem_insertEdge_iff.mpr (Or.inr rfl)

theorem insertEdge_edges_mem {g : DependencyGraph} {a b : String}
    {e : String × String} (h : e ∈ g.edges) : e ∈ (g.insertEdge a b).edges :=
  mem_insertEdge_iff.mpr (Or.inl h)

theorem mem_add_edge_iff {g : DependencyGraph} {a b : String}
    {e : String × String} :
    e ∈ (g.add_edge a b).edges ↔ (e ∈ g.edges ∨ (e = (a, b) ∧ a ≠ b)) := by
  unfold add_edge
  split
  · rename_i h
    constructor
    · exact Or.inl
    · rintro (hx | ⟨_, hne⟩)
      · exact hx
      · exact absurd h hne
  · rename_i h
    rw [mem_insertEdge_iff]
    constructor
    · rintro (hx | rfl)
      · exact Or.inl hx
      · exact Or.inr ⟨rfl, h⟩
    · rintro (hx | ⟨rfl, _⟩)
      · exact Or.inl hx
      · exact Or.inr rfl

theorem add_edge_self (g : DependencyGraph) (n : String) :
    g.add_edge n n = g := by
  unfold add_edge
  rw [if_pos rfl]

theorem add_edge_mem_self (g : DependencyGraph) {a b : String} (hne : a ≠ b) :
    (a, b) ∈ (g.add_edge a b).edges :=
  mem_add_edge_iff.mpr (Or.inr ⟨rfl, hne⟩)

theorem add_edge_edges_mem {g : DependencyGraph} {a b : String}
    {e : String × String} (h : e ∈ g.edges) : e ∈ (g.add_edge a b).edges :=
  mem_add_edge_iff.mpr (Or.inl h)

theorem foldl_pres {β : Type} (P : DependencyGraph → Prop)
    (f : DependencyGraph → β → DependencyGraph) :
    ∀ (l : List β), (∀ g x, x ∈ l → P g → P (f g x)) →
      ∀ g, P g → P (l.foldl f g) := by
  intro l
  induction l with
  | nil =>
    intro _ g h
    exact h
  | cons x xs ih =>
    intro hf g h
    rw [List.foldl_cons]
    exact ih (fun g' y hy => hf g' y (List.mem_cons_of_mem _ hy)) _
      (hf g x (List.mem_cons_self _ _) h)

theorem foldl_edges_mem {β : Type} (f : DependencyGraph → β → DependencyGraph)
    (e : String × String)
    (hmono : ∀ g x, e ∈ g.edges → e ∈ (f g x).edges) :
    ∀ (l : List β) (g : DependencyGraph), e ∈ g.edges →
      e ∈ (l.foldl f g).edges :=
  fun l g h =>
    foldl_pres (fun g' => e ∈ g'.edges) f l (fun g' x _ => hmono g' x) g h

theorem foldl_mem_of_elem {β : Type} (f : DependencyGraph → β → DependencyGraph)
    (e : String × String)
    (hmono : ∀ g x, e ∈ g.edges → e ∈ (f g x).edges)
    (x : β) (hx : ∀ g, e ∈ (f g x).edges) :
    ∀ (l : List β) (g : DependencyGraph), x ∈ l → e ∈ (l.foldl f g).edges := by
  intro l
  induction l with
  | nil =>
    intro g h
    exact absurd h (List.not_mem_nil x)
  | cons y ys ih =>
    intro g h
    rw [List.foldl_cons]
    rcases List.mem_cons.mp h with heq | hmem
    · subst heq
      exact foldl_edges_mem f e hmono ys _ (hx g)
    · exact ih (f g y) hmem

theorem add_edge_no_self {n : String} :
    ∀ (g : DependencyGraph) (a b : String),
      (n, n) ∉ g.edges → (n, n) ∉ (g.add_edge a b).edges := by
  intro g a b hg hmem
  rcases mem_add_edge_iff.mp hmem with h | ⟨heq, hne⟩
  · exact hg h
  · injection heq with h1 h2
    exact hne (by rw [← h1, ← h2])

theorem implicitStep_no_self (objects : List DatabaseObject)
    (schemas : List String) (n : String) :
    ∀ (g : DependencyGraph) (obj : DatabaseObject),
      (n, n) ∉ g.edges → (n, n) ∉ (implicitStep objects schemas g obj).edges := by
  intro g obj hg
  have hstage1 : ∀ (g' : DependencyGraph), (n, n) ∉ g'.edges →
      (n, n) ∉ ((if obj.object_type = ObjectType.TABLE ∨
          obj.object_type = ObjectType.VIEW ∨
          obj.object_type = ObjectType.STORED_PROCEDURE ∨
          obj.object_type = ObjectType.FUNCTION then
        schemas.foldl
          (fun g schemaQ =>
            match objectMap objects schemaQ with
            | some schemaObj =>
              if schemaObj.name = obj.schema_name then
                g.add_edge obj.qualified_name schemaQ
              else g
            | none => g)
          g'
      else g') : DependencyGraph).edges := by
    intro g' hg'
    split
    · refine foldl_pres (fun gx => (n, n) ∉ gx.edges) _ schemas ?_ g' hg'
      intro g'' q _ hq
      cases objectMap objects q with
      | some so =>
        dsimp only
        split
        · exact add_edge_no_self g'' _ _ hq
        · exact hq
      | none => exact hq
    · exact hg'
  have hstage2 : ∀ (g' : DependencyGraph), (n, n) ∉ g'.edges →
      (n, n) ∉ ((if obj.object_type = ObjectType.EXTERNAL_TABLE then
        objects.foldl
          (fun g other =>
            if other.object_type = ObjectType.EXTERNAL_FILE_FORMAT then
              g.add_edge obj.qualified_name other.qualified_name
            else g)
          (objects.foldl
            (fun g other =>
              if other.object_type = ObjectType.EXTERNAL_DATA_SOURCE then
                g.add_edge obj.qualified_name other.qualified_name
              else g)
            g')
      else g') : DependencyGraph).edges := by
    intro g' hg'
    split
    · refine foldl_pres (fun gx => (n, n) ∉ gx.edges) _ objects ?_ _ ?_
      · intro g'' other _ hq
        dsimp only
        split
        · exact add_edge_no_self g'' _ _ hq
        · exact hq
      · refine foldl_pres (fun gx => (n, n) ∉ gx.edges) _ objects ?_ g' hg'
        intro g'' other _ hq
        dsimp only
        split
        · exact add_edge_no_self g'' _ _ hq
        · exact hq
    · exact hg'
  have hstage3 : ∀ (g' : DependencyGraph), (n, n) ∉ g'.edges →
      (n, n) ∉ ((if obj.object_type = ObjectType.SECURITY then
        schemas.foldl (fun g schemaQ => g.add_edge obj.qualified_name schemaQ) g'
      else g') : DependencyGraph).edges := by
    intro g' hg'
    split
    · refine foldl_pres (fun gx => (n, n) ∉ gx.edges) _ schemas ?_ g' hg'
      intro g'' q _ hq
      exact add_edge_no_self g'' _ _ hq
    · exact hg'
  exact hstage3 _ (hstage2 _ (hstage1 g hg))

/-- Amended no-self-loop guarantee for the planner's graph: when no object
lists (a whitespace-padded form of) its own qualified name among its
dependencies, the constructed graph has no self-loop; the implicit pass can
never create one because it goes through `_add_edge`. -/
theorem ofObjects_no_self (objects : List DatabaseObject)
    (hdep : ∀ o ∈ objects, ∀ dep ∈ o.dependencies,
      strStrip dep ≠ o.qualified_name) :
    ∀ n, (n, n) ∉ (ofObjects objects).edges := by
  intro n
  have hbuild : (n, n) ∉ (build {} objects).edges := by
    unfold build
    refine foldl_pres (fun gx => (n, n) ∉ gx.edges) _ objects ?_ {} (List.not_mem_nil _)
    intro g obj hobj hg
    dsimp only
    refine foldl_pres (fun gx => (n, n) ∉ gx.edges) _ obj.dependencies ?_ _ ?_
    · intro g' dep hdepmem hg'
      dsimp only
      split
      · exact hg'
      · intro hmem
        rcases mem_insertEdge_iff.mp hmem with h | h
        · rw [addNode_edges] at h
          exact hg' h
        · injection h with h1 h2
          exact hdep obj hobj dep hdepmem (by rw [← h1, ← h2])
    · show (n, n) ∉ (g.addNode obj.qualified_name).edges
      rw [addNode_edges]
      exact hg
  show (n, n) ∉ ((build {} objects).add_implicit_edges objects).edges
  unfold add_implicit_edges
  exact foldl_pres (fun gx => (n, n) ∉ gx.edges) _ objects
    (fun g' obj _ hg' => implicitStep_no_self objects _ n g' obj hg')
    _ hbuild

end DependencyGraph

namespace DependencyAnalyzer

/-- Amended no-self-loop guarantee for the analyzer's graph: with
duplicate-free keys and no dependency resolving to its owner's own key, the
constructed graph has no self-loop.  (Unlike the planner, the analyzer's
implicit pass uses raw insertion, so key-injectivity is what rules out
self-loops there.) -/
theorem build_graph_no_self (objects : List AssessmentObject)
    (hnd : (objects.map AssessmentObject.key).Nodup)
    (hdep : ∀ o ∈ objects, ∀ dep ∈ o.dependencies,
      resolveDep o dep ≠ o.key) :
    ∀ n, (n, n) ∉ (build_graph objects).edges := by
  intro n
  have hadd : ∀ (l : List AssessmentObject) (g : DependencyGraph),
      (n, n) ∉ g.edges →
      (n, n) ∉ (l.foldl (fun g o => g.addNode o.key) g).edges := by
    intro l g hg
    refine DependencyGraph.foldl_pres (fun gx => (n, n) ∉ gx.edges) _ l ?_ g hg
    intro g' o _ hg'
    show (n, n) ∉ (g'.addNode o.key).edges
    rw [DependencyGraph.addNode_edges]
    exact hg'
  have h1 : (n, n) ∉ (objects.foldl (fun g o => g.addNode o.key)
      ({} : DependencyGraph)).edges :=
    hadd objects {} (List.not_mem_nil _)
  have h2 : (n, n) ∉ (objects.foldl
      (fun g obj =>
        obj.dependencies.foldl
          (fun g dep =>
            if resolveDep obj dep ∈ (objects.foldl (fun g o => g.addNode o.key)
                ({} : DependencyGraph)).nodes then
              g.insertEdge obj.key (resolveDep obj dep)
            else g)
          g)
      (objects.foldl (fun g o => g.addNode o.key)
        ({} : DependencyGraph))).edges := by
    refine DependencyGraph.foldl_pres (fun gx => (n, n) ∉ gx.edges) _ objects
      ?_ _ h1
    intro g obj hobj hg
    refine DependencyGraph.foldl_pres (fun gx => (n, n) ∉ gx.edges) _
      obj.dependencies ?_ g hg
    intro g' dep hdepm hg'
    dsimp only
    split
    · intro hmem
      rcases DependencyGraph.mem_insertEdge_iff.mp hmem with h | h
      · exact hg' h
      · injection h with ha hb
        exact hdep obj hobj dep hdepm (by rw [← ha, ← hb])
    · exact hg'
  have h3 : ∀ (gp : DependencyGraph), (n, n) ∉ gp.edges →
      (n, n) ∉ (addImplicitDependencies gp objects).edges := by
    intro gp hgp
    unfold addImplicitDependencies
    refine DependencyGraph.foldl_pres (fun gx => (n, n) ∉ gx.edges) _ objects
      ?_ gp hgp
    intro g obj hobj hg
    dsimp only
    have hstat : ∀ (g' : DependencyGraph), (n, n) ∉ g'.edges →
        (n, n) ∉ ((if obj.object_type = "STATISTICS" then
          (((objects.filter (fun o =>
              o.object_type = "TABLE" ∧
                strLower o.schema_name = strLower obj.schema_name)).map
            AssessmentObject.key)).foldl
            (fun g tableKey =>
              if hasSubList (afterFirstDot tableKey).data
                  (strLower obj.name).data then
                g.insertEdge obj.key tableKey
              else g)
            g'
        else g') : DependencyGraph).edges := by
      intro g' hg'
      split
      · rename_i hso
        refine DependencyGraph.foldl_pres (fun gx => (n, n) ∉ gx.edges) _ _
          ?_ g' hg'
        intro g'' tk htk hg''
        dsimp only
        split
        · intro hmem
          rcases DependencyGraph.mem_insertEdge_iff.mp hmem with h | h
          · exact hg'' h
          · injection h with ha hb
            rcases List.mem_map.mp htk with ⟨t, htf, rfl⟩
            rcases List.mem_filter.mp htf with ⟨htm, htc⟩
            have htype : t.object_type = "TABLE" := (of_decide_eq_true htc).1
            have hkeq : obj.key = t.key := by rw [← ha, ← hb]
            have hobjt : obj = t := List.inj_on_of_nodup_map hnd hobj htm hkeq
            rw [hobjt, htype] at hso
            exact absurd hso (by decide)
        · exact hg''
      · exact hg'
    have hext : ∀ (g' : DependencyGraph), (n, n) ∉ g'.edges →
        (n, n) ∉ ((if obj.object_type = "EXTERNAL_TABLE" then
          (((objects.filter (fun o =>
              o.object_type = "EXTERNAL_DATA_SOURCE")).map
            AssessmentObject.key)).foldl
            (fun g srcKey => g.insertEdge obj.key srcKey) g'
        else g') : DependencyGraph).edges := by
      intro g' hg'
      split
      · rename_i hso
        refine DependencyGraph.foldl_pres (fun gx => (n, n) ∉ gx.edges) _ _
          ?_ g' hg'
        intro g'' sk hsk hg''
        intro hmem
        rcases DependencyGraph.mem_insertEdge_iff.mp hmem with h | h
        · exact hg'' h
        · injection h with ha hb
          rcases List.mem_map.mp hsk with ⟨t, htf, rfl⟩
          rcases List.mem_filter.mp htf with ⟨htm, htc⟩
          have htype : t.object_type = "EXTERNAL_DATA_SOURCE" :=
            of_decide_eq_true htc
          have hkeq : obj.key = t.key := by rw [← ha, ← hb]
          have hobjt : obj = t := List.inj_on_of_nodup_map hnd hobj htm hkeq
          rw [hobjt, htype] at hso
          exact absurd hso (by decide)
      · exact hg'
    exact hext _ (hstat g hg)
  exact h3 _ h2

theorem addNode_fold_nodes :
    ∀ (l : List AssessmentObject) (g : DependencyGraph) (x : String),
      x ∈ (l.foldl (fun g o => g.addNode o.key) g).nodes ↔
        (x ∈ g.nodes ∨ x ∈ l.map AssessmentObject.key) := by
  intro l
  induction l with
  | nil =>
    intro g x
    simp
  | cons o os ih =>
    intro g x
    rw [List.foldl_cons, ih, DependencyGraph.mem_addNode_iff, List.map_cons,
      List.mem_cons]
    tauto

/-- Amended node-inventory guarantee, analyzer side: the nodes of the
analyzer's graph are exactly the keys of the input objects — an unresolved
dependency reference never becomes a node. -/
theorem build_graph_nodes (objects : List AssessmentObject) :
    ∀ x, x ∈ (build_graph objects).nodes ↔
      x ∈ objects.map AssessmentObject.key := by
  have hs1 : ∀ y, y ∈ (objects.foldl (fun g o => g.addNode o.key)
      ({} : DependencyGraph)).nodes ↔ y ∈ objects.map AssessmentObject.key := by
    intro y
    rw [addNode_fold_nodes]
    constructor
    · rintro (h | h)
      · exact absurd h (List.not_mem_nil y)
      · exact h
    · exact Or.inr
  have h2 : ∀ y, y ∈ (objects.foldl
      (fun g obj =>
        obj.dependencies.foldl
          (fun g dep =>
            if resolveDep obj dep ∈ (objects.foldl (fun g o => g.addNode o.key)
                ({} : DependencyGraph)).nodes then
              g.insertEdge obj.key (resolveDep obj dep)
            else g)
          g)
      (objects.foldl (fun g o => g.addNode o.key)
        ({} : DependencyGraph))).nodes ↔
      y ∈ objects.map AssessmentObject.key := by
    refine DependencyGraph.foldl_pres
      (fun gx => ∀ y, y ∈ gx.nodes ↔ y ∈ objects.map AssessmentObject.key) _
      objects ?_ _ hs1
    intro g obj hobj hg
    refine DependencyGraph.foldl_pres
      (fun gx => ∀ y, y ∈ gx.nodes ↔ y ∈ objects.map AssessmentObject.key) _
      obj.dependencies ?_ g hg
    intro g' dep _ hg'
    dsimp only
    split
    · rename_i hin
      intro y
      rw [DependencyGraph.insertEdge_nodes_iff, hg' y]
      constructor
      · rintro (h | h | h)
        · exact h
        · exact h ▸ List.mem_map_of_mem AssessmentObject.key hobj
        · exact h ▸ (hs1 _).mp hin
      · exact Or.inl
    · exact hg'
  intro x
  have h3 : ∀ (gp : DependencyGraph),
      (∀ y, y ∈ gp.nodes ↔ y ∈ objects.map AssessmentObject.key) →
      ∀ y, y ∈ (addImplicitDependencies gp objects).nodes ↔
        y ∈ objects.map AssessmentObject.key := by
    intro gp hgp
    unfold addImplicitDependencies
    refine DependencyGraph.foldl_pres
      (fun gx => ∀ y, y ∈ gx.nodes ↔ y ∈ objects.map AssessmentObject.key) _
      objects ?_ gp hgp
    intro g obj hobj hg
    dsimp only
    have hstat : ∀ (g' : DependencyGraph),
        (∀ y, y ∈ g'.nodes ↔ y ∈ objects.map AssessmentObject.key) →
        ∀ y, y ∈ ((if obj.object_type = "STATISTICS" then
          (((objects.filter (fun o =>
              o.object_type = "TABLE" ∧
                strLower o.schema_name = strLower obj.schema_name)).map
            AssessmentObject.key)).foldl
            (fun g tableKey =>
              if hasSubList (afterFirstDot tableKey).data
                  (strLower obj.name).data then
                g.insertEdge obj.key tableKey
              else g)
            g'
        else g') : DependencyGraph).nodes ↔
          y ∈ objects.map AssessmentObject.key := by
      intro g' hg'
      split
      · refine DependencyGraph.foldl_pres
          (fun gx => ∀ y, y ∈ gx.nodes ↔
            y ∈ objects.map AssessmentObject.key) _ _ ?_ g' hg'
        intro g'' tk htk hg''
        dsimp only
        split
        · intro y
          rw [DependencyGraph.insertEdge_nodes_iff, hg'' y]
          constructor
          · rintro (h | h | h)
            · exact h
            · exact h ▸ List.mem_map_of_mem AssessmentObject.key hobj
            · rcases List.mem_map.mp htk with ⟨t, htf, rfl⟩
              exact h ▸ List.mem_map_of_mem AssessmentObject.key
                (List.mem_filter.mp htf).1
          · exact Or.inl
        · exact hg''
      · exact hg'
    have hext : ∀ (g' : DependencyGraph),
        (∀ y, y ∈ g'.nodes ↔ y ∈ objects.map AssessmentObject.key) →
        ∀ y, y ∈ ((if obj.object_type = "EXTERNAL_TABLE" then
          (((objects.filter (fun o =>
              o.object_type = "EXTERNAL_DATA_SOURCE")).map
            AssessmentObject.key)).foldl
            (fun g srcKey => g.insertEdge obj.key srcKey) g'
        else g') : DependencyGraph).nodes ↔
          y ∈ objects.map AssessmentObject.key := by
      intro g' hg'
      split
      · refine DependencyGraph.foldl_pres
          (fun gx => ∀ y, y ∈ gx.nodes ↔
            y ∈ objects.map AssessmentObject.key) _ _ ?_ g' hg'
        intro g'' sk hsk hg''
        intro y
        rw [DependencyGraph.insertEdge_nodes_iff, hg'' y]
        constructor
        · rintro (h | h | h)
          · exact h
          · exact h ▸ List.mem_map_of_mem AssessmentObject.key hobj
          · rcases List.mem_map.mp hsk with ⟨t, htf, rfl⟩
            exact h ▸ List.mem_map_of_mem AssessmentObject.key
              (List.mem_filter.mp htf).1
        · exact Or.inl
      · exact hg'
    exact hext _ (hstat g hg)
  exact h3 _ h2 x

/-- Amended implicit-edge guarantee, analyzer side: every external table gets
an edge to every external data source (but, unlike the planner, not to
external file formats). -/
theorem build_graph_external_edges (objects : List AssessmentObject)
    (o : AssessmentObject) (ho : o ∈ objects)
    (hot : o.object_type = "EXTERNAL_TABLE")
    (s : AssessmentObject) (hs : s ∈ objects)
    (hst : s.object_type = "EXTERNAL_DATA_SOURCE") :
    (o.key, s.key) ∈ (build_graph objects).edges := by
  show (o.key, s.key) ∈ (addImplicitDependencies
    (objects.foldl
      (fun g obj =>
        obj.dependencies.foldl
          (fun g dep =>
            if resolveDep obj dep ∈ (objects.foldl (fun g o => g.addNode o.key)
                ({} : DependencyGraph)).nodes then
              g.insertEdge obj.key (resolveDep obj dep)
            else g)
          g)
      (objects.foldl (fun g o => g.addNode o.key) ({} : DependencyGraph)))
    objects).edges
  unfold addImplicitDependencies
  refine DependencyGraph.foldl_mem_of_elem _ (o.key, s.key) ?_ o ?_ objects _ ho
  · intro g obj hg
    dsimp only
    have hstat : ∀ (g' : DependencyGraph), (o.key, s.key) ∈ g'.edges →
        (o.key, s.key) ∈ ((if obj.object_type = "STATISTICS" then
          (((objects.filter (fun o2 =>
              o2.object_type = "TABLE" ∧
                strLower o2.schema_name = strLower obj.schema_name)).map
            AssessmentObject.key)).foldl
            (fun g tableKey =>
              if hasSubList (afterFirstDot tableKey).data
                  (strLower obj.name).data then
                g.insertEdge obj.key tableKey
              else g)
            g'
        else g') : DependencyGraph).edges := by
      intro g' hg'
      split
      · refine DependencyGraph.foldl_pres
          (fun gx => (o.key, s.key) ∈ gx.edges) _ _ ?_ g' hg'
        intro g'' tk _ hg''
        dsimp only
        split
        · exact DependencyGraph.insertEdge_edges_mem hg''
        · exact hg''
      · exact hg'
    split
    · refine DependencyGraph.foldl_pres
        (fun gx => (o.key, s.key) ∈ gx.edges) _ _ ?_ _ (hstat g hg)
      intro g'' sk _ hg''
      exact DependencyGraph.insertEdge_edges_mem hg''
    · exact hstat g hg
  · intro g
    dsimp only
    rw [if_pos hot]
    refine DependencyGraph.foldl_mem_of_elem _ (o.key, s.key) ?_ s.key ?_ _ _ ?_
    · intro g' sk hg'
      exact DependencyGraph.insertEdge_edges_mem hg'
    · intro g'
      exact DependencyGraph.insertEdge_mem_self g' o.key s.key
    · exact List.mem_map_of_mem AssessmentObject.key
        (List.mem_filter.mpr ⟨hs, decide_eq_true hst⟩)

end DependencyAnalyzer

namespace DependencyGraph

theorem implicitStep_edges_mem (objects : List DatabaseObject)
    (schemas : List String) (e : String × String) :
    ∀ (g : DependencyGraph) (obj : DatabaseObject),
      e ∈ g.edges → e ∈ (implicitStep objects schemas g obj).edges := by
  intro g obj hg
  have hstage1 : ∀ (g' : DependencyGraph), e ∈ g'.edges →
      e ∈ ((if obj.object_type = ObjectType.TABLE ∨
          obj.object_type = ObjectType.VIEW ∨
          obj.object_type = ObjectType.STORED_PROCEDURE ∨
          obj.object_type = ObjectType.FUNCTION then
        schemas.foldl
          (fun g schemaQ =>
            match objectMap objects schemaQ with
            | some schemaObj =>
              if schemaObj.name = obj.schema_name then
                g.add_edge obj.qualified_name schemaQ
              else g
            | none => g)
          g'
      else g') : DependencyGraph).edges := by
    intro g' hg'
    split
    · refine foldl_pres (fun gx => e ∈ gx.edges) _ schemas ?_ g' hg'
      intro g'' q _ hq
      cases objectMap objects q with
      | some so =>
        dsimp only
        split
        · exact add_edge_edges_mem hq
        · exact hq
      | none => exact hq
    · exact hg'
  have hstage2 : ∀ (g' : DependencyGraph), e ∈ g'.edges →
      e ∈ ((if obj.object_type = ObjectType.EXTERNAL_TABLE then
        objects.foldl
          (fun g other =>
            if other.object_type = ObjectType.EXTERNAL_FILE_FORMAT then
              g.add_edge obj.qualified_name other.qualified_name
            else g)
          (objects.foldl
            (fun g other =>
              if other.object_type = ObjectType.EXTERNAL_DATA_SOURCE then
                g.add_edge obj.qualified_name other.qualified_name
              else g)
            g')
      else g') : DependencyGraph).edges := by
    intro g' hg'
    split
    · refine foldl_pres (fun gx => e ∈ gx.edges) _ objects ?_ _ ?_
      · intro g'' other _ hq
        dsimp only
        split
        · exact add_edge_edges_mem hq
        · exact hq
      · refine foldl_pres (fun gx => e ∈ gx.edges) _ objects ?_ g' hg'
        intro g'' other _ hq
        dsimp only
        split
        · exact add_edge_edges_mem hq
        · exact hq
    · exact hg'
  have hstage3 : ∀ (g' : DependencyGraph), e ∈ g'.edges →
      e ∈ ((if obj.object_type = ObjectType.SECURITY then
        schemas.foldl (fun g schemaQ => g.add_edge obj.qualified_name schemaQ) g'
      else g') : DependencyGraph).edges := by
    intro g' hg'
    split
    · refine foldl_pres (fun gx => e ∈ gx.edges) _ schemas ?_ g' hg'
      intro g'' q _ hq
      exact add_edge_edges_mem hq
    · exact hg'
  exact hstage3 _ (hstage2 _ (hstage1 g hg))

/-- Amended implicit-edge guarantee, planner side: every external table gets
an edge to every external data source and every external file format with a
different qualified name (`_add_edge` refuses the degenerate equal-name
case). -/
theorem ofObjects_external_edges (objects : List DatabaseObject)
    (o : DatabaseObject) (ho : o ∈ objects)
    (hot : o.object_type = ObjectType.EXTERNAL_TABLE)
    (s : DatabaseObject) (hs : s ∈ objects)
    (hst : s.object_type = ObjectType.EXTERNAL_DATA_SOURCE ∨
      s.object_type = ObjectType.EXTERNAL_FILE_FORMAT)
    (hne : o.qualified_name ≠ s.qualified_name) :
    (o.qualified_name, s.qualified_name) ∈ (ofObjects objects).edges := by
  show (o.qualified_name, s.qualified_name) ∈
    ((build {} objects).add_implicit_edges objects).edges
  unfold add_implicit_edges
  have hc1 : ¬ (o.object_type = ObjectType.TABLE ∨
      o.object_type = ObjectType.VIEW ∨
      o.object_type = ObjectType.STORED_PROCEDURE ∨
      o.object_type = ObjectType.FUNCTION) := by
    rw [hot]
    decide
  have hc3 : ¬ (o.object_type = ObjectType.SECURITY) := by
    rw [hot]
    decide
  refine foldl_mem_of_elem _ (o.qualified_name, s.qualified_name) ?_ o ?_
    objects _ ho
  · intro g obj hg
    exact implicitStep_edges_mem objects _ _ g obj hg
  · intro g
    have hstep : implicitStep objects
        ((objects.filter (fun o2 => o2.object_type = ObjectType.SCHEMA)).map
          (fun o2 => o2.qualified_name)) g o =
        objects.foldl
          (fun g other =>
            if other.object_type = ObjectType.EXTERNAL_FILE_FORMAT then
              g.add_edge o.qualified_name other.qualified_name
            else g)
          (objects.foldl
            (fun g other =>
              if other.object_type = ObjectType.EXTERNAL_DATA_SOURCE then
                g.add_edge o.qualified_name other.qualified_name
              else g)
            g) := by
      unfold implicitStep
      simp only [if_neg hc1, if_pos hot, if_neg hc3]
    rw [hstep]
    rcases hst with hds | hff
    · refine foldl_edges_mem _ _ ?_ objects _ ?_
      · intro g' other hg'
        dsimp only
        split
        · exact add_edge_edges_mem hg'
        · exact hg'
      · refine foldl_mem_of_elem _ _ ?_ s ?_ objects g hs
        · intro g' other hg'
          dsimp only
          split
          · exact add_edge_edges_mem hg'
          · exact hg'
        · intro g'
          dsimp only
          rw [if_pos hds]
          exact add_edge_mem_self g' hne
    · refine foldl_mem_of_elem _ _ ?_ s ?_ objects _ hs
      · intro g' other hg'
        dsimp only
        split
        · exact add_edge_edges_mem hg'
        · exact hg'
      · intro g'
        dsimp only
        rw [if_pos hff]
        exact add_edge_mem_self g' hne

end DependencyGraph

/-! ### Plan assembly: timestamp dependence and the cycle policy -/

/-- The plan is a pure function of its inputs and the clock reading: changing
only the clock input rewrites only `created_at`. -/
theorem create_plan_timestamp (cfg : StrategyConfig)
    (objects : List DatabaseObject) (graph : DependencyGraph)
    (en t1 t2 : String) :
    (create_plan cfg objects graph en t1).map
      (fun p => { p with created_at := t2 }) =
    create_plan cfg objects graph en t2 := by
  unfold create_plan
  by_cases hc : cfg.circular_resolution = "error" ∧
    ¬ (graph.detect_cycles).isEmpty
  · simp only [if_pos hc]
    rfl
  · simp only [if_neg hc]
    rfl

/-- Under the `error` policy, plan creation fails exactly when the Tarjan
pass reports at least one cycle. -/
theorem create_plan_error_iff (cfg : StrategyConfig)
    (objects : List DatabaseObject) (graph : DependencyGraph)
    (en now : String) (hpol : cfg.circular_resolution = "error") :
    ((∃ e, create_plan cfg objects graph en now = Except.error e) ↔
      graph.detect_cycles ≠ []) := by
  unfold create_plan
  by_cases hcyc : graph.detect_cycles = []
  · have hc : ¬ (cfg.circular_resolution = "error" ∧
        ¬ (graph.detect_cycles).isEmpty) := by
      rintro ⟨_, h⟩
      rw [hcyc] at h
      exact h rfl
    simp only [if_neg hc]
    constructor
    · rintro ⟨e, he⟩
      exact absurd he (by simp)
    · intro h
      exact absurd hcyc h
  · have hc : cfg.circular_resolution = "error" ∧
        ¬ (graph.detect_cycles).isEmpty :=
      ⟨hpol, by simpa [List.isEmpty_iff] using hcyc⟩
    simp only [if_pos hc]
    exact ⟨fun _ => hcyc, fun _ => ⟨_, rfl⟩⟩

theorem mem_sortByQName {l : List DatabaseObject} {o : DatabaseObject} :
    o ∈ sortByQName l ↔ o ∈ l := mem_sortBy

theorem determine_batch_count_pos (cfg : StrategyConfig)
    (objs : List DatabaseObject) (h : ¬ objs.isEmpty) (desired : Nat) :
    1 ≤ determine_batch_count cfg objs desired := by
  unfold determine_batch_count
  rw [if_neg h]
  exact Nat.le_max_right _ 1

/-- Under the `warn` policy plan creation always succeeds, the batches cover
every input object, and one warning is recorded per detected cycle. -/
theorem create_plan_warn (cfg : StrategyConfig) (objects : List DatabaseObject)
    (graph : DependencyGraph) (en now : String)
    (hpol : cfg.circular_resolution = "warn") :
    ∃ plan, create_plan cfg objects graph en now = Except.ok plan ∧
      (∀ o ∈ objects, ∃ b ∈ plan.batches, o ∈ b.objects) ∧
      (∀ c ∈ graph.detect_cycles,
        ("Circular dependency detected: " ++ joinArrow c) ∈ plan.warnings) := by
  have hc : ¬ (cfg.circular_resolution = "error" ∧
      ¬ (graph.detect_cycles).isEmpty) := by
    rintro ⟨h1, _⟩
    rw [hpol] at h1
    exact absurd h1 (by decide)
  unfold create_plan
  simp only [if_neg hc]
  refine ⟨_, rfl, ?_, ?_⟩
  · intro o ho
    dsimp only
    set foundationObjs := objects.filter (fun o =>
      o.object_type = ObjectType.SCHEMA ∨ o.object_type = ObjectType.SECURITY ∨
        o.object_type = ObjectType.FUNCTION) with hfo
    set tableObjs := objects.filter
      (fun o => o.object_type = ObjectType.TABLE) with hto2
    set viewObjs := objects.filter
      (fun o => o.object_type = ObjectType.VIEW) with hvo
    set procedureObjs := objects.filter (fun o =>
      o.object_type = ObjectType.STORED_PROCEDURE) with hpo
    set cleanupObjs := objects.filter (fun o =>
      o.object_type = ObjectType.STATISTICS ∨
        o.object_type = ObjectType.EXTERNAL_TABLE ∨
        o.object_type = ObjectType.EXTERNAL_DATA_SOURCE ∨
        o.object_type = ObjectType.EXTERNAL_FILE_FORMAT) with hco
    have hmem : o ∈ foundationObjs ∨ o ∈ tableObjs ∨ o ∈ viewObjs ∨
        o ∈ procedureObjs ∨ o ∈ cleanupObjs := by
      rw [hfo, hto2, hvo, hpo, hco]
      cases hot : o.object_type with
      | SCHEMA =>
        exact Or.inl (List.mem_filter.mpr ⟨ho, decide_eq_true (Or.inl hot)⟩)
      | SECURITY =>
        exact Or.inl (List.mem_filter.mpr
          ⟨ho, decide_eq_true (Or.inr (Or.inl hot))⟩)
      | FUNCTION =>
        exact Or.inl (List.mem_filter.mpr
          ⟨ho, decide_eq_true (Or.inr (Or.inr hot))⟩)
      | TABLE =>
        exact Or.inr (Or.inl (List.mem_filter.mpr ⟨ho, decide_eq_true hot⟩))
      | VIEW =>
        exact Or.inr (Or.inr (Or.inl
          (List.mem_filter.mpr ⟨ho, decide_eq_true hot⟩)))
      | STORED_PROCEDURE =>
        exact Or.inr (Or.inr (Or.inr (Or.inl
          (List.mem_filter.mpr ⟨ho, decide_eq_true hot⟩))))
      | STATISTICS =>
        exact Or.inr (Or.inr (Or.inr (Or.inr
          (List.mem_filter.mpr ⟨ho, decide_eq_true (Or.inl hot)⟩))))
      | EXTERNAL_TABLE =>
        exact Or.inr (Or.inr (Or.inr (Or.inr (List.mem_filter.mpr
          ⟨ho, decide_eq_true (Or.inr (Or.inl hot))⟩))))
      | EXTERNAL_DATA_SOURCE =>
        exact Or.inr (Or.inr (Or.inr (Or.inr (List.mem_filter.mpr
          ⟨ho, decide_eq_true (Or.inr (Or.inr (Or.inl hot)))⟩))))
      | EXTERNAL_FILE_FORMAT =>
        exact Or.inr (Or.inr (Or.inr (Or.inr (List.mem_filter.mpr
          ⟨ho, decide_eq_true (Or.inr (Or.inr (Or.inr hot)))⟩))))
    have hne_of_mem : ∀ (l : List DatabaseObject), o ∈ l → ¬ l.isEmpty := by
      intro l hl h
      rw [List.isEmpty_iff.mp h] at hl
      exact absurd hl (List.not_mem_nil o)
    rcases hmem with hm | hm | hm | hm | hm
    · rw [if_neg (hne_of_mem _ hm)]
      refine ⟨_, List.mem_append.mpr (Or.inl (List.mem_append.mpr (Or.inl
        (List.mem_append.mpr (Or.inl (List.mem_append.mpr (Or.inl
          (List.mem_singleton_self _)))))))), ?_⟩
      show o ∈ sortByQName foundationObjs
      exact mem_sortByQName.mpr hm
    · rw [if_neg (hne_of_mem _ hm)]
      have hcount : 1 ≤ determine_batch_count cfg tableObjs
          cfg.table_batch_count :=
        determine_batch_count_pos cfg tableObjs (hne_of_mem _ hm) _
      rcases partition_balanced_cover cfg graph tableObjs _ hcount o hm
        with ⟨p, hp, hop⟩
      rcases List.getElem_of_mem hp with ⟨i, hi, hpi⟩
      refine ⟨_, List.mem_append.mpr (Or.inl (List.mem_append.mpr (Or.inl
        (List.mem_append.mpr (Or.inl (List.mem_append.mpr (Or.inr
          (List.mem_map.mpr ⟨i, List.mem_range.mpr hi, rfl⟩)))))))), ?_⟩
      show o ∈ (partition_balanced cfg tableObjs
        (determine_batch_count cfg tableObjs cfg.table_batch_count)
        graph).getD i []
      rw [List.getD_eq_getElem?_getD, List.getElem?_eq_getElem hi, hpi]
      exact hop
    · rw [if_neg (hne_of_mem _ hm)]
      have hcount : 1 ≤ determine_batch_count cfg viewObjs
          cfg.view_batch_count :=
        determine_batch_count_pos cfg viewObjs (hne_of_mem _ hm) _
      rcases partition_balanced_cover cfg graph viewObjs _ hcount o hm
        with ⟨p, hp, hop⟩
      rcases List.getElem_of_mem hp with ⟨i, hi, hpi⟩
      refine ⟨_, List.mem_append.mpr (Or.inl (List.mem_append.mpr (Or.inl
        (List.mem_append.mpr (Or.inr
          (List.mem_map.mpr ⟨i, List.mem_range.mpr hi, rfl⟩)))))), ?_⟩
      show o ∈ (partition_balanced cfg viewObjs
        (determine_batch_count cfg viewObjs cfg.view_batch_count)
        graph).getD i []
      rw [List.getD_eq_getElem?_getD, List.getElem?_eq_getElem hi, hpi]
      exact hop
    · rw [if_neg (hne_of_mem _ hm)]
      refine ⟨_, List.mem_append.mpr (Or.inl (List.mem_append.mpr (Or.inr
        (List.mem_singleton_self _)))), ?_⟩
      show o ∈ sortByQName procedureObjs
      exact mem_sortByQName.mpr hm
    · rw [if_neg (hne_of_mem _ hm)]
      refine ⟨_, List.mem_append.mpr (Or.inr (List.mem_singleton_self _)), ?_⟩
      show o ∈ sortByQName cleanupObjs
      exact mem_sortByQName.mpr hm
  · intro c hcmem
    dsimp only
    rw [if_pos hpol]
    exact List.mem_append.mpr (Or.inl (List.mem_append.mpr (Or.inl
      (List.mem_append.mpr (Or.inl (List.mem_map.mpr ⟨c, hcmem, rfl⟩))))))

/-- C1 (amended): over a well-formed acyclic dependency graph whose nodes
cover the scheduled group, with duplicate-free qualified names and every
in-group dependency present as an edge, the balanced partitioner never
places an object in an earlier batch than any of its scheduled in-group
dependencies — after the greedy phase and through every rebalance move.  (On
inputs whose graph has a cycle the property fails; see the counterexample.) -/
theorem claim_C1 (cfg : StrategyConfig) (g : DependencyGraph)
    (objs : List DatabaseObject) (num : Nat)
    (hwf : g.WF) (hac : ¬ g.HasCycle)
    (hnd : (objs.map DatabaseObject.qualified_name).Nodup)
    (hnodes : ∀ o ∈ objs, o.qualified_name ∈ g.nodes)
    (hedge : ∀ o ∈ objs, ∀ o2 ∈ objs, o2.qualified_name ∈ o.dependencies →
      (o.qualified_name, o2.qualified_name) ∈ g.edges) :
    ∀ i j o o2, o ∈ (partition_balanced cfg objs num g).getD i [] →
      o2 ∈ (partition_balanced cfg objs num g).getD j [] →
      o2.qualified_name ∈ o.dependencies → j ≤ i :=
  partition_balanced_ordering cfg g objs num hwf hac hnd hnodes hedge

/-- C2 (amended): with duplicate-free keys, a failed object's impact score
is the number of distinct nodes that depend on it through a chain of at most
`max_depth` edges (the breadth-first search is depth-bounded, so deeper
descendants are not counted; see the counterexample), and an object that did
not fail scores `0`. -/
theorem claim_C2 (objects : List AssessmentObject) (maxD : Nat)
    (o : AssessmentObject) (ho : o ∈ objects)
    (hnd : (objects.map AssessmentObject.key).Nodup) :
    (o.is_failed = true →
      ∃ ds : List String, ds.Nodup ∧
        DependencyAnalyzer.analyzedScore objects maxD o = (ds.length : Int) ∧
        (∀ p, p ∈ ds ↔ (p ≠ o.key ∧ ∃ k, 1 ≤ k ∧ k ≤ maxD ∧
          depChain (DependencyAnalyzer.build_graph objects) k p o.key))) ∧
    (o.is_failed = false →
      DependencyAnalyzer.analyzedScore objects maxD o = 0) := by
  constructor
  · intro hf
    refine ⟨DependencyAnalyzer.get_descendants
      (DependencyAnalyzer.build_graph objects) o.key maxD, ?_, ?_, ?_⟩
    · exact DependencyAnalyzer.get_descendants_nodup _
        (DependencyAnalyzer.build_graph_WF objects) _ _
    · exact DependencyAnalyzer.analyzedScore_failed objects maxD o ho hf hnd
    · intro p
      exact DependencyAnalyzer.mem_get_descendants _
        (DependencyAnalyzer.build_graph_WF objects) _ _ p
  · intro hf
    exact DependencyAnalyzer.analyzedScore_not_failed objects maxD o ho hf hnd

/-- C4 (amended): under the `error` policy plan creation fails exactly when
the Tarjan pass reports a cycle (self-loops are never reported, so a
self-loop graph still yields a plan; see the counterexample); under `warn`
it always produces a plan covering every input object, with one recorded
warning per detected cycle. -/
theorem claim_C4 (cfg : StrategyConfig) (objects : List DatabaseObject)
    (graph : DependencyGraph) (en now : String) :
    (cfg.circular_resolution = "error" →
      ((∃ e, create_plan cfg objects graph en now = Except.error e) ↔
        graph.detect_cycles ≠ [])) ∧
    (cfg.circular_resolution = "warn" →
      ∃ plan, create_plan cfg objects graph en now = Except.ok plan ∧
        (∀ o ∈ objects, ∃ b ∈ plan.batches, o ∈ b.objects) ∧
        (∀ c ∈ graph.detect_cycles,
          ("Circular dependency detected: " ++ joinArrow c) ∈ plan.warnings)) :=
  ⟨fun h => create_plan_error_iff cfg objects graph en now h,
   fun h => create_plan_warn cfg objects graph en now h⟩

/-- C5 (amended): the planner's `_add_edge` refuses self-loops outright, and
each full construction is self-loop-free provided no object's dependency
resolves to the object itself — for the planner, no stripped dependency
string equals the owner's qualified name; for the analyzer, duplicate-free
keys and no dependency resolving to the owner's key.  (Self-referential
inputs do produce self-loops in both implementations; see the
counterexample.) -/
theorem claim_C5 (objectsP : List DatabaseObject)
    (objectsA : List AssessmentObject)
    (hdepP : ∀ o ∈ objectsP, ∀ dep ∈ o.dependencies,
      strStrip dep ≠ o.qualified_name)
    (hndA : (objectsA.map AssessmentObject.key).Nodup)
    (hdepA : ∀ o ∈ objectsA, ∀ dep ∈ o.dependencies,
      DependencyAnalyzer.resolveDep o dep ≠ o.key) :
    (∀ (g : DependencyGraph) (n : String), g.add_edge n n = g) ∧
    (∀ n, (n, n) ∉ (DependencyGraph.ofObjects objectsP).edges) ∧
    (∀ n, (n, n) ∉ (DependencyAnalyzer.build_graph objectsA).edges) :=
  ⟨fun g n => DependencyGraph.add_edge_self g n,
   DependencyGraph.ofObjects_no_self objectsP hdepP,
   DependencyAnalyzer.build_graph_no_self objectsA hndA hdepA⟩

/-- C6 (amended): the analyzer's graph registers exactly the input objects'
keys as nodes — an unresolved dependency reference is dropped without error
and never becomes a node or an edge endpoint.  (The planner's `build`
instead registers every dependency string as a node; see the
counterexample.) -/
theorem claim_C6 (objects : List AssessmentObject) :
    (∀ n, n ∈ (DependencyAnalyzer.build_graph objects).nodes ↔
      n ∈ objects.map AssessmentObject.key) ∧
    (∀ e ∈ (DependencyAnalyzer.build_graph objects).edges,
      e.1 ∈ (DependencyAnalyzer.build_graph objects).nodes ∧
      e.2 ∈ (DependencyAnalyzer.build_graph objects).nodes) :=
  ⟨DependencyAnalyzer.build_graph_nodes objects,
   (DependencyAnalyzer.build_graph_WF objects).2.2⟩

/-- C7 (amended): the assembled plan is a pure function of the objects, the
graph, the configuration, the engagement name and the clock reading; two
runs at different clock readings differ exactly in the `created_at` field
(so byte-identical output needs an identical timestamp; see the
counterexample). -/
theorem claim_C7 (cfg : StrategyConfig) (objects : List DatabaseObject)
    (graph : DependencyGraph) (en t1 t2 : String) :
    (create_plan cfg objects graph en t1).map
      (fun p => { p with created_at := t2 }) =
    create_plan cfg objects graph en t2 :=
  create_plan_timestamp cfg objects graph en t1 t2

/-- C9 (amended): the planner gives every external table an implicit edge to
every external data source and every external file format of a different
qualified name; the analyzer adds the data-source edges only (no file-format
edges; see the counterexample). -/
theorem claim_C9 (objectsP : List DatabaseObject)
    (objectsA : List AssessmentObject)
    (o : DatabaseObject) (ho : o ∈ objectsP)
    (hot : o.object_type = ObjectType.EXTERNAL_TABLE)
    (s : DatabaseObject) (hs : s ∈ objectsP)
    (hst : s.object_type = ObjectType.EXTERNAL_DATA_SOURCE ∨
      s.object_type = ObjectType.EXTERNAL_FILE_FORMAT)
    (hne : o.qualified_name ≠ s.qualified_name)
    (oa : AssessmentObject) (hoa : oa ∈ objectsA)
    (hoat : oa.object_type = "EXTERNAL_TABLE")
    (sa : AssessmentObject) (hsa : sa ∈ objectsA)
    (hsat : sa.object_type = "EXTERNAL_DATA_SOURCE") :
    (o.qualified_name, s.qualified_name) ∈
      (DependencyGraph.ofObjects objectsP).edges ∧
    (oa.key, sa.key) ∈ (DependencyAnalyzer.build_graph objectsA).edges :=
  ⟨DependencyGraph.ofObjects_external_edges objectsP o ho hot s hs hst hne,
   DependencyAnalyzer.build_graph_external_edges objectsA oa hoa hoat sa hsa hsat⟩

/-- Every entry of a dependency chain transitively depends on its start. -/
theorem transGen_of_chain (g : DependencyGraph) :
    ∀ (l : List String) (a : String), chainB g a l = true →
      ∀ p ∈ l, Relation.TransGen g.EdgeStep p a := by
  intro l
  induction l with
  | nil =>
    intro a _ p hp
    exact absurd hp (List.not_mem_nil p)
  | cons b bs ih =>
    intro a hch p hp
    rw [chainB, Bool.and_eq_true] at hch
    rcases hch with ⟨h1, h2⟩
    have he : (b, a) ∈ g.edges := of_decide_eq_true h1
    rcases List.mem_cons.mp hp with rfl | hp'
    · exact Relation.TransGen.single he
    · exact Relation.TransGen.trans (ih b h2 p hp')
        (Relation.TransGen.single he)

set_option maxRecDepth 100000 in
theorem claim_C1_witness :
    gC1.WF ∧
      objD1 ∈ (partition_balanced {} objsC1 2 gC1).getD 1 [] ∧
      objB1 ∈ (partition_balanced {} objsC1 2 gC1).getD 1 [] ∧
      objB1.qualified_name ∈ objD1.dependencies ∧ 1 ≤ 1 := by
  have hwf : gC1.WF := by decide
  have hac : ¬ gC1.HasCycle :=
    DependencyGraph.acyclic_of_layers_cover gC1 hwf (by decide)
  refine ⟨hwf, by decide, by decide, by decide, ?_⟩
  exact claim_C1 {} gC1 objsC1 2 hwf hac (by decide) (by decide) (by decide)
    1 1 objD1 objB1 (by decide) (by decide) (by decide)

set_option maxRecDepth 100000 in
theorem claim_C1_counterexample :
    cB1.qualified_name ∈ cA1.dependencies ∧
    cA1 ∈ (partition_balanced {} [cA1, cB1] 2 gCyc1).getD 0 [] ∧
    cB1 ∈ (partition_balanced {} [cA1, cB1] 2 gCyc1).getD 1 [] ∧
    ¬ (1 : Nat) ≤ 0 := by decide

theorem claim_C2_witness :
    aOk ∈ [aOk] ∧
      (([aOk] : List AssessmentObject).map AssessmentObject.key).Nodup ∧
      (aOk.is_failed = false →
        DependencyAnalyzer.analyzedScore [aOk] 10 aOk = 0) :=
  ⟨by decide, by decide, (claim_C2 [aOk] 10 aOk (by decide) (by decide)).2⟩

set_option maxRecDepth 100000 in
theorem claim_C2_counterexample :
    DependencyAnalyzer.analyzedScore chainObjs 10 chainRoot = 10 ∧
    chainDesc.Nodup ∧ chainDesc.length = 11 ∧
    (∀ p ∈ chainDesc, p ≠ chainRoot.key ∧
      Relation.TransGen
        (DependencyAnalyzer.build_graph chainObjs).EdgeStep p chainRoot.key) := by
  refine ⟨by decide, by decide, by decide, ?_⟩
  have hne : ∀ p ∈ chainDesc, p ≠ chainRoot.key := by decide
  have hch : chainB (DependencyAnalyzer.build_graph chainObjs)
      chainRoot.key chainDesc = true := by decide
  intro p hp
  exact ⟨hne p hp,
    transGen_of_chain _ chainDesc chainRoot.key hch p hp⟩

set_option maxRecDepth 100000 in
theorem claim_C4_counterexample :
    cfgErr.circular_resolution = "error" ∧ selfG.HasCycle ∧
    (∃ p, create_plan cfgErr [selfLoopObj] selfG "e" "t" = Except.ok p) := by
  have hcyc : selfG.detect_cycles = [] := by decide
  refine ⟨rfl, ⟨"s.a", Relation.TransGen.single
    (show ("s.a", "s.a") ∈ selfG.edges by decide)⟩, ?_⟩
  cases hres : create_plan cfgErr [selfLoopObj] selfG "e" "t" with
  | ok p => exact ⟨p, rfl⟩
  | error e =>
    exact absurd ((create_plan_error_iff cfgErr [selfLoopObj] selfG "e" "t"
      rfl).mp ⟨e, hres⟩) (fun h => h hcyc)

theorem claim_C5_witness :
    (∀ o ∈ [okP], ∀ dep ∈ o.dependencies,
      strStrip dep ≠ o.qualified_name) ∧
    ((([okA] : List AssessmentObject).map AssessmentObject.key).Nodup) ∧
    (∀ o ∈ [okA], ∀ dep ∈ o.dependencies,
      DependencyAnalyzer.resolveDep o dep ≠ o.key) ∧
    ("s.a", "s.a") ∉ (DependencyAnalyzer.build_graph [okA]).edges := by
  refine ⟨by decide, by decide, by decide, ?_⟩
  exact (claim_C5 [okP] [okA] (by decide) (by decide) (by decide)).2.2 "s.a"

theorem claim_C5_counterexample :
    ("s.a", "s.a") ∈ (DependencyGraph.ofObjects [selfLoopObj]).edges ∧
    ("s.a", "s.a") ∈ (DependencyAnalyzer.build_graph [selfObjA]).edges := by
  decide

theorem claim_C6_counterexample :
    "x.y" ∈ (DependencyGraph.ofObjects [orphanObjP]).nodes ∧
    (∀ o ∈ [orphanObjP], o.qualified_name ≠ "x.y") ∧
    "x.y" ∉ (DependencyAnalyzer.build_graph [orphanObjA]).nodes := by
  decide

set_option maxRecDepth 100000 in
theorem claim_C7_counterexample :
    create_plan {} [] {} "e" "2024-01-01T00:00:00" ≠
      create_plan {} [] {} "e" "2024-01-02T00:00:00" := by decide

theorem claim_C9_witness :
    etP ∈ [etP, edsP, effP] ∧
      effP.object_type = ObjectType.EXTERNAL_FILE_FORMAT ∧
      (etP.qualified_name, effP.qualified_name) ∈
        (DependencyGraph.ofObjects [etP, edsP, effP]).edges ∧
      (etA2.key, edsA2.key) ∈
        (DependencyAnalyzer.build_graph [etA2, edsA2]).edges := by
  have h := claim_C9 [etP, edsP, effP] [etA2, edsA2] etP (by decide) rfl effP
    (by decide) (Or.inr rfl) (by decide) etA2 (by decide) rfl edsA2
    (by decide) rfl
  exact ⟨by decide, rfl, h.1, h.2⟩

theorem claim_C9_counterexample :
    etAc.object_type = "EXTERNAL_TABLE" ∧
    effAc.object_type = "EXTERNAL_FILE_FORMAT" ∧
    (etAc.key, effAc.key) ∉
      (DependencyAnalyzer.build_graph [etAc, effAc]).edges := by
  decide

end SynapseToFabric
